import Mathlib

/-!
Verification of the avalanche virtual-DOM reconciler (`avalanche/src/vdom.rs`,
`avalanche/src/lib.rs`, `avalanche-web/src/lib.rs`).

Shallow embedding notes:
* `View` (lib.rs) is reference-counted and renders through a context carrying
  per-instance state.  In the embedding a `View` is pure data: its render
  output (the child `View`s it produces this turn) is stored in the view
  itself, and `updated()` is the per-turn boolean the dependency tracker
  would report for the current generation.  The `HasChildrenMarker`
  downcast of `vdom.rs` (lines 245, 378) is folded into `render_result`:
  a marker render carries its children list, a plain render carries the
  one-element list `[child]` (both arms of the source `match` treat the
  lists identically).
* The tree container (`crate::tree`, not present under `src/`) is modelled
  from the spec, section 4.1: an arena of nodes with stable integer ids,
  parent pointers, ordered child lists, in-place sibling swap, and subtree
  removal (modelled as unlinking the subtree root from its parent).
* The generation type `Gen` (`crate::hooks`, not present under `src/`) is
  modelled from the spec, section 4.2: a monotonic counter whose `inc`
  increments it.
* The renderer (`crate::renderer`, trait not present under `src/`) is
  modelled as an event log: each reconciler-driven method call is recorded
  as an `RCall`.  `create_component` hands out fresh integer handles.
* Rust panics (`panic!`, `.expect`, `.unwrap`) in `update_vnode` are
  modelled with `Except String`; helper walks that can only abort on trees
  violating documented invariants (I2) return `none`/defaults instead,
  as noted at each definition.
-/

/-- A component value (lib.rs `View`, line 150).  `unit` is the `()`
component; `comp` carries the `TypeId` tag, source location, key, native
type descriptor, the `updated()` bit for the current turn, and the render
output for the current turn. -/
inductive View : Type where
  | unit : View
  | comp (tag : Nat) (loc : Option (Nat × Nat)) (key : Option String)
      (nty : Option Nat) (upd : Bool) (out : List View) : View

/-- lib.rs line 232: `native_type()`; `None` for non-native components
(and for `()`). -/
def View.native_type : View → Option Nat
  | .unit => none
  | .comp _ _ _ nty _ _ => nty

/-- lib.rs line 234: `updated()`; `false` for `()` (lib.rs line 221). -/
def View.updated : View → Bool
  | .unit => false
  | .comp _ _ _ _ upd _ => upd

/-- lib.rs line 236: `location()`; `None` only for the unit view. -/
def View.location : View → Option (Nat × Nat)
  | .unit => none
  | .comp _ loc _ _ _ _ => loc

/-- lib.rs line 238: `key()`. -/
def View.key : View → Option String
  | .unit => none
  | .comp _ _ key _ _ _ => key

/-- `component.type_id()` (vdom.rs line 548).  `none` encodes the `()`
type, so that unit views compare equal to each other and unequal to every
`comp`. -/
def View.type_id : View → Option Nat
  | .unit => none
  | .comp tag _ _ _ _ _ => some tag

/-- `component.is::<()>()` (vdom.rs line 215). -/
def View.is_unit : View → Bool
  | .unit => true
  | _ => false

/-- The child list produced by one `render` call, with the
`HasChildrenMarker` downcast folded in (vdom.rs lines 245-262, 378-381):
a multi-children render yields its children, a plain render yields the
single child as a one-element list.  Rendering `()` is unreachable in the
source (lib.rs line 219); it is given the empty list here but is always
guarded by `is_unit`. -/
def View.render_result : View → List View
  | .unit => []
  | .comp _ _ _ _ _ out => out

/-- vdom.rs lines 293-306: the identity of a child among its siblings. -/
structure ChildId where
  key : Option String
  location : Option (Nat × Nat)
deriving DecidableEq, Repr

/-- vdom.rs line 300 `ChildId::from_view`. -/
def ChildId.from_view (v : View) : ChildId :=
  ⟨v.key, v.location⟩

/-- vdom.rs lines 105-111 `VNode`.  The per-instance state map is not
carried: render output is pure data in this embedding, and state-driven
re-render requests appear only through the `dirty` bit, exactly as
`update_vnode` consumes them. -/
structure VNode where
  component : View
  native_handle : Option Nat
  native_type : Option Nat
  dirty : Bool

/-- vdom.rs line 116 `VNode::component`. -/
def VNode.ofComponent (c : View) : VNode :=
  ⟨c, none, none, false⟩

/-- One arena slot of the tree container.  Modelled from the spec,
section 4.1 (the `crate::tree` module is not under `src/`). -/
structure NodeRec where
  vnode : VNode
  parent : Option Nat
  children : List Nat

/-- The tree container: an arena of nodes addressed by integer ids.
Modelled from the spec, section 4.1. -/
structure VTree where
  nodes : List NodeRec

def junkRec : NodeRec :=
  ⟨VNode.ofComponent View.unit, none, []⟩

def VTree.get (t : VTree) (i : Nat) : NodeRec :=
  t.nodes.getD i junkRec

def VTree.getVNode (t : VTree) (i : Nat) : VNode :=
  (t.get i).vnode

def VTree.childrenOf (t : VTree) (i : Nat) : List Nat :=
  (t.get i).children

def VTree.parentOf (t : VTree) (i : Nat) : Option Nat :=
  (t.get i).parent

/-- spec 4.1 `len(parent)` (`node.len(tree)` at vdom.rs line 443). -/
def VTree.len (t : VTree) (i : Nat) : Nat :=
  (t.childrenOf i).length

/-- spec 4.1 `child(parent, i)` (`node.child(i, tree)`). -/
def VTree.childAt (t : VTree) (i : Nat) (k : Nat) : Nat :=
  (t.childrenOf i).getD k 0

def VTree.setRec (t : VTree) (i : Nat) (r : NodeRec) : VTree :=
  ⟨t.nodes.set i r⟩

def VTree.modifyVNode (t : VTree) (i : Nat) (f : VNode → VNode) : VTree :=
  t.setRec i { t.get i with vnode := f (t.get i).vnode }

/-- spec 4.1 `push(parent, node)`: append to the parent's child list,
allocating the next id. -/
def VTree.push (t : VTree) (p : Nat) (v : VNode) : Nat × VTree :=
  let id := t.nodes.length
  let t := t.setRec p { t.get p with children := t.childrenOf p ++ [id] }
  (id, ⟨t.nodes ++ [⟨v, some p, []⟩]⟩)

/-- Swap the entries at positions `i` and `j` of a list (Rust
`Vec::swap`, total variant: out-of-bounds indices leave the list
unchanged). -/
def swapIdx {α : Type} (l : List α) (i j : Nat) : List α :=
  match l.get? i, l.get? j with
  | some a, some b => (l.set i b).set j a
  | _, _ => l

/-- spec 4.1 `swap_children(parent, i, j)`. -/
def VTree.swapChildren (t : VTree) (p : Nat) (i j : Nat) : VTree :=
  t.setRec p { t.get p with children := swapIdx (t.childrenOf p) i j }

/-- spec 4.1 `remove_child(parent, i)`: unlink the subtree rooted at the
`i`-th child.  The subtree's slots stay in the arena but are no longer
reachable from the root. -/
def VTree.removeChild (t : VTree) (p : Nat) (i : Nat) : VTree :=
  let c := t.childAt p i
  let t := t.setRec p { t.get p with children := (t.childrenOf p).eraseIdx i }
  t.setRec c { t.get c with parent := none }

/-- spec 4.1: a fresh tree holding only the root node (`VTree::new` at
vdom.rs line 158). -/
def VTree.new (root : VNode) : VTree :=
  ⟨[⟨root, none, []⟩]⟩

/-- One renderer method invocation, as driven by the reconciler
(the `Renderer` trait lives in `crate::renderer`, not under `src/`;
the calls recorded here are exactly those `vdom.rs` makes). -/
inductive RCall where
  | create_component (nty handle : Nat)
  | append_child (pty ph cty ch : Nat)
  | insert_child (pty ph : Nat) (index : Nat) (cty ch : Nat)
  | swap_children (pty ph i j : Nat)
  | replace_child (pty ph : Nat) (index : Nat) (cty ch : Nat)
  | remove_child (pty ph : Nat) (index : Nat)
  | update_component (nty handle : Nat)
deriving DecidableEq, Repr

/-- The mutable context threaded through the reconciler: the tree, the
renderer call log, the log of `render` invocations (node id, generation),
and the fresh-handle counter for `create_component`. -/
structure St where
  tree : VTree
  calls : List RCall
  renders : List (Nat × Nat)
  nextHandle : Nat

def St.emit (st : St) (c : RCall) : St :=
  { st with calls := st.calls ++ [c] }

def St.render (st : St) (node gen : Nat) : St :=
  { st with renders := st.renders ++ [(node, gen)] }

def St.freshHandle (st : St) : Nat × St :=
  (st.nextHandle, { st with nextHandle := st.nextHandle + 1 })

def St.modifyVNode (st : St) (i : Nat) (f : VNode → VNode) : St :=
  { st with tree := st.tree.modifyVNode i f }

/-- vdom.rs line 21. -/
def DYNAMIC_CHILDREN_ERR : String :=
  "Dynamic components must be provided keys."

def FUEL_ERR : String := "out of fuel"

/-- vdom.rs lines 188-201 `child_with_native_handle`: walk down the unique
non-native chain until a node with a native handle is found.  The source
aborts when a handle-less node has several children (invariant I2
violated); the embedding returns `none` there, and the fuel (instantiated
with the arena size by the wrapper) plays the role of the termination the
source gets from tree finiteness. -/
def child_with_native_handle_go (t : VTree) : Nat → Nat → Option Nat
  | 0, _ => none
  | fuel + 1, node =>
    if (t.getVNode node).native_handle.isSome then some node
    else
      match t.childrenOf node with
      | [] => none
      | [c] => child_with_native_handle_go t fuel c
      | _ => none

def child_with_native_handle (node : Nat) (t : VTree) : Option Nat :=
  child_with_native_handle_go t t.nodes.length node

/-- vdom.rs lines 268-289 `native_append_child`. -/
def native_append_child (parent child : Nat) (st : St) : St :=
  match child_with_native_handle child st.tree with
  | some nc =>
    let p := st.tree.getVNode parent
    let c := st.tree.getVNode nc
    st.emit (.append_child (p.native_type.getD 0) (p.native_handle.getD 0)
      (c.native_type.getD 0) (c.native_handle.getD 0))
  | none => st

mutual

/-- vdom.rs lines 205-263 `generate_vnode`: render a freshly placed
component, create its native element if any, and recursively generate its
children.  `gen` is the generation handed to the render context. -/
def generate_vnode (fuel : Nat) (gen : Nat) (node : Nat) (st : St) :
    Except String St :=
  match fuel with
  | 0 => .error FUEL_ERR
  | fuel + 1 =>
    let vnode := st.tree.getVNode node
    if vnode.component.is_unit then .ok st
    else
      let st := st.render node gen
      let child_out := vnode.component.render_result
      let st := st.modifyVNode node
        (fun v => { v with native_type := v.component.native_type })
      match (st.tree.getVNode node).native_type with
      | some nty =>
        let fh := st.freshHandle
        let st := (fh.2.emit (.create_component nty fh.1)).modifyVNode node
          (fun v => { v with native_handle := some fh.1 })
        generate_children fuel gen node true child_out st
      | none =>
        generate_children fuel gen node false child_out st

/-- The children loop of `generate_vnode` (vdom.rs lines 245-262): push
each rendered child, generate it, and if the parent is native append its
native descendant.  (The fuel is threaded structurally: every call
consumes one unit, so `fuel` bounds the total number of reconciler
steps; the source needs no fuel because trees are finite.) -/
def generate_children (fuel : Nat) (gen : Nat) (node : Nat)
    (is_native : Bool) : List View → St → Except String St
  | [], st => .ok st
  | v :: rest, st =>
    match fuel with
    | 0 => .error FUEL_ERR
    | fuel + 1 =>
      let pushed := st.tree.push node (VNode.ofComponent v)
      match generate_vnode fuel gen pushed.1 { st with tree := pushed.2 } with
      | .error e => .error e
      | .ok st =>
        let st := if is_native then native_append_child node pushed.1 st
          else st
        generate_children fuel gen node is_native rest st

end

/-- vdom.rs lines 311-324 `propogate_update_to_native_parent`: walk up the
parent chain, marking each visited non-native node dirty, until a node
with a native handle is found (returned without being marked).  The fuel
(instantiated with `node + 1` by the wrapper) mirrors the termination the
source obtains from the finiteness of ancestor chains; in trees built by
the operations above, parent ids are strictly smaller than child ids, so
`node + 1` steps always suffice. -/
def propogate_go (fuel : Nat) (node : Nat) (t : VTree) :
    Option (Nat × VTree) :=
  match fuel with
  | 0 => none
  | fuel + 1 =>
    match t.parentOf node with
    | none => none
    | some p =>
      if (t.getVNode p).native_handle.isSome then some (p, t)
      else propogate_go fuel p (t.modifyVNode p (fun v => { v with dirty := true }))

def propogate_update_to_native_parent (node : Nat) (t : VTree) :
    Option (Nat × VTree) :=
  propogate_go (node + 1) node t

/-- Association-list with `HashMap::insert` semantics (replace the value
when the key is present, append otherwise); models
`in_place_components : HashMap<ChildId, (NodeId, usize)>`
(vdom.rs line 407). -/
def ipLookup (m : List (ChildId × Nat × Nat)) (k : ChildId) :
    Option (Nat × Nat) :=
  match m.find? (fun e => e.1 = k) with
  | some e => some e.2
  | none => none

def ipInsert (m : List (ChildId × Nat × Nat)) (k : ChildId) (v : Nat × Nat) :
    List (ChildId × Nat × Nat) :=
  if (m.find? (fun e => e.1 = k)).isSome then
    m.map (fun e => if e.1 = k then (k, v) else e)
  else m ++ [(k, v)]

/-- `in_place_components.get_mut(..)` followed by field assignment
(vdom.rs lines 470-472); a missing key (impossible in the flows the
source reaches, where every current child id was inserted) is a no-op. -/
def ipUpdate (m : List (ChildId × Nat × Nat)) (k : ChildId) (v : Nat × Nat) :
    List (ChildId × Nat × Nat) :=
  m.map (fun e => if e.1 = k then (k, v) else e)

/-- vdom.rs lines 412-415: build `in_place_components` over the current
children (the combined loop of lines 412-421 is split into this map pass
and `buildNativeIndices` below; the two passes read disjoint data). -/
def buildInPlace (t : VTree) (cs : List Nat) : List (ChildId × Nat × Nat) :=
  cs.enum.foldl
    (fun m e =>
      ipInsert m (ChildId.from_view (t.getVNode e.2).component) (e.2, e.1))
    []

/-- vdom.rs lines 409-420 and 451-459: assign consecutive native indices
to the children that own a native descendant (`native_indices`), starting
from `start`, and return the next free index (`curr_native_idx`). -/
def buildNativeIndices (t : VTree) (cs : List Nat) (start : Nat) :
    List (Option Nat) × Nat :=
  cs.foldl
    (fun acc c =>
      match child_with_native_handle c t with
      | some _ => (acc.1 ++ [some acc.2], acc.2 + 1)
      | none => (acc.1 ++ [none], acc.2))
    ([], start)

/-- vdom.rs lines 437-449: for each new child id not present in
`in_place_components`, push a fresh `VNode`, record it, generate it, and
(for a native parent) append its native descendant.  Returns the
`children` vector after `child.take()` (consumed entries become `none`),
the updated map, and the state. -/
def create_new_children (fuel gen node : Nat) (is_native : Bool) :
    List (View × ChildId) → List (ChildId × Nat × Nat) → St →
    Except String (List (Option View) × List (ChildId × Nat × Nat) × St)
  | [], ip, st => .ok ([], ip, st)
  | (v, id) :: rest, ip, st =>
    if (ipLookup ip id).isSome then
      match create_new_children fuel gen node is_native rest ip st with
      | .error e => .error e
      | .ok (vs, ip, st) => .ok (some v :: vs, ip, st)
    else
      let pushed := st.tree.push node (VNode.ofComponent v)
      let st := { st with tree := pushed.2 }
      let ip := ipInsert ip id (pushed.1, st.tree.len node - 1)
      match generate_vnode fuel gen pushed.1 st with
      | .error e => .error e
      | .ok st =>
        let st := if is_native then native_append_child node pushed.1 st
          else st
        match create_new_children fuel gen node is_native rest ip st with
        | .error e => .error e
        | .ok (vs, ip, st) => .ok (none :: vs, ip, st)

/-- vdom.rs lines 461-476: the selection-style in-place reorder.  For
each target position `i` (paired with the expected id), if the child
currently at `i` has a different id, swap it with the position currently
holding the expected id, swap the parallel `native_indices` entries, and
update the bookkeeping entry of the displaced id (the source stores
`swap_node` in its `.0` field; that value is never read by a tree
operation afterwards, and is reproduced faithfully here). -/
def selection_reorder_go (node : Nat) :
    List (Nat × ChildId) → List (Option Nat) → List (ChildId × Nat × Nat) →
    St → St × List (Option Nat) × Nat
  | [], ni, _, st => (st, ni, 0)
  | (i, id) :: rest, ni, ip, st =>
    let old_node := st.tree.childAt node i
    let old_node_id := ChildId.from_view (st.tree.getVNode old_node).component
    if old_node_id ≠ id then
      match ipLookup ip id with
      | some (swap_node, swap_pos) =>
        let st := { st with tree := st.tree.swapChildren node i swap_pos }
        let ni := swapIdx ni i swap_pos
        let ip := ipUpdate ip old_node_id (swap_node, swap_pos)
        let r := selection_reorder_go node rest ni ip st
        (r.1, r.2.1, r.2.2 + 1)
      | none => selection_reorder_go node rest ni ip st
    else
      selection_reorder_go node rest ni ip st

/-- The in-place reorder, also reporting the number of in-tree sibling
swaps performed (the count is a property of the run; the source performs
the same swaps without counting them). -/
def selection_reorder (node : Nat) (ids : List ChildId)
    (ni : List (Option Nat)) (ip : List (ChildId × Nat × Nat)) (st : St) :
    St × List (Option Nat) × Nat :=
  selection_reorder_go node ids.enum ni ip st

/-- vdom.rs lines 483-486: `native_indices_map`, a vector of length
`native_indices.len()` primed with `usize::MAX` (rendered here as the
out-of-range value `l.length`) and then overwritten at position `elem`
with `i` for each entry. -/
def mkIndicesMap (l : List Nat) : List Nat :=
  l.enum.foldl (fun m e => m.set e.2 e.1) (List.replicate l.length l.length)

/-- vdom.rs lines 491-495, the inner `while i != native_indices_map[i]`
loop: emit a renderer swap and swap the two map entries.  The fuel
(instantiated with the map length by `cycle_loop`) covers the source
loop's termination, which holds whenever the map is a permutation. -/
def cycle_inner (pty ph i : Nat) : Nat → List Nat → St → List Nat × St
  | 0, m, st => (m, st)
  | fw + 1, m, st =>
    if i = m.getD i 0 then (m, st)
    else
      let swap_pos := m.getD i 0
      let st := st.emit (.swap_children pty ph i swap_pos)
      cycle_inner pty ph i fw (swapIdx m i swap_pos) st

/-- vdom.rs lines 490-496, the outer `for i in 0..native_indices.len()`
loop. -/
def cycle_loop (pty ph : Nat) : List Nat → Nat → List Nat → St → List Nat × St
  | [], _, m, st => (m, st)
  | _ :: rest, i, m, st =>
    let (m, st) := cycle_inner pty ph i m.length m st
    cycle_loop pty ph rest (i + 1) m st

/-- vdom.rs lines 498-510: for each extra child position (in reverse), if
the child owns a native descendant, emit `remove_child` at the position
popped off the back of `native_indices_map` and saturating-decrement
`curr_native_idx`. -/
def remove_extra_native (node : Nat) :
    List Nat → List Nat → Nat → St → St × List Nat × Nat
  | [], m, idx, st => (st, m, idx)
  | i :: rest, m, idx, st =>
    match child_with_native_handle (st.tree.childAt node i) st.tree with
    | some _ =>
      let p := st.tree.getVNode node
      let st := st.emit (.remove_child (p.native_type.getD 0)
        (p.native_handle.getD 0) (m.getLast?.getD 0))
      remove_extra_native node rest m.dropLast (idx - 1) st
    | none => remove_extra_native node rest m idx st

/-- vdom.rs lines 481-511, the `if is_native` block: flatten
`native_indices`, build the position map, run the cycle-chasing swap
loop, then emit removals for extra children. -/
def native_reorder_and_remove (node : Nat) (newLen : Nat)
    (ni : List (Option Nat)) (curr_native_idx : Nat) (st : St) : St × Nat :=
  let flat := ni.filterMap id
  let m := mkIndicesMap flat
  let p := st.tree.getVNode node
  let pty := p.native_type.getD 0
  let ph := p.native_handle.getD 0
  let (m, st) := cycle_loop pty ph flat 0 m st
  let extras := (List.range' newLen (st.tree.len node - newLen)).reverse
  let (st, _, idx) := remove_extra_native node extras m curr_native_idx st
  (st, idx)

/-- vdom.rs lines 513-515: drop the extra child subtrees from the tree,
last position first. -/
def remove_extra_children (node : Nat) (newLen : Nat) (st : St) : St :=
  ((List.range' newLen (st.tree.len node - newLen)).reverse).foldl
    (fun st i => { st with tree := st.tree.removeChild node i }) st

/-- vdom.rs lines 567-590 `native_insert_child`. -/
def native_insert_child (parent child pos : Nat) (st : St) : St :=
  match child_with_native_handle child st.tree with
  | some nc =>
    let p := st.tree.getVNode parent
    let c := st.tree.getVNode nc
    st.emit (.insert_child (p.native_type.getD 0) (p.native_handle.getD 0)
      pos (c.native_type.getD 0) (c.native_handle.getD 0))
  | none => st

/-- vdom.rs lines 544-558: after the diff, if the component type is
unchanged refresh `native_type` from the new component and, when native,
emit `update_component`. -/
def native_self_update (node : Nat) (old_component : Option View) (st : St) :
    St :=
  match old_component with
  | none => st
  | some oc =>
    if oc.type_id = (st.tree.getVNode node).component.type_id then
      let st := st.modifyVNode node
        (fun v => { v with native_type := v.component.native_type })
      match (st.tree.getVNode node).native_type with
      | some nty =>
        st.emit (.update_component nty
          ((st.tree.getVNode node).native_handle.getD 0))
      | none => st
    else st

/-- vdom.rs lines 356-376, the entry steps of a proceeding update: set
the dirty flag (line 356), remember and swap in the new component when
one is supplied (lines 358-364), and record the render (lines 366-376).
Returns the updated state and `old_component`. -/
def update_entry (gen : Nat) (new_component : Option View) (node : Nat)
    (st : St) : St × Option View :=
  let st := st.modifyVNode node (fun v => { v with dirty := true })
  let old_component := match new_component with
    | some _ => some (st.tree.getVNode node).component
    | none => none
  let st := match new_component with
    | some comp => st.modifyVNode node (fun v => { v with component := comp })
    | none => st
  let st := st.render node gen
  (st, old_component)

mutual

/-- vdom.rs lines 330-561 `update_vnode`: bring `node`'s children and
native elements in line with its component's current props and state. -/
def update_vnode (fuel : Nat) (gen : Nat) (new_component : Option View)
    (node : Nat) (st : St) : Except String St :=
  match fuel with
  | 0 => .error FUEL_ERR
  | fuel + 1 =>
    -- lines 339-347
    let props_updated := match new_component with
      | some new => new.updated
      | none => false
    let vnode := st.tree.getVNode node
    let state_updated := vnode.dirty
    let is_native := vnode.native_handle.isSome
    -- lines 349-353: neither props nor state changed, no rerender needed
    if !(props_updated || state_updated) then .ok st
    else
      -- lines 356-376
      let es := update_entry gen new_component node st
      let st := es.1
      let old_component := es.2
      let children := (st.tree.getVNode node).component.render_result
      -- lines 383-403
      if is_native then
        update_vnode_diff fuel gen old_component node is_native children st
      else
        let old_child := (st.tree.getVNode (st.tree.childAt node 0)).component
        let new_child := children.headD View.unit
        if old_child.location ≠ new_child.location ∨
            old_child.key ≠ new_child.key then
          match propogate_update_to_native_parent node st.tree with
          | none => .error "native parent of a component with updated native identity"
          | some (native_parent, t') =>
            let st := { st with tree := t' }
            if !(st.tree.getVNode native_parent).dirty then
              let st := st.modifyVNode native_parent
                (fun v => { v with dirty := true })
              let st := match old_component with
                | some oc =>
                  st.modifyVNode node (fun v => { v with component := oc })
                | none => st
              update_vnode fuel gen none native_parent st
            else
              update_vnode_diff fuel gen old_component node is_native children st
        else
          update_vnode_diff fuel gen old_component node is_native children st
termination_by structural fuel

/-- vdom.rs lines 405-560: the child diff and the tail of `update_vnode`
(duplicate checks, creation of new children, in-place and native
reordering, removal of extras, the recursive update of retained children,
the native self-update, and clearing `dirty`). -/
def update_vnode_diff (fuel : Nat) (gen : Nat) (old_component : Option View)
    (node : Nat) (is_native : Bool) (children : List View) (st : St) :
    Except String St :=
  match fuel with
  | 0 => .error FUEL_ERR
  | fuel + 1 =>
  -- lines 405-421
  let old_children := st.tree.childrenOf node
  let vnode_children_len := old_children.length
  let in_place₀ := buildInPlace st.tree old_children
  -- lines 423-435: the two duplicate-identity aborts
  if in_place₀.length ≠ vnode_children_len then .error DYNAMIC_CHILDREN_ERR
  else
    let children_ids := children.map ChildId.from_view
    if children_ids.dedup.length ≠ children_ids.length then
      .error DYNAMIC_CHILDREN_ERR
    else
      update_vnode_diff_rest fuel gen old_component node is_native children
        children_ids in_place₀ st
termination_by structural fuel

/-- vdom.rs lines 437-560: the tail of the child diff, after the
duplicate-identity checks have passed. -/
def update_vnode_diff_rest (fuel : Nat) (gen : Nat)
    (old_component : Option View) (node : Nat) (is_native : Bool)
    (children : List View) (children_ids : List ChildId)
    (in_place₀ : List (ChildId × Nat × Nat)) (st : St) : Except String St :=
  match fuel with
  | 0 => .error FUEL_ERR
  | fuel + 1 =>
  let vnode_children_len := st.tree.len node
  let niPair := buildNativeIndices st.tree (st.tree.childrenOf node) 0
  -- lines 437-449
  match create_new_children fuel gen node is_native
      (children.zip children_ids) in_place₀ st with
  | .error e => .error e
  | .ok (children_opt, in_place₁, st) =>
    -- lines 451-459
    let niPair₁ := buildNativeIndices st.tree
      ((st.tree.childrenOf node).drop vnode_children_len) niPair.2
    let native_indices₁ := niPair.1 ++ niPair₁.1
    let curr_native_idx₁ := niPair₁.2
    -- lines 461-479
    let srPair := selection_reorder node children_ids native_indices₁
      in_place₁ st
    let st := srPair.1
    -- lines 481-511
    let nrPair :=
      if is_native then
        native_reorder_and_remove node children_ids.length srPair.2.1
          curr_native_idx₁ st
      else (st, curr_native_idx₁)
    let st := nrPair.1
    -- lines 513-515
    let st := remove_extra_children node children_ids.length st
    -- lines 519-542
    match update_children fuel gen is_native node
        ((children_opt.zip (st.tree.childrenOf node)).reverse)
        (nrPair.2 - 1) st with
    | .error e => .error e
    | .ok (st, _) =>
      -- lines 544-558
      let st := native_self_update node old_component st
      -- line 560
      .ok (st.modifyVNode node (fun v => { v with dirty := false }))
termination_by structural fuel

/-- vdom.rs lines 519-542: iterate the (new child, child node) pairs in
reverse, threading `curr_native_idx`; retained children go through
`native_update_vnode`, children consumed by creation (`None`) only adjust
the index. -/
def update_children (fuel : Nat) (gen : Nat) (is_native : Bool)
    (parent : Nat) : List (Option View × Nat) → Nat → St →
    Except String (St × Nat)
  | [], idx, st => .ok (st, idx)
  | (c?, childN) :: rest, idx, st =>
    match fuel with
    | 0 => .error FUEL_ERR
    | fuel + 1 =>
      match c? with
      | some v =>
        match native_update_vnode fuel gen is_native idx (some v) parent
            childN st with
        | .error e => .error e
        | .ok (st, idx) =>
          update_children fuel gen is_native parent rest idx st
      | none =>
        let idx :=
          if is_native && (child_with_native_handle childN st.tree).isSome then
            idx - 1
          else idx
        update_children fuel gen is_native parent rest idx st
termination_by structural fuel

/-- vdom.rs lines 600-660 `native_update_vnode`: update `child`, then
reflect the change of its native descendant in the parent's native
children (replace / remove / insert), returning the adjusted
`native_pos`. -/
def native_update_vnode (fuel : Nat) (gen : Nat) (is_native : Bool)
    (native_pos : Nat) (new_component : Option View) (parent child : Nat)
    (st : St) : Except String (St × Nat) :=
  match fuel with
  | 0 => .error FUEL_ERR
  | fuel + 1 =>
  let old_native_child :=
    if is_native then child_with_native_handle child st.tree else none
  match update_vnode fuel gen new_component child st with
  | .error e => .error e
  | .ok st =>
    let new_native_child :=
      if is_native then child_with_native_handle child st.tree else none
    match old_native_child, new_native_child with
    | some _, some newc =>
      let p := st.tree.getVNode parent
      let c := st.tree.getVNode newc
      let st := st.emit (.replace_child (p.native_type.getD 0)
        (p.native_handle.getD 0) native_pos (c.native_type.getD 0)
        (c.native_handle.getD 0))
      .ok (st, native_pos - 1)
    | some _, none =>
      let p := st.tree.getVNode parent
      let st := st.emit (.remove_child (p.native_type.getD 0)
        (p.native_handle.getD 0) native_pos)
      .ok (st, native_pos - 1)
    | none, some newc =>
      .ok (native_insert_child parent newc native_pos st, native_pos)
    | none, none => .ok (st, native_pos)
termination_by structural fuel

end

/-- `Gen` (`crate::hooks`, not present under `src/`).  Modelled from the
spec, section 4.2: one monotonic counter per root. -/
structure Gen where
  gen : Nat
deriving DecidableEq, Repr

/-- Modelled from the spec: the generation is a monotonically increasing
integer, `inc` advances it (used at vdom.rs line 176). -/
def Gen.inc (g : Gen) : Gen :=
  ⟨g.gen + 1⟩

/-- vdom.rs lines 143-180 `Root::new`: seed the tree with the
native parent (using the externally supplied handle), push the child,
generate it with `Gen { gen: 0 }`, append its native element under the
root, and increment the stored generation (initially `Gen { gen: 1 }`).
Returns the final reconciler state and the stored generation.
`nextHandle` starts above the externally supplied handle so renderer
handles stay distinct from it. -/
def Root.new (fuel : Nat) (child native_parent : View) (native_handle : Nat) :
    Except String (St × Gen) :=
  match native_parent.native_type with
  | none => .error "native_parent has native_type"
  | some nty =>
    let vnode := { VNode.ofComponent native_parent with
      native_type := some nty, native_handle := some native_handle }
    let vgen : Gen := ⟨1⟩
    let st : St := ⟨VTree.new vnode, [], [], native_handle + 1⟩
    let pushed := st.tree.push 0 (VNode.ofComponent child)
    let st := { st with tree := pushed.2 }
    match generate_vnode fuel 0 pushed.1 st with
    | .error e => .error e
    | .ok st =>
      let st := native_append_child 0 pushed.1 st
      .ok (st, vgen.inc)

/-- lib.rs lines 174-181, `impl<T: DynComponent> From<Option<T>> for
View`: `Some(val)` is wrapped into a `View` (`View::new` only
reference-counts, so it is the identity here), `None` becomes the unit
view. -/
def View.fromOptionComponent : Option View → View
  | some val => val
  | none => View.unit

/-- lib.rs lines 183-190, `impl From<Option<View>> for View`. -/
def View.fromOptionView : Option View → View
  | some val => val
  | none => View.unit

/-- The child-node list of one DOM element in the web renderer
(avalanche-web/src/lib.rs).  Entries are node identities; the
`children_offset` of `WebNativeHandle` (line 111) counts pre-existing
siblings in front of the reconciler-managed range. -/
structure WebDom where
  childNodes : List Nat
  offset : Nat

/-- avalanche-web lines 129-135 `try_get_child`:
`parent.child_nodes().item(child_idx + offset)`. -/
def WebDom.try_get_child (d : WebDom) (child_idx : Nat) : Option Nat :=
  d.childNodes.get? (child_idx + d.offset)

/-- DOM `Node.replaceChild(new, old)` as invoked at avalanche-web line
492: the replacement is detached from its current position, if any, and
takes the place of `old`. -/
def domReplaceNode (l : List Nat) (new old : Nat) : List Nat :=
  (l.erase new).map (fun x => if x = old then new else x)

/-- avalanche-web lines 477-496 `WebRenderer::replace_child`: fetch the
node currently at `index` (plus offset); if it already is the
replacement, do nothing, otherwise perform the DOM replacement.  The
`get_child` unwrap aborts when the index is out of range; the embedding
leaves the DOM unchanged there (the reconciler only issues in-range
indices). -/
def WebRenderer.replace_child (d : WebDom) (index : Nat) (child : Nat) :
    WebDom :=
  match d.try_get_child index with
  | none => d
  | some curr =>
    if curr = child then d
    else { d with childNodes := domReplaceNode d.childNodes child curr }

/-- The renderer contract, section 4.5 of the spec, as a transformer of
the native child list of one parent (the `Renderer` trait itself is in
`crate::renderer`, not under `src/`).  Modelled from the spec:
`swap_children` exchanges positions `i` and `j`, `replace_child` puts the
handle at `index`, `remove_child` deletes position `index`,
`insert_child` inserts at `index`, `append_child` appends; calls for
other parents (recognised by the parent handle) and non-child calls leave
the list unchanged. -/
def applyCall (ph : Nat) (l : List Nat) : RCall → List Nat
  | .swap_children _ ph' i j => if ph' = ph then swapIdx l i j else l
  | .replace_child _ ph' index _ ch =>
    if ph' = ph then l.set index ch else l
  | .remove_child _ ph' index => if ph' = ph then l.eraseIdx index else l
  | .insert_child _ ph' index _ ch =>
    if ph' = ph then l.insertIdx index ch else l
  | .append_child _ ph' _ ch => if ph' = ph then l ++ [ch] else l
  | _ => l

def applyCalls (ph : Nat) (calls : List RCall) (l : List Nat) : List Nat :=
  calls.foldl (applyCall ph) l

/-! ### Small executable fixtures used by witnesses -/

def stEmpty : St :=
  ⟨VTree.new (VNode.ofComponent View.unit), [], [], 0⟩

/-- A native leaf component: distinct key and location per index, native
type 5, not updated, renders the unit view. -/
def leafView (i : Nat) : View :=
  View.comp (10 + i) (some (1, i)) (some (toString i)) (some 5) false
    [View.unit]

def leafViewUpd (i : Nat) : View :=
  View.comp (10 + i) (some (1, i)) (some (toString i)) (some 5) true
    [View.unit]

/-- A native container rendering the given children. -/
def boxView (cs : List View) (upd : Bool) : View :=
  View.comp 1 (some (2, 0)) none (some 7) upd cs

/-- A native mount root rendering the given child. -/
def rootView (c : View) : View :=
  View.comp 2 (some (0, 0)) none (some 9) false [c]

/-! ### Generation threading (for C9) -/

/-- Joint statement for the mount recursion: every render recorded by
`generate_vnode` / `generate_children` carries the generation the call
was given. -/
theorem generate_renders_gen_aux :
    ∀ fuel,
      (∀ gen node st st', generate_vnode fuel gen node st = .ok st' →
        ∀ p ∈ st'.renders, p ∈ st.renders ∨ p.2 = gen) ∧
      (∀ gen node b l st st',
        generate_children fuel gen node b l st = .ok st' →
        ∀ p ∈ st'.renders, p ∈ st.renders ∨ p.2 = gen) := by
  intro fuel
  induction fuel with
  | zero =>
    constructor
    · intro gen node st st' h; simp [generate_vnode] at h
    · intro gen node b l st st' h
      cases l with
      | nil => simp [generate_children] at h; subst h; exact fun p hp => Or.inl hp
      | cons v rest => simp [generate_children] at h
  | succ fuel ih =>
    obtain ⟨ihv, ihc⟩ := ih
    constructor
    · intro gen node st st' h
      rw [generate_vnode] at h
      by_cases hu : (st.tree.getVNode node).component.is_unit = true
      · simp only [hu, if_true] at h
        cases h; exact fun p hp => Or.inl hp
      · simp only [hu, Bool.false_eq_true, if_false] at h
        cases hnt : ((st.render node gen).modifyVNode node
            (fun v => { v with native_type := v.component.native_type
              })).tree.getVNode node |>.native_type with
        | some nty =>
          rw [hnt] at h
          intro p hp
          rcases ihc _ _ _ _ _ _ h p hp with h2 | h2
          · simp only [St.freshHandle, St.emit, St.modifyVNode,
              St.render] at h2
            rcases List.mem_append.1 h2 with h3 | h3
            · exact Or.inl h3
            · simp at h3; right; rw [h3]
          · exact Or.inr h2
        | none =>
          rw [hnt] at h
          intro p hp
          rcases ihc _ _ _ _ _ _ h p hp with h2 | h2
          · simp only [St.modifyVNode, St.render] at h2
            rcases List.mem_append.1 h2 with h3 | h3
            · exact Or.inl h3
            · simp at h3; right; rw [h3]
          · exact Or.inr h2
    · intro gen node b l st st' h
      cases l with
      | nil =>
        simp [generate_children] at h; subst h; exact fun p hp => Or.inl hp
      | cons v rest =>
        rw [generate_children] at h
        set pushed := st.tree.push node (VNode.ofComponent v) with hpush
        cases hg : generate_vnode fuel gen pushed.1
            { st with tree := pushed.2 } with
        | error e => rw [hg] at h; cases h
        | ok st₁ =>
          rw [hg] at h
          intro p hp
          rcases ihc _ _ _ _ _ _ h p hp with h2 | h2
          · have hins : (if b then native_append_child node pushed.1 st₁
                else st₁).renders = st₁.renders := by
              cases b with
              | false => simp
              | true =>
                simp only [if_true]
                unfold native_append_child
                cases child_with_native_handle pushed.1 st₁.tree <;>
                  simp [St.emit]
            rw [hins] at h2
            have h3 := ihv gen pushed.1 { st with tree := pushed.2 } st₁ hg p h2
            simpa using h3
          · exact Or.inr h2

/-- Every render recorded by `generate_vnode` carries the generation the
call was given: the reconciler threads a single `G` through the whole
mount. -/
theorem generate_vnode_renders_gen :
    ∀ fuel gen node st st', generate_vnode fuel gen node st = .ok st' →
      ∀ p ∈ st'.renders, p ∈ st.renders ∨ p.2 = gen :=
  fun fuel => (generate_renders_gen_aux fuel).1

/-! ### Claims C1, C10, C9 -/

/-- C1: if the supplied new component does not report `updated()` and the
instance's dirty flag is clear, `update_vnode` returns immediately: the
resulting state is the input state, so no render is recorded, no renderer
call is emitted, and the tree (the instance and its children included) is
unchanged (vdom.rs lines 339-353). -/
theorem C1_update_vnode_skips_clean_instance
    (fuel gen : Nat) (new : Option View) (node : Nat) (st : St)
    (hprops : ∀ v, new = some v → v.updated = false)
    (hdirty : (st.tree.getVNode node).dirty = false) :
    update_vnode (fuel + 1) gen new node st = .ok st := by
  rcases new with _ | v
  · unfold update_vnode
    simp [hdirty]
  · unfold update_vnode
    simp [hdirty, hprops v rfl]

theorem C1_witness :
    ((∀ v, (none : Option View) = some v → v.updated = false) ∧
      (stEmpty.tree.getVNode 0).dirty = false) ∧
    update_vnode 1 0 none 0 stEmpty = .ok stEmpty :=
  ⟨⟨fun _ h => (nomatch h), rfl⟩,
    C1_update_vnode_skips_clean_instance 0 0 none 0 stEmpty
      (fun _ h => (nomatch h)) rfl⟩

/-- C10: converting an `Option` into a `View` maps `None` to the unit
view and `Some` to the contained view, for both `From<Option<T>>` and
`From<Option<View>>` (lib.rs lines 174-190); and `generate_vnode` on an
instance holding the unit view returns immediately, recording no render
and emitting no renderer call (vdom.rs lines 215-217). -/
theorem C10_option_view_unit
    (v : View) (fuel gen node : Nat) (st : St)
    (hunit : (st.tree.getVNode node).component = View.unit) :
    View.fromOptionComponent none = View.unit ∧
    View.fromOptionComponent (some v) = v ∧
    View.fromOptionView none = View.unit ∧
    View.fromOptionView (some v) = v ∧
    generate_vnode (fuel + 1) gen node st = .ok st := by
  refine ⟨rfl, rfl, rfl, rfl, ?_⟩
  simp [generate_vnode, hunit, View.is_unit]

theorem C10_witness :
    (stEmpty.tree.getVNode 0).component = View.unit ∧
    generate_vnode 1 0 0 stEmpty = .ok stEmpty :=
  ⟨rfl, (C10_option_view_unit (View.comp 1 none none none false [])
    0 0 0 stEmpty rfl).2.2.2.2⟩

/-- The concrete `Root::new` run used by the C9 witness. -/
def rootRunC9 : Except String (St × Gen) :=
  Root.new 20 (boxView [leafView 1] false)
    (rootView (boxView [leafView 1] false)) 50

def rootRunC9St : St :=
  match rootRunC9 with
  | .ok (st, _) => st
  | .error _ => stEmpty

def rootRunC9Gen : Gen :=
  match rootRunC9 with
  | .ok (_, g) => g
  | .error _ => ⟨0⟩

/-- C9: the generation counter is monotonically increasing
(`Gen.inc` strictly increases it); the initial mount in `Root::new`
threads the single generation value `Gen { gen: 0 }` through every
render of the turn; and the root's stored generation (initially
`Gen { gen: 1 }`, vdom.rs line 160) is incremented exactly once at the
end of the turn (vdom.rs line 176). -/
theorem C9_generation_monotone_single_G
    (fuel : Nat) (child native_parent : View) (handle : Nat)
    (st : St) (g : Gen)
    (hok : Root.new fuel child native_parent handle = .ok (st, g)) :
    (∀ g' : Gen, (Gen.inc g').gen = g'.gen + 1) ∧
    (∀ p ∈ st.renders, p.2 = 0) ∧
    g = Gen.inc ⟨1⟩ := by
  refine ⟨fun _ => rfl, ?_⟩
  simp only [Root.new] at hok
  cases hnt : native_parent.native_type with
  | none => rw [hnt] at hok; simp at hok
  | some nty =>
    rw [hnt] at hok
    simp only at hok
    set st₀ : St := ⟨VTree.new { VNode.ofComponent native_parent with
      native_type := some nty, native_handle := some handle }, [], [],
      handle + 1⟩ with hst₀
    set pushed := st₀.tree.push 0 (VNode.ofComponent child) with hpushed
    cases hg : generate_vnode fuel 0 pushed.1 { st₀ with tree := pushed.2 } with
    | error e => rw [hg] at hok; simp at hok
    | ok st₁ =>
      rw [hg] at hok
      simp only at hok
      have hst : st = native_append_child 0 pushed.1 st₁ ∧ g = Gen.inc ⟨1⟩ := by
        cases hok; exact ⟨rfl, rfl⟩
      refine ⟨?_, hst.2⟩
      have hren : st.renders = st₁.renders := by
        rw [hst.1]
        unfold native_append_child
        cases child_with_native_handle pushed.1 st₁.tree <;> simp [St.emit]
      intro p hp
      rw [hren] at hp
      have h2 := generate_vnode_renders_gen fuel 0 pushed.1 _ st₁ hg p hp
      rcases h2 with h2 | h2
      · simp at h2
      · exact h2

theorem C9_witness :
    Root.new 20 (boxView [leafView 1] false)
      (rootView (boxView [leafView 1] false)) 50 =
        .ok (rootRunC9St, rootRunC9Gen) ∧
    (∀ p ∈ rootRunC9St.renders, p.2 = 0) ∧
    rootRunC9Gen = Gen.inc ⟨1⟩ := by
  have hok : Root.new 20 (boxView [leafView 1] false)
      (rootView (boxView [leafView 1] false)) 50 =
        .ok (rootRunC9St, rootRunC9Gen) := by rfl
  exact ⟨hok,
    (C9_generation_monotone_single_G 20 (boxView [leafView 1] false)
      (rootView (boxView [leafView 1] false)) 50 rootRunC9St rootRunC9Gen
      hok).2.1,
    (C9_generation_monotone_single_G 20 (boxView [leafView 1] false)
      (rootView (boxView [leafView 1] false)) 50 rootRunC9St rootRunC9Gen
      hok).2.2⟩

/-! ### Duplicate-identity bookkeeping (for C7) -/

def ipKeys (m : List (ChildId × Nat × Nat)) : List ChildId :=
  m.map (fun e => e.1)

theorem ipKeys_ipInsert (m : List (ChildId × Nat × Nat)) (k : ChildId)
    (v : Nat × Nat) :
    ipKeys (ipInsert m k v) =
      if k ∈ ipKeys m then ipKeys m else ipKeys m ++ [k] := by
  unfold ipInsert
  by_cases h : (m.find? (fun e => e.1 = k)).isSome
  · have hk : k ∈ ipKeys m := by
      rw [List.find?_isSome] at h
      obtain ⟨e, he, hek⟩ := h
      have : e.1 = k := by simpa using hek
      exact this ▸ List.mem_map_of_mem _ he
    simp only [h, if_true, hk, if_true]
    unfold ipKeys
    rw [List.map_map]
    apply List.map_congr_left
    intro e _
    by_cases he : e.1 = k
    · simp [he]
    · simp [he]
  · have hk : k ∉ ipKeys m := by
      intro hmem
      apply h
      rw [List.find?_isSome]
      obtain ⟨e, he, hek⟩ := List.mem_map.1 hmem
      exact ⟨e, he, by simp [hek]⟩
    simp only [h, if_false, hk, if_false, Bool.false_eq_true]
    unfold ipKeys
    simp

theorem ipKeys_foldl_mem {α : Type} (key : α → ChildId) (val : α → Nat × Nat) :
    ∀ (l : List α) (m : List (ChildId × Nat × Nat)) (k : ChildId),
      (k ∈ ipKeys (l.foldl (fun m e => ipInsert m (key e) (val e)) m) ↔
        k ∈ ipKeys m ∨ k ∈ l.map key) := by
  intro l
  induction l with
  | nil => simp
  | cons a rest ih =>
    intro m k
    simp only [List.foldl_cons, List.map_cons, List.mem_cons]
    rw [ih, ipKeys_ipInsert]
    by_cases h : key a ∈ ipKeys m
    · by_cases hk : k = key a
      · simp [h, hk]
      · simp [h, hk]
    · by_cases hk : k = key a
      · simp [h, hk]
      · simp [h, hk, List.mem_append]

theorem ipKeys_foldl_nodup {α : Type} (key : α → ChildId)
    (val : α → Nat × Nat) :
    ∀ (l : List α) (m : List (ChildId × Nat × Nat)),
      (ipKeys m).Nodup →
      (ipKeys (l.foldl (fun m e => ipInsert m (key e) (val e)) m)).Nodup := by
  intro l
  induction l with
  | nil => intro m h; simpa using h
  | cons a rest ih =>
    intro m h
    simp only [List.foldl_cons]
    apply ih
    rw [ipKeys_ipInsert]
    by_cases hk : key a ∈ ipKeys m
    · simpa [hk] using h
    · simp only [hk, if_false, Bool.false_eq_true]
      refine List.Nodup.append h (List.nodup_singleton _) ?_
      intro x hx hy
      have hyk : x = key a := by simpa using hy
      exact hk (hyk ▸ hx)

/-- The identities of the current children of `node`, in order. -/
def oldChildIds (t : VTree) (node : Nat) : List ChildId :=
  (t.childrenOf node).map (fun c => ChildId.from_view (t.getVNode c).component)

/-- `in_place_components` has as many entries as there are distinct
identities among the current children (vdom.rs lines 412-423). -/
theorem buildInPlace_length (t : VTree) (cs : List Nat) :
    (buildInPlace t cs).length =
      ((cs.map (fun c => ChildId.from_view (t.getVNode c).component)).dedup).length := by
  set f : Nat → ChildId := fun c => ChildId.from_view (t.getVNode c).component
    with hf
  have hmapsnd : cs.enum.map (fun e => f e.2) = cs.map f := by
    have h1 : cs.enum.map (fun e : Nat × Nat => f e.2) =
        (cs.enum.map Prod.snd).map f := by
      rw [List.map_map]; rfl
    rw [h1, List.enum_map_snd]
  have hmem := ipKeys_foldl_mem (fun e : Nat × Nat => f e.2)
    (fun e => (e.2, e.1)) cs.enum []
  have hnd := ipKeys_foldl_nodup (fun e : Nat × Nat => f e.2)
    (fun e => (e.2, e.1)) cs.enum [] (by simp [ipKeys])
  have hlen : ∀ m : List (ChildId × Nat × Nat), m.length = (ipKeys m).length := by
    intro m; simp [ipKeys]
  have hfold : buildInPlace t cs =
      cs.enum.foldl (fun m e => ipInsert m (f e.2) (e.2, e.1)) [] := rfl
  rw [hfold, hlen]
  have htf : (ipKeys (cs.enum.foldl
      (fun m e => ipInsert m (f e.2) (e.2, e.1)) [])).toFinset =
      (cs.map f).toFinset := by
    apply Finset.ext
    intro k
    rw [List.mem_toFinset, List.mem_toFinset, hmem, hmapsnd]
    simp [ipKeys]
  calc (ipKeys (cs.enum.foldl (fun m e => ipInsert m (f e.2) (e.2, e.1)) [])).length
      = (ipKeys (cs.enum.foldl
          (fun m e => ipInsert m (f e.2) (e.2, e.1)) [])).toFinset.card :=
        (List.toFinset_card_of_nodup hnd).symm
    _ = (cs.map f).toFinset.card := by rw [htf]
    _ = (cs.map f).dedup.length := List.card_toFinset _

theorem dedup_length_eq_iff {α : Type} [DecidableEq α] (l : List α) :
    l.dedup.length = l.length ↔ l.Nodup :=
  ⟨fun h => List.dedup_eq_self.1 (l.dedup_sublist.eq_of_length h),
    fun h => by rw [List.dedup_eq_self.2 h]⟩

/-- C7: the child diff of `update_vnode` aborts with
`DYNAMIC_CHILDREN_ERR` exactly when the current children of the node
being updated contain two equal identities or the freshly rendered child
list does (vdom.rs lines 405-435); when both identity lists are
duplicate-free the diff proceeds past the checks (to
`update_vnode_diff_rest`, which contains no further identity check for
this node — a nested update of a descendant performs its own checks
against its own children). -/
theorem C7_duplicate_identity_panic
    (fuel gen : Nat) (oc : Option View) (node : Nat) (is_native : Bool)
    (children : List View) (st : St) :
    (¬ (oldChildIds st.tree node).Nodup ∨
        ¬ (children.map ChildId.from_view).Nodup →
      update_vnode_diff (fuel + 1) gen oc node is_native children st =
        .error DYNAMIC_CHILDREN_ERR) ∧
    ((oldChildIds st.tree node).Nodup →
      (children.map ChildId.from_view).Nodup →
      update_vnode_diff (fuel + 1) gen oc node is_native children st =
        update_vnode_diff_rest fuel gen oc node is_native children
          (children.map ChildId.from_view)
          (buildInPlace st.tree (st.tree.childrenOf node)) st) := by
  have h1 : (buildInPlace st.tree (st.tree.childrenOf node)).length =
      (oldChildIds st.tree node).dedup.length :=
    buildInPlace_length st.tree (st.tree.childrenOf node)
  have hlen : (oldChildIds st.tree node).length =
      (st.tree.childrenOf node).length := by
    unfold oldChildIds; simp
  constructor
  · intro h
    by_cases hold : (oldChildIds st.tree node).Nodup
    · have hnew : ¬ (children.map ChildId.from_view).Nodup := by tauto
      have hc1 : (buildInPlace st.tree (st.tree.childrenOf node)).length =
          (st.tree.childrenOf node).length := by
        rw [h1, ← hlen, (dedup_length_eq_iff _).2 hold]
      have hc2 : (children.map ChildId.from_view).dedup.length ≠
          children.length := by
        intro he
        apply hnew
        apply (dedup_length_eq_iff _).1
        rw [List.length_map]
        exact he
      rw [update_vnode_diff]
      simp [hc1, hc2]
    · have hc1 : (buildInPlace st.tree (st.tree.childrenOf node)).length ≠
          (st.tree.childrenOf node).length := by
        rw [h1, ← hlen]
        intro he; exact hold ((dedup_length_eq_iff _).1 he)
      rw [update_vnode_diff]
      simp [hc1]
  · intro hold hnew
    have hc1 : (buildInPlace st.tree (st.tree.childrenOf node)).length =
        (st.tree.childrenOf node).length := by
      rw [h1, ← hlen, (dedup_length_eq_iff _).2 hold]
    have hc2 : (children.map ChildId.from_view).dedup.length =
        children.length := by
      rw [(dedup_length_eq_iff _).2 hnew, List.length_map]
    rw [update_vnode_diff]
    simp [hc1, hc2]

theorem C7_witness :
    ¬ (([leafView 1, leafView 1] : List View).map ChildId.from_view).Nodup ∧
    update_vnode_diff 3 0 none 0 false [leafView 1, leafView 1] stEmpty =
      .error DYNAMIC_CHILDREN_ERR :=
  ⟨by decide,
    (C7_duplicate_identity_panic 2 0 none 0 false [leafView 1, leafView 1]
      stEmpty).1 (Or.inr (by decide))⟩

/-! ### Native-descendant walk facts (for C4) -/

theorem child_with_native_handle_go_handle {t : VTree} :
    ∀ fuel node m, child_with_native_handle_go t fuel node = some m →
      (t.getVNode m).native_handle.isSome = true := by
  intro fuel
  induction fuel with
  | zero => intro node m h; simp [child_with_native_handle_go] at h
  | succ fuel ih =>
    intro node m h
    rw [child_with_native_handle_go] at h
    by_cases hh : (t.getVNode node).native_handle.isSome = true
    · simp only [hh, if_true] at h
      cases h; exact hh
    · simp only [hh, Bool.false_eq_true, if_false] at h
      cases hcs : t.childrenOf node with
      | nil => rw [hcs] at h; cases h
      | cons c rest =>
        cases rest with
        | nil => rw [hcs] at h; exact ih c m h
        | cons d rest2 => rw [hcs] at h; cases h

theorem child_with_native_handle_handle {t : VTree} {node m : Nat}
    (h : child_with_native_handle node t = some m) :
    (t.getVNode m).native_handle.isSome = true :=
  child_with_native_handle_go_handle _ node m h

theorem child_with_native_handle_tree_pos {t : VTree} {node m : Nat}
    (h : child_with_native_handle node t = some m) : 0 < t.nodes.length := by
  unfold child_with_native_handle at h
  cases hl : t.nodes.length with
  | zero => rw [hl] at h; simp [child_with_native_handle_go] at h
  | succ n => exact Nat.succ_pos n

theorem child_with_native_handle_self {t : VTree} {m : Nat}
    (hh : (t.getVNode m).native_handle.isSome = true)
    (hl : 0 < t.nodes.length) : child_with_native_handle m t = some m := by
  unfold child_with_native_handle
  cases hl' : t.nodes.length with
  | zero => omega
  | succ n => rw [child_with_native_handle_go]; simp [hh]

/-- C4: for a retained child of a native parent, the renderer effect of
`native_update_vnode` is exactly one call determined by whether the child
had a native descendant before its update and has one after: (T,T) one
`replace_child` at `native_pos`, (T,F) one `remove_child` at
`native_pos`, (F,T) one `insert_child` at `native_pos`, (F,F) no renderer
call; and `native_pos` is saturating-decremented exactly in the two
(T,–) cases (vdom.rs lines 600-660, 567-590). -/
theorem C4_native_child_transition
    (fuel gen native_pos : Nat) (new : Option View) (parent child : Nat)
    (st st₁ : St)
    (hupd : update_vnode fuel gen new child st = .ok st₁) :
    (∀ o n, child_with_native_handle child st.tree = some o →
      child_with_native_handle child st₁.tree = some n →
      native_update_vnode (fuel + 1) gen true native_pos new parent child st =
        .ok (st₁.emit (.replace_child
          ((st₁.tree.getVNode parent).native_type.getD 0)
          ((st₁.tree.getVNode parent).native_handle.getD 0) native_pos
          ((st₁.tree.getVNode n).native_type.getD 0)
          ((st₁.tree.getVNode n).native_handle.getD 0)), native_pos - 1)) ∧
    (∀ o, child_with_native_handle child st.tree = some o →
      child_with_native_handle child st₁.tree = none →
      native_update_vnode (fuel + 1) gen true native_pos new parent child st =
        .ok (st₁.emit (.remove_child
          ((st₁.tree.getVNode parent).native_type.getD 0)
          ((st₁.tree.getVNode parent).native_handle.getD 0) native_pos),
          native_pos - 1)) ∧
    (∀ n, child_with_native_handle child st.tree = none →
      child_with_native_handle child st₁.tree = some n →
      native_update_vnode (fuel + 1) gen true native_pos new parent child st =
        .ok (st₁.emit (.insert_child
          ((st₁.tree.getVNode parent).native_type.getD 0)
          ((st₁.tree.getVNode parent).native_handle.getD 0) native_pos
          ((st₁.tree.getVNode n).native_type.getD 0)
          ((st₁.tree.getVNode n).native_handle.getD 0)), native_pos)) ∧
    (child_with_native_handle child st.tree = none →
      child_with_native_handle child st₁.tree = none →
      native_update_vnode (fuel + 1) gen true native_pos new parent child st =
        .ok (st₁, native_pos)) := by
  refine ⟨?_, ?_, ?_, ?_⟩
  · intro o n ho hn
    rw [native_update_vnode]
    simp only [if_true, hupd, ho, hn]
  · intro o ho hn
    rw [native_update_vnode]
    simp only [if_true, hupd, ho, hn]
  · intro n ho hn
    rw [native_update_vnode]
    simp only [if_true, hupd, ho, hn]
    unfold native_insert_child
    rw [child_with_native_handle_self (child_with_native_handle_handle hn)
      (child_with_native_handle_tree_pos hn)]
  · intro ho hn
    rw [native_update_vnode]
    simp only [if_true, hupd, ho, hn]

/-- A concrete three-node tree: native box `0` (handle 100) with one
native leaf child `1` (handle 101) whose own child `2` is the unit
instance. -/
def stC4 : St :=
  ⟨⟨[⟨{ component := boxView [leafView 1] false, native_handle := some 100,
        native_type := some 7, dirty := false }, none, [1]⟩,
     ⟨{ component := leafView 1, native_handle := some 101,
        native_type := some 5, dirty := false }, some 0, [2]⟩,
     ⟨VNode.ofComponent View.unit, some 1, []⟩]⟩, [], [], 200⟩

theorem C4_witness :
    update_vnode 5 0 (some (leafView 1)) 1 stC4 = .ok stC4 ∧
    child_with_native_handle 1 stC4.tree = some 1 ∧
    native_update_vnode 6 0 true 3 (some (leafView 1)) 0 1 stC4 =
      .ok (stC4.emit (.replace_child 7 100 3 5 101), 2) :=
  ⟨rfl, rfl,
    (C4_native_child_transition 5 0 3 (some (leafView 1)) 0 1 stC4 stC4
      rfl).1 1 1 rfl rfl⟩

/-! ### C8: replace_child and the identical-handle case -/

/-- The concrete state used to exhibit the core's behaviour on an
identical handle: same shape as `stC4` but with its own handles. -/
def stC8 : St :=
  ⟨⟨[⟨{ component := boxView [leafView 1] false, native_handle := some 100,
        native_type := some 7, dirty := false }, none, [1]⟩,
     ⟨{ component := leafView 1, native_handle := some 101,
        native_type := some 5, dirty := false }, some 0, [2]⟩,
     ⟨VNode.ofComponent View.unit, some 1, []⟩]⟩, [], [], 200⟩

/-- C8 counterexample: the claim says the *core* skips the renderer call
when the replacement handle is identical to the current one.  Here the
retained child's update is a no-op (same node `1`, same handle `101`
before and after), yet the core still emits `replace_child` (vdom.rs
lines 626-637 call `renderer.replace_child` unconditionally in the
(Some, Some) case); the skip happens inside the web renderer, not in the
core. -/
theorem C8_counterexample :
    (stC8.tree.getVNode 1).native_handle = some 101 ∧
    child_with_native_handle 1 stC8.tree = some 1 ∧
    update_vnode 5 0 (some (leafView 1)) 1 stC8 = .ok stC8 ∧
    stC8.calls = [] ∧
    native_update_vnode 6 0 true 0 (some (leafView 1)) 0 1 stC8 =
      .ok (stC8.emit (.replace_child 7 100 0 5 101), 0) ∧
    (stC8.emit (.replace_child 7 100 0 5 101)).calls =
      [.replace_child 7 100 0 5 101] :=
  ⟨rfl, rfl, rfl, rfl, rfl, rfl⟩

theorem map_ite_eq_set {l : List Nat} {k curr c : Nat}
    (hnd : l.Nodup) (hk : l.get? k = some curr) :
    l.map (fun x => if x = curr then c else x) = l.set k c := by
  induction l generalizing k with
  | nil => simp at hk
  | cons a t ih =>
    cases k with
    | zero =>
      simp only [List.get?_cons_zero, Option.some_inj] at hk
      subst hk
      simp only [List.map_cons, if_pos rfl, List.set_cons_zero]
      congr 1
      have hmem : ∀ x ∈ t, (if x = a then c else x) = x := by
        intro x hx
        have hne : x ≠ a := by
          intro he
          exact (List.nodup_cons.1 hnd).1 (he ▸ hx)
        simp [hne]
      calc t.map (fun x => if x = a then c else x) = t.map id :=
            List.map_congr_left hmem
        _ = t := List.map_id t
    | succ k =>
      simp only [List.get?_cons_succ] at hk
      have hcurr : curr ∈ t := by
        have := List.get?_mem hk
        exact this
      have hna : a ≠ curr := by
        intro he
        exact (List.nodup_cons.1 hnd).1 (he ▸ hcurr)
      simp only [List.map_cons, if_neg hna, List.set_cons_succ]
      congr 1
      exact ih (List.nodup_cons.1 hnd).2 hk

/-- C8 (amended): in the web renderer (avalanche-web lines 477-496), a
`replace_child` whose replacement handle is identical to the node
currently at the index is a no-op on the DOM; otherwise the node at that
index is replaced in place.  It is the renderer, not the core, that
skips in the identical-handle case (`C8_counterexample` shows the core
emitting the call regardless). -/
theorem C8_replace_child_web_renderer (d : WebDom) (index child : Nat) :
    (d.try_get_child index = some child →
      WebRenderer.replace_child d index child = d) ∧
    (∀ curr, d.try_get_child index = some curr → curr ≠ child →
      child ∉ d.childNodes → d.childNodes.Nodup →
      (WebRenderer.replace_child d index child).childNodes =
        d.childNodes.set (index + d.offset) child ∧
      (WebRenderer.replace_child d index child).offset = d.offset) := by
  constructor
  · intro h
    unfold WebRenderer.replace_child
    rw [h]
    simp
  · intro curr hc hne hnm hnd
    unfold WebRenderer.replace_child
    rw [hc]
    simp only [if_neg (fun he : curr = child => hne he)]
    unfold domReplaceNode
    rw [List.erase_of_not_mem hnm]
    exact ⟨map_ite_eq_set hnd hc, by trivial⟩

theorem C8_witness :
    ((⟨[55, 66, 77], 1⟩ : WebDom).try_get_child 0 = some 66 ∧
      WebRenderer.replace_child ⟨[55, 66, 77], 1⟩ 0 66 = ⟨[55, 66, 77], 1⟩) ∧
    (WebRenderer.replace_child ⟨[55, 66, 77], 1⟩ 0 99).childNodes =
      [55, 99, 77] :=
  ⟨⟨rfl, (C8_replace_child_web_renderer ⟨[55, 66, 77], 1⟩ 0 66).1 rfl⟩,
    by
      have h := (C8_replace_child_web_renderer ⟨[55, 66, 77], 1⟩ 0 99).2 66
        rfl (by decide) (by decide) (by decide)
      rw [h.1]
      rfl⟩

/-! ### Arena basics -/

theorem VTree.length_setRec (t : VTree) (i : Nat) (r : NodeRec) :
    (t.setRec i r).nodes.length = t.nodes.length := by
  unfold VTree.setRec; simp

theorem VTree.get_setRec (t : VTree) (i : Nat) (r : NodeRec) (j : Nat) :
    (t.setRec i r).get j =
      if i = j ∧ i < t.nodes.length then r else t.get j := by
  unfold VTree.setRec VTree.get
  rw [List.getD_eq_getElem?_getD, List.getD_eq_getElem?_getD]
  rw [List.getElem?_set]
  by_cases h : i = j
  · subst h
    by_cases hl : i < t.nodes.length
    · simp [hl]
    · simp [hl, List.getElem?_eq_none (Nat.le_of_not_lt hl)]
  · simp [h]

theorem VTree.get_modifyVNode (t : VTree) (i : Nat) (f : VNode → VNode)
    (j : Nat) :
    (t.modifyVNode i f).get j =
      if i = j ∧ i < t.nodes.length then
        { t.get j with vnode := f (t.get j).vnode }
      else t.get j := by
  unfold VTree.modifyVNode
  rw [VTree.get_setRec]
  by_cases h : i = j ∧ i < t.nodes.length
  · obtain ⟨h1, h2⟩ := h; subst h1; simp [h2]
  · simp [h]

theorem VTree.length_modifyVNode (t : VTree) (i : Nat) (f : VNode → VNode) :
    (t.modifyVNode i f).nodes.length = t.nodes.length :=
  VTree.length_setRec _ _ _

theorem VTree.parentOf_modifyVNode (t : VTree) (i : Nat) (f : VNode → VNode)
    (j : Nat) : (t.modifyVNode i f).parentOf j = t.parentOf j := by
  unfold VTree.parentOf
  rw [VTree.get_modifyVNode]
  by_cases h : i = j ∧ i < t.nodes.length
  · obtain ⟨h1, h2⟩ := h; subst h1; simp [h2]
  · simp [h]

theorem VTree.childrenOf_modifyVNode (t : VTree) (i : Nat) (f : VNode → VNode)
    (j : Nat) : (t.modifyVNode i f).childrenOf j = t.childrenOf j := by
  unfold VTree.childrenOf
  rw [VTree.get_modifyVNode]
  by_cases h : i = j ∧ i < t.nodes.length
  · obtain ⟨h1, h2⟩ := h; subst h1; simp [h2]
  · simp [h]

theorem VTree.getVNode_modifyVNode (t : VTree) (i : Nat) (f : VNode → VNode)
    (j : Nat) :
    (t.modifyVNode i f).getVNode j =
      if i = j ∧ i < t.nodes.length then f (t.getVNode j) else t.getVNode j := by
  unfold VTree.getVNode
  rw [VTree.get_modifyVNode]
  by_cases h : i = j ∧ i < t.nodes.length
  · obtain ⟨h1, h2⟩ := h; subst h1; simp [h2]
  · simp [h]

/-- Marking a node dirty changes neither handles nor parents. -/
theorem VTree.getVNode_markDirty_handle (t : VTree) (i j : Nat) :
    ((t.modifyVNode i (fun v => { v with dirty := true })).getVNode j).native_handle =
      (t.getVNode j).native_handle := by
  rw [VTree.getVNode_modifyVNode]
  by_cases h : i = j ∧ i < t.nodes.length
  · obtain ⟨h1, h2⟩ := h; subst h1; simp [h2]
  · simp [h]

/-! ### Ancestor propagation (for C2) -/

/-- The strict-ancestor chain of `n` up to its nearest native ancestor
`p`: `mids` lists the non-native ancestors strictly between `n` and `p`,
in child-to-parent order. -/
inductive NativeParentPath (t : VTree) : Nat → List Nat → Nat → Prop where
  | direct {n p : Nat} : t.parentOf n = some p →
      (t.getVNode p).native_handle.isSome = true →
      NativeParentPath t n [] p
  | step {n m : Nat} {rest : List Nat} {p : Nat} : t.parentOf n = some m →
      (t.getVNode m).native_handle.isSome = false →
      NativeParentPath t m rest p →
      NativeParentPath t n (m :: rest) p

/-- The tree after marking every node of `l` dirty, in order (the effect
of the walk in `propogate_update_to_native_parent`). -/
def markDirtyAll (t : VTree) (l : List Nat) : VTree :=
  l.foldl (fun t m => t.modifyVNode m (fun v => { v with dirty := true })) t

theorem NativeParentPath_markDirty (t : VTree) (x : Nat) {n : Nat}
    {mids : List Nat} {p : Nat} (h : NativeParentPath t n mids p) :
    NativeParentPath (t.modifyVNode x (fun v => { v with dirty := true }))
      n mids p := by
  induction h with
  | direct hp hh =>
    exact .direct (by rw [VTree.parentOf_modifyVNode]; exact hp)
      (by rw [VTree.getVNode_markDirty_handle]; exact hh)
  | step hp hh _ ih =>
    exact .step (by rw [VTree.parentOf_modifyVNode]; exact hp)
      (by rw [VTree.getVNode_markDirty_handle]; exact hh) ih

/-- `propogate_update_to_native_parent` follows the ancestor chain,
marks exactly the strictly-intermediate nodes dirty, and returns the
nearest native ancestor with the marked tree. -/
theorem propogate_go_spec :
    ∀ (mids : List Nat) (t : VTree) (n p fuel : Nat),
      NativeParentPath t n mids p → mids.length < fuel →
      propogate_go fuel n t = some (p, markDirtyAll t mids) := by
  intro mids
  induction mids with
  | nil =>
    intro t n p fuel h hf
    cases h with
    | direct hp hh =>
      cases fuel with
      | zero => omega
      | succ f =>
        rw [propogate_go, hp]
        simp [hh, markDirtyAll]
  | cons m rest ih =>
    intro t n p fuel h hf
    cases h with
    | step hp hh hrest =>
      cases fuel with
      | zero => omega
      | succ f =>
        rw [propogate_go, hp]
        simp only [hh, Bool.false_eq_true, if_false]
        have h2 := NativeParentPath_markDirty t m hrest
        have h3 := ih _ m p f h2 (by simpa using Nat.lt_of_succ_lt_succ hf)
        rw [h3]
        rfl

theorem propogate_spec {t : VTree} {n : Nat} {mids : List Nat} {p : Nat}
    (h : NativeParentPath t n mids p) (hlen : mids.length ≤ n) :
    propogate_update_to_native_parent n t = some (p, markDirtyAll t mids) :=
  propogate_go_spec mids t n p (n + 1) h (by omega)

theorem markDirtyAll_dirty_mono (l : List Nat) :
    ∀ (t : VTree) (m : Nat), ((t.getVNode m).dirty = true) →
      (((markDirtyAll t l).getVNode m).dirty = true) := by
  induction l with
  | nil => intro t m h; exact h
  | cons a rest ih =>
    intro t m h
    apply ih
    rw [VTree.getVNode_modifyVNode]
    by_cases hc : a = m ∧ a < t.nodes.length
    · obtain ⟨h1, h2⟩ := hc; subst h1; simp [h2]
    · simp [hc, h]

theorem markDirtyAll_length (l : List Nat) :
    ∀ t : VTree, (markDirtyAll t l).nodes.length = t.nodes.length := by
  induction l with
  | nil => intro t; rfl
  | cons a rest ih =>
    intro t
    unfold markDirtyAll
    rw [List.foldl_cons]
    have := ih (t.modifyVNode a (fun v => { v with dirty := true }))
    unfold markDirtyAll at this
    rw [this, VTree.length_modifyVNode]

/-- Every node on the marked chain is dirty in the marked tree. -/
theorem markDirtyAll_dirty (l : List Nat) :
    ∀ (t : VTree) (m : Nat), m ∈ l → m < t.nodes.length →
      ((markDirtyAll t l).getVNode m).dirty = true := by
  induction l with
  | nil => intro t m h; cases h
  | cons a rest ih =>
    intro t m hm hv
    rcases List.mem_cons.1 hm with h | h
    · subst h
      show ((markDirtyAll
        (t.modifyVNode m (fun v => { v with dirty := true })) rest).getVNode
          m).dirty = true
      apply markDirtyAll_dirty_mono
      rw [VTree.getVNode_modifyVNode]
      simp [hv]
    · show ((markDirtyAll
        (t.modifyVNode a (fun v => { v with dirty := true })) rest).getVNode
          m).dirty = true
      exact ih _ m h (by rw [VTree.length_modifyVNode]; exact hv)

/-- C2: during the update of a non-native instance whose freshly rendered
single child changed identity, the reconciler walks up the ancestor
chain, marking the strictly-intermediate ancestors dirty, up to the
nearest native ancestor `p`; if `p` is not already dirty it marks `p`,
restores the old component (when one was swapped in), restarts the
update at `p` with no new component, and returns; if `p` is already
dirty the update of `node` continues with its child diff (vdom.rs lines
383-403 and 311-324). -/
theorem C2_identity_change_propagates_to_native_parent
    (fuel gen : Nat) (new : Option View) (node : Nat) (st : St)
    (mids : List Nat) (p : Nat)
    (hproceed : ((match new with | some v => v.updated | none => false) ||
      (st.tree.getVNode node).dirty) = true)
    (hnn : (st.tree.getVNode node).native_handle.isSome = false)
    (hmm :
      ((update_entry gen new node st).1.tree.getVNode
          ((update_entry gen new node st).1.tree.childAt node 0)).component.location ≠
        (((update_entry gen new node st).1.tree.getVNode node).component.render_result.headD
          View.unit).location ∨
      ((update_entry gen new node st).1.tree.getVNode
          ((update_entry gen new node st).1.tree.childAt node 0)).component.key ≠
        (((update_entry gen new node st).1.tree.getVNode node).component.render_result.headD
          View.unit).key)
    (hpath : NativeParentPath (update_entry gen new node st).1.tree node mids p)
    (hlen : mids.length ≤ node) :
    (∀ m ∈ mids, m < (update_entry gen new node st).1.tree.nodes.length →
      ((markDirtyAll (update_entry gen new node st).1.tree mids).getVNode
        m).dirty = true) ∧
    (((markDirtyAll (update_entry gen new node st).1.tree mids).getVNode
        p).dirty = false →
      update_vnode (fuel + 1) gen new node st =
        update_vnode fuel gen none p
          (match (update_entry gen new node st).2 with
            | some oc =>
              (({ (update_entry gen new node st).1 with
                  tree := markDirtyAll (update_entry gen new node st).1.tree
                    mids }).modifyVNode p
                (fun v => { v with dirty := true })).modifyVNode node
                (fun v => { v with component := oc })
            | none =>
              ({ (update_entry gen new node st).1 with
                  tree := markDirtyAll (update_entry gen new node st).1.tree
                    mids }).modifyVNode p
                (fun v => { v with dirty := true }))) ∧
    (((markDirtyAll (update_entry gen new node st).1.tree mids).getVNode
        p).dirty = true →
      update_vnode (fuel + 1) gen new node st =
        update_vnode_diff fuel gen (update_entry gen new node st).2 node false
          ((update_entry gen new node st).1.tree.getVNode node).component.render_result
          { (update_entry gen new node st).1 with
            tree := markDirtyAll (update_entry gen new node st).1.tree mids }) := by
  refine ⟨fun m hm hv => markDirtyAll_dirty mids _ m hm hv, ?_, ?_⟩
  · intro hpd
    conv_lhs => rw [update_vnode.eq_def]
    simp only [hproceed, Bool.not_true, Bool.false_eq_true, if_false,
      hnn, if_neg]
    rw [if_pos hmm, propogate_spec hpath hlen]
    simp only [hpd, Bool.not_false, if_pos]
  · intro hpd
    conv_lhs => rw [update_vnode.eq_def]
    simp only [hproceed, Bool.not_true, Bool.false_eq_true, if_false,
      hnn, if_neg]
    rw [if_pos hmm, propogate_spec hpath hlen]
    simp only [hpd, Bool.not_true, Bool.false_eq_true, if_false]

/-- A non-native wrapper component rendering one child. -/
def wrapView (c : View) (upd : Bool) : View :=
  View.comp 3 (some (4, 0)) none none upd [c]

/-- Root (native, handle 50) → wrapper (non-native) → leaf (native,
handle 101) → unit. -/
def stC2 : St :=
  ⟨⟨[⟨{ component := rootView (wrapView (leafView 1) false),
        native_handle := some 50, native_type := some 9, dirty := false },
      none, [1]⟩,
     ⟨{ component := wrapView (leafView 1) false, native_handle := none,
        native_type := none, dirty := false }, some 0, [2]⟩,
     ⟨{ component := leafView 1, native_handle := some 101,
        native_type := some 5, dirty := false }, some 1, [3]⟩,
     ⟨VNode.ofComponent View.unit, some 2, []⟩]⟩, [], [], 300⟩

/-- `stC2` after the aborted update of the wrapper: wrapper re-rendered
(render log `[(1, 0)]`), wrapper and root marked dirty, wrapper's
component restored to its old value. -/
def stC2R : St :=
  ⟨⟨[⟨{ component := rootView (wrapView (leafView 1) false),
        native_handle := some 50, native_type := some 9, dirty := true },
      none, [1]⟩,
     ⟨{ component := wrapView (leafView 1) false, native_handle := none,
        native_type := none, dirty := true }, some 0, [2]⟩,
     ⟨{ component := leafView 1, native_handle := some 101,
        native_type := some 5, dirty := false }, some 1, [3]⟩,
     ⟨VNode.ofComponent View.unit, some 2, []⟩]⟩, [], [(1, 0)], 300⟩

theorem C2_witness :
    update_vnode 10 0 (some (wrapView (leafView 9) true)) 1 stC2 =
      update_vnode 9 0 none 0 stC2R :=
  ((C2_identity_change_propagates_to_native_parent 9 0
      (some (wrapView (leafView 9) true)) 1 stC2 [] 0 rfl rfl
      (Or.inl (by decide)) (.direct rfl rfl) (by decide)).2.1 rfl).trans
    (by rfl)

/-! ### List utilities for the reorder proofs (C3) -/

theorem swapIdx_length {α : Type} (l : List α) (i j : Nat) :
    (swapIdx l i j).length = l.length := by
  unfold swapIdx
  cases h₁ : l.get? i <;> cases h₂ : l.get? j <;> simp

theorem getD_swapIdx {α : Type} (l : List α) (i j k : Nat) (d : α)
    (hi : i < l.length) (hj : j < l.length) :
    (swapIdx l i j).getD k d =
      if k = i then l.getD j d
      else if k = j then l.getD i d
      else l.getD k d := by
  unfold swapIdx
  have h₁ : l.get? i = some (l.getD i d) := by
    rw [List.get?_eq_getElem?, List.getElem?_eq_getElem hi,
      List.getD_eq_getElem?_getD, List.getElem?_eq_getElem hi]
    rfl
  have h₂ : l.get? j = some (l.getD j d) := by
    rw [List.get?_eq_getElem?, List.getElem?_eq_getElem hj,
      List.getD_eq_getElem?_getD, List.getElem?_eq_getElem hj]
    rfl
  rw [h₁, h₂]
  rw [List.getD_eq_getElem?_getD, List.getD_eq_getElem?_getD,
    List.getD_eq_getElem?_getD, List.getD_eq_getElem?_getD]
  rw [List.getElem?_set, List.getElem?_set]
  simp only [List.length_set]
  by_cases hki : k = i
  · subst hki
    by_cases hkj : k = j
    · subst hkj; simp [hj, hi]
    · simp [hkj, Ne.symm hkj, hj, hi, List.getElem?_eq_getElem hj]
  · by_cases hkj : k = j
    · subst hkj
      simp [hki, Ne.symm hki, hi, hj, List.getElem?_eq_getElem hi]
    · simp [hki, hkj, Ne.symm hki, Ne.symm hkj]

/-- The transposition of indices `i` and `j` as a function. -/
def swapFn (i j a : Nat) : Nat :=
  if a = i then j else if a = j then i else a

theorem swapFn_lt {i j a n : Nat} (hi : i < n) (hj : j < n) (ha : a < n) :
    swapFn i j a < n := by
  unfold swapFn; split_ifs <;> omega

theorem swapFn_inj {i j a b : Nat} (h : swapFn i j a = swapFn i j b) :
    a = b := by
  unfold swapFn at h; split_ifs at h <;> omega

theorem getD_swapIdx_fn {α : Type} (l : List α) (i j a : Nat) (d : α)
    (hi : i < l.length) (hj : j < l.length) :
    (swapIdx l i j).getD a d = l.getD (swapFn i j a) d := by
  rw [getD_swapIdx l i j a d hi hj]
  unfold swapFn
  split_ifs <;> rfl

/-- Positional injectivity: no value appears at two positions. -/
def PosInj (m : List Nat) : Prop :=
  ∀ j k, j < m.length → k < m.length → m.getD j 0 = m.getD k 0 → j = k

/-- All values below the length. -/
def BoundedVals (m : List Nat) : Prop :=
  ∀ j, j < m.length → m.getD j 0 < m.length

theorem posInj_swapIdx {m : List Nat} {i j : Nat} (hinj : PosInj m)
    (hi : i < m.length) (hj : j < m.length) : PosInj (swapIdx m i j) := by
  intro a b ha hb hab
  rw [swapIdx_length] at ha hb
  rw [getD_swapIdx_fn m i j a 0 hi hj, getD_swapIdx_fn m i j b 0 hi hj] at hab
  exact swapFn_inj (hinj _ _ (swapFn_lt hi hj ha) (swapFn_lt hi hj hb) hab)

theorem boundedVals_swapIdx {m : List Nat} {i j : Nat} (hb : BoundedVals m)
    (hi : i < m.length) (hj : j < m.length) : BoundedVals (swapIdx m i j) := by
  intro a ha
  rw [swapIdx_length] at ha ⊢
  rw [getD_swapIdx_fn m i j a 0 hi hj]
  exact hb _ (swapFn_lt hi hj ha)

/-- The set of unfixed positions of `m`. -/
def unfixedF (m : List Nat) : Finset Nat :=
  (Finset.range m.length).filter (fun j => m.getD j 0 ≠ j)

theorem unfixedF_card_le (m : List Nat) : (unfixedF m).card ≤ m.length := by
  calc (unfixedF m).card ≤ (Finset.range m.length).card :=
        Finset.card_filter_le _ _
    _ = m.length := Finset.card_range _

theorem mem_unfixedF {m : List Nat} {j : Nat} :
    j ∈ unfixedF m ↔ j < m.length ∧ m.getD j 0 ≠ j := by
  unfold unfixedF
  simp

/-- A pair of same-position entries belongs to the zip. -/
theorem mem_zip_iff {α β : Type} :
    ∀ (l₁ : List α) (l₂ : List β) (a : α) (b : β),
      ((a, b) ∈ l₁.zip l₂ ↔ ∃ k, l₁.get? k = some a ∧ l₂.get? k = some b) := by
  intro l₁
  induction l₁ with
  | nil => intro l₂ a b; simp
  | cons x t ih =>
    intro l₂ a b
    cases l₂ with
    | nil => simp
    | cons y u =>
      simp only [List.zip_cons_cons, List.mem_cons, ih]
      constructor
      · rintro (h | ⟨k, h1, h2⟩)
        · have ha : a = x := congrArg Prod.fst h
          have hb : b = y := congrArg Prod.snd h
          exact ⟨0, by simp [ha], by simp [hb]⟩
        · exact ⟨k + 1, by simpa using h1, by simpa using h2⟩
      · rintro ⟨k, h1, h2⟩
        cases k with
        | zero =>
          left
          simp at h1 h2
          rw [h1, h2]
        | succ k =>
          right
          exact ⟨k, by simpa using h1, by simpa using h2⟩

theorem pair_mem_zip {l₁ l₂ : List Nat} {k : Nat} (h1 : k < l₁.length)
    (h2 : k < l₂.length) : (l₁.getD k 0, l₂.getD k 0) ∈ l₁.zip l₂ := by
  rw [mem_zip_iff]
  refine ⟨k, ?_, ?_⟩
  · rw [List.get?_eq_getElem?, List.getElem?_eq_getElem h1,
      List.getD_eq_getElem?_getD, List.getElem?_eq_getElem h1]
    rfl
  · rw [List.get?_eq_getElem?, List.getElem?_eq_getElem h2,
      List.getD_eq_getElem?_getD, List.getElem?_eq_getElem h2]
    rfl

theorem getD_of_get?_eq {α : Type} {l : List α} {k : Nat} {a d : α}
    (h : l.get? k = some a) : l.getD k d = a := by
  rw [List.getD_eq_getElem?_getD, ← List.get?_eq_getElem?, h]
  rfl

theorem zip_swap_sub {m L : List Nat} {i j : Nat} (hi : i < m.length)
    (hj : j < m.length) (hL : L.length = m.length) :
    ∀ p ∈ (swapIdx m i j).zip (swapIdx L i j), p ∈ m.zip L := by
  rintro ⟨pa, pb⟩ hp
  obtain ⟨k, hk1, hk2⟩ := (mem_zip_iff _ _ _ _).1 hp
  have hklen : k < m.length := by
    by_contra hk
    have hnone : (swapIdx m i j).get? k = none := by
      rw [List.get?_eq_getElem?, List.getElem?_eq_none]
      rw [swapIdx_length]; omega
    rw [hnone] at hk1; exact Option.noConfusion hk1
  have hiL : i < L.length := by omega
  have hjL : j < L.length := by omega
  have hga : pa = m.getD (swapFn i j k) 0 := by
    rw [← getD_of_get?_eq hk1]
    exact getD_swapIdx_fn m i j k 0 hi hj
  have hgb : pb = L.getD (swapFn i j k) 0 := by
    rw [← getD_of_get?_eq hk2]
    exact getD_swapIdx_fn L i j k 0 hiL hjL
  rw [hga, hgb]
  exact pair_mem_zip (swapFn_lt hi hj hklen)
    (by rw [hL]; exact swapFn_lt hi hj hklen)

theorem unfixedF_swap_step {m : List Nat} {i : Nat} (hb : BoundedVals m)
    (hinj : PosInj m) (hi : i < m.length) (hne : m.getD i 0 ≠ i) :
    (unfixedF (swapIdx m i (m.getD i 0))).card + 1 ≤ (unfixedF m).card := by
  set sp := m.getD i 0 with hsp
  have hsplt : sp < m.length := hb i hi
  have hspi : sp ≠ i := hne
  have hspmem : sp ∈ unfixedF m := by
    rw [mem_unfixedF]
    refine ⟨hsplt, fun hcon => ?_⟩
    exact hspi (hinj sp i hsplt hi (by rw [hcon, ← hsp]))
  have hsub : unfixedF (swapIdx m i sp) ⊆ (unfixedF m).erase sp := by
    intro j hj
    rw [mem_unfixedF, swapIdx_length] at hj
    obtain ⟨hjl, hjne⟩ := hj
    rw [getD_swapIdx_fn m i sp j 0 hi hsplt] at hjne
    rw [Finset.mem_erase, mem_unfixedF]
    by_cases hji : j = i
    · refine ⟨?_, hjl, ?_⟩
      · rw [hji]; exact Ne.symm hspi
      · rw [hji, ← hsp]; exact hspi
    · by_cases hjs : j = sp
      · exfalso
        apply hjne
        rw [hjs]
        have hfn : swapFn i sp sp = i := by
          unfold swapFn
          simp [hspi]
        rw [hfn, ← hsp]
      · refine ⟨hjs, hjl, ?_⟩
        unfold swapFn at hjne
        simp only [if_neg hji, if_neg hjs] at hjne
        exact hjne
  have h1 := Finset.card_le_card hsub
  rw [Finset.card_erase_of_mem hspmem] at h1
  have h2 : 1 ≤ (unfixedF m).card := Finset.card_pos.2 ⟨sp, hspmem⟩
  omega

theorem cycle_inner_spec (pty ph : Nat) :
    ∀ (fw : Nat) (m : List Nat) (i : Nat) (st : St),
      BoundedVals m → PosInj m → i < m.length →
      (unfixedF m).card ≤ fw →
      (∀ j, j < i → m.getD j 0 = j) →
      ∃ m' ext,
        cycle_inner pty ph i fw m st =
          (m', { st with calls := st.calls ++ ext }) ∧
        m'.length = m.length ∧ BoundedVals m' ∧ PosInj m' ∧
        (∀ j, j ≤ i → m'.getD j 0 = j) ∧
        ext.length + (unfixedF m').card ≤ (unfixedF m).card ∧
        (∀ c ∈ ext, ∃ a b, c = RCall.swap_children pty ph a b) ∧
        (∀ L : List Nat, L.length = m.length → ∀ j, j < m.length →
          (m'.getD j 0, (applyCalls ph ext L).getD j 0) ∈ m.zip L) := by
  intro fw
  induction fw with
  | zero =>
    intro m i st hb hinj hi hcard hpre
    have hfix : ∀ j, j < m.length → m.getD j 0 = j := by
      intro j hj
      by_contra hcon
      have : j ∈ unfixedF m := mem_unfixedF.2 ⟨hj, hcon⟩
      have := Finset.card_pos.2 ⟨j, this⟩
      omega
    refine ⟨m, [], by simp [cycle_inner], rfl, hb, hinj,
      fun j hj => hfix j (by omega), by simp, by simp, ?_⟩
    intro L hL j hj
    simp only [applyCalls, List.foldl_nil]
    exact pair_mem_zip hj (by omega)
  | succ fw ih =>
    intro m i st hb hinj hi hcard hpre
    by_cases heq : i = m.getD i 0
    · refine ⟨m, [], by rw [cycle_inner, if_pos heq]; simp, rfl, hb, hinj,
        ?_, by simp, by simp, ?_⟩
      · intro j hj
        rcases Nat.lt_or_ge j i with h | h
        · exact hpre j h
        · have : j = i := by omega
          subst this
          exact heq.symm
      · intro L hL j hj
        simp only [applyCalls, List.foldl_nil]
        exact pair_mem_zip hj (by omega)
    · set sp := m.getD i 0 with hsp
      have hsplt : sp < m.length := hb i hi
      have hspi : sp ≠ i := fun h => heq h.symm
      have hspgt : i < sp := by
        rcases Nat.lt_or_ge i sp with h | h
        · exact h
        · have hlt : sp < i := by omega
          have := hpre sp hlt
          exact absurd (hinj i sp hi hsplt (by rw [← hsp, this]))
            (Ne.symm hspi)
      have hstep := unfixedF_swap_step hb hinj hi (Ne.symm heq)
      rw [← hsp] at hstep
      have hb₁ := boundedVals_swapIdx hb hi hsplt
      have hinj₁ := posInj_swapIdx hinj hi hsplt
      have hlen₁ : (swapIdx m i sp).length = m.length := swapIdx_length m i sp
      have hi₁ : i < (swapIdx m i sp).length := by rw [hlen₁]; exact hi
      have hcard₁ : (unfixedF (swapIdx m i sp)).card ≤ fw := by omega
      have hpre₁ : ∀ j, j < i → (swapIdx m i sp).getD j 0 = j := by
        intro j hj
        rw [getD_swapIdx_fn m i sp j 0 hi hsplt]
        have hji : j ≠ i := by omega
        have hjs : j ≠ sp := by omega
        unfold swapFn
        simp only [if_neg hji, if_neg hjs]
        exact hpre j hj
      obtain ⟨m', ext, heqr, hlen', hb', hinj', hpre', hcnt', hext', hpairs'⟩ :=
        ih (swapIdx m i sp) i (st.emit (.swap_children pty ph i sp)) hb₁
          hinj₁ hi₁ hcard₁ hpre₁
      refine ⟨m', .swap_children pty ph i sp :: ext, ?_, by rw [hlen', hlen₁],
        hb', hinj', hpre', ?_, ?_, ?_⟩
      · rw [cycle_inner]
        simp only [if_neg heq, ← hsp]
        rw [heqr]
        simp [St.emit]
      · have : (unfixedF (swapIdx m i sp)).card ≤ (unfixedF m).card - 1 := by
          omega
        simp only [List.length_cons]
        omega
      · intro c hc
        rcases List.mem_cons.1 hc with h | h
        · exact ⟨i, sp, h⟩
        · exact hext' c h
      · intro L hL j hj
        have hiL : i < L.length := by omega
        have hspL : sp < L.length := by omega
        have happ : applyCalls ph (.swap_children pty ph i sp :: ext) L =
            applyCalls ph ext (swapIdx L i sp) := by
          unfold applyCalls
          rw [List.foldl_cons]
          congr 1
          unfold applyCall
          simp
        rw [happ]
        have hLlen : (swapIdx L i sp).length = (swapIdx m i sp).length := by
          rw [swapIdx_length, swapIdx_length, hL]
        have hjlen : j < (swapIdx m i sp).length := by rw [hlen₁]; exact hj
        have := hpairs' (swapIdx L i sp) hLlen j hjlen
        exact zip_swap_sub hi hsplt hL _ this

theorem applyCalls_swaps_length (ph : Nat) :
    ∀ (ext : List RCall) (L : List Nat),
      (∀ c ∈ ext, ∃ pty a b, c = RCall.swap_children pty ph a b) →
      (applyCalls ph ext L).length = L.length := by
  intro ext
  induction ext with
  | nil => intro L _; rfl
  | cons c rest ih =>
    intro L hc
    obtain ⟨pty, a, b, rfl⟩ := hc c (List.mem_cons_self c rest)
    unfold applyCalls
    rw [List.foldl_cons]
    have h1 := ih (applyCall ph L (RCall.swap_children pty ph a b))
      (fun c hcm => hc c (List.mem_cons_of_mem _ hcm))
    unfold applyCalls at h1
    rw [h1]
    unfold applyCall
    simp [swapIdx_length]

theorem cycle_loop_spec (pty ph : Nat) :
    ∀ (its : List Nat) (i : Nat) (m : List Nat) (st : St),
      BoundedVals m → PosInj m →
      i + its.length = m.length →
      (∀ j, j < i → m.getD j 0 = j) →
      ∃ m' ext,
        cycle_loop pty ph its i m st =
          (m', { st with calls := st.calls ++ ext }) ∧
        m'.length = m.length ∧
        (∀ j, j < m.length → m'.getD j 0 = j) ∧
        ext.length + (unfixedF m').card ≤ (unfixedF m).card ∧
        (∀ c ∈ ext, ∃ a b, c = RCall.swap_children pty ph a b) ∧
        (∀ L : List Nat, L.length = m.length → ∀ j, j < m.length →
          (m'.getD j 0, (applyCalls ph ext L).getD j 0) ∈ m.zip L) := by
  intro its
  induction its with
  | nil =>
    intro i m st hb hinj hlen hpre
    simp only [List.length_nil, Nat.add_zero] at hlen
    refine ⟨m, [], by simp [cycle_loop], rfl,
      fun j hj => hpre j (by omega), by simp, by simp, ?_⟩
    intro L hL j hj
    simp only [applyCalls, List.foldl_nil]
    exact pair_mem_zip hj (by omega)
  | cons x rest ih =>
    intro i m st hb hinj hlen hpre
    have hi : i < m.length := by simp at hlen; omega
    obtain ⟨m₁, ext₁, heq₁, hlen₁, hb₁, hinj₁, hpre₁, hcnt₁, hsw₁, hpairs₁⟩ :=
      cycle_inner_spec pty ph m.length m i st hb hinj hi
        (unfixedF_card_le m) hpre
    obtain ⟨m', ext₂, heq₂, hlen₂, hpre₂, hcnt₂, hsw₂, hpairs₂⟩ :=
      ih (i + 1) m₁ { st with calls := st.calls ++ ext₁ } hb₁ hinj₁
        (by simp at hlen ⊢; omega)
        (fun j hj => hpre₁ j (by omega))
    refine ⟨m', ext₁ ++ ext₂, ?_, by rw [hlen₂, hlen₁],
      fun j hj => hpre₂ j (by rw [hlen₁]; exact hj), ?_, ?_, ?_⟩
    · rw [cycle_loop, heq₁]
      simp only at heq₂ ⊢
      rw [heq₂, List.append_assoc]
    · rw [List.length_append]
      omega
    · intro c hc
      rcases List.mem_append.1 hc with h | h
      · obtain ⟨a, b, rfl⟩ := hsw₁ c h
        exact ⟨a, b, rfl⟩
      · exact hsw₂ c h
    · intro L hL j hj
      have happ : applyCalls ph (ext₁ ++ ext₂) L =
          applyCalls ph ext₂ (applyCalls ph ext₁ L) := by
        unfold applyCalls
        rw [List.foldl_append]
      rw [happ]
      have hL₁len : (applyCalls ph ext₁ L).length = m₁.length := by
        rw [hlen₁, ← hL]
        exact applyCalls_swaps_length ph ext₁ L
          (fun c hcm => ⟨pty, (hsw₁ c hcm).choose,
            (hsw₁ c hcm).choose_spec.choose, (hsw₁ c hcm).choose_spec.choose_spec⟩)
      have h2 := hpairs₂ (applyCalls ph ext₁ L) hL₁len j
        (by rw [hlen₁]; exact hj)
      -- transport membership from zip m₁ L₁ to zip m L
      obtain ⟨k, hk1, hk2⟩ := (mem_zip_iff _ _ _ _).1 h2
      have hklen : k < m.length := by
        by_contra hk
        have hnone : m₁.get? k = none := by
          rw [List.get?_eq_getElem?, List.getElem?_eq_none]
          rw [hlen₁]; omega
        rw [hnone] at hk1; exact Option.noConfusion hk1
      have e1 : m₁.getD k 0 = m'.getD j 0 := getD_of_get?_eq hk1
      have e2 : (applyCalls ph ext₁ L).getD k 0 =
          (applyCalls ph ext₂ (applyCalls ph ext₁ L)).getD j 0 :=
        getD_of_get?_eq hk2
      rw [← e1, ← e2]
      exact hpairs₁ L hL k hklen

theorem posInj_nodup {l : List Nat} (h : PosInj l) : l.Nodup := by
  rw [List.nodup_iff_injective_getElem]
  rintro ⟨a, ha⟩ ⟨b, hb⟩ hab
  have h1 : l.getD a 0 = l[a] := by
    rw [List.getD_eq_getElem?_getD, List.getElem?_eq_getElem ha]; rfl
  have h2 : l.getD b 0 = l[b] := by
    rw [List.getD_eq_getElem?_getD, List.getElem?_eq_getElem hb]; rfl
  have := h a b ha hb (by rw [h1, h2]; exact hab)
  simpa using this

theorem foldl_set_length :
    ∀ (pairs : List (Nat × Nat)) (m : List Nat),
      (pairs.foldl (fun m p => m.set p.2 p.1) m).length = m.length := by
  intro pairs
  induction pairs with
  | nil => intro m; rfl
  | cons p rest ih =>
    intro m
    rw [List.foldl_cons, ih, List.length_set]

theorem foldl_set_getD_of_not_mem :
    ∀ (pairs : List (Nat × Nat)) (m : List Nat) (v : Nat),
      v ∉ pairs.map Prod.snd →
      (pairs.foldl (fun m p => m.set p.2 p.1) m).getD v 0 = m.getD v 0 := by
  intro pairs
  induction pairs with
  | nil => intro m v _; rfl
  | cons p rest ih =>
    intro m v hv
    simp only [List.map_cons, List.mem_cons] at hv
    push_neg at hv
    rw [List.foldl_cons, ih _ _ hv.2]
    rw [List.getD_eq_getElem?_getD, List.getD_eq_getElem?_getD,
      List.getElem?_set]
    simp [Ne.symm hv.1]

theorem foldl_set_getD_of_mem :
    ∀ (pairs : List (Nat × Nat)) (m : List Nat) (i v : Nat),
      (i, v) ∈ pairs → (pairs.map Prod.snd).Nodup → v < m.length →
      (pairs.foldl (fun m p => m.set p.2 p.1) m).getD v 0 = i := by
  intro pairs
  induction pairs with
  | nil => intro m i v h; cases h
  | cons p rest ih =>
    intro m i v hmem hnd hv
    simp only [List.map_cons, List.nodup_cons] at hnd
    rcases List.mem_cons.1 hmem with h | h
    · subst h
      rw [List.foldl_cons, foldl_set_getD_of_not_mem rest _ v hnd.1]
      rw [List.getD_eq_getElem?_getD, List.getElem?_set]
      simp [hv]
    · rw [List.foldl_cons]
      exact ih _ i v h hnd.2 (by rw [List.length_set]; exact hv)

theorem mkIndicesMap_length (l : List Nat) :
    (mkIndicesMap l).length = l.length := by
  unfold mkIndicesMap
  rw [foldl_set_length]
  simp

theorem mem_enum_self {l : List Nat} {j : Nat} (hj : j < l.length) :
    (j, l.getD j 0) ∈ l.enum := by
  rw [List.enum_eq_zip_range, mem_zip_iff]
  refine ⟨j, ?_, ?_⟩
  · rw [List.get?_eq_getElem?, List.getElem?_range hj]
  · rw [List.get?_eq_getElem?, List.getElem?_eq_getElem hj,
      List.getD_eq_getElem?_getD, List.getElem?_eq_getElem hj]
    rfl

theorem mkIndicesMap_getD {l : List Nat} (hinj : PosInj l)
    (hb : BoundedVals l) {j : Nat} (hj : j < l.length) :
    (mkIndicesMap l).getD (l.getD j 0) 0 = j := by
  unfold mkIndicesMap
  have hnd : (l.enum.map Prod.snd).Nodup := by
    rw [List.enum_map_snd]
    exact posInj_nodup hinj
  exact foldl_set_getD_of_mem l.enum _ j (l.getD j 0) (mem_enum_self hj)
    hnd (by rw [List.length_replicate]; exact hb j hj)

/-- An injective bounded list of length `N` hits every value below `N`. -/
theorem posInj_surj {l : List Nat} (hinj : PosInj l) (hb : BoundedVals l) :
    ∀ e, e < l.length → ∃ j, j < l.length ∧ l.getD j 0 = e := by
  intro e he
  rcases Nat.eq_zero_or_pos l.length with h0 | hpos
  · omega
  have hf : Function.Injective
      (fun j : Fin l.length => (⟨l.getD j.1 0, hb j.1 j.2⟩ : Fin l.length)) := by
    rintro ⟨a, ha⟩ ⟨b, hb'⟩ hab
    simp only [Fin.mk.injEq] at hab
    exact Fin.ext (hinj a b ha hb' hab)
  have hs := Finite.surjective_of_injective hf
  obtain ⟨⟨j, hjl⟩, hje⟩ := hs ⟨e, he⟩
  refine ⟨j, hjl, ?_⟩
  simpa using congrArg Fin.val hje

theorem mkIndicesMap_boundedVals {l : List Nat} (hinj : PosInj l)
    (hb : BoundedVals l) : BoundedVals (mkIndicesMap l) := by
  intro e he
  rw [mkIndicesMap_length] at he ⊢
  obtain ⟨j, hj, hje⟩ := posInj_surj hinj hb e he
  rw [← hje, mkIndicesMap_getD hinj hb hj]
  exact hj

theorem mkIndicesMap_posInj {l : List Nat} (hinj : PosInj l)
    (hb : BoundedVals l) : PosInj (mkIndicesMap l) := by
  intro a b ha hb'
  rw [mkIndicesMap_length] at ha hb'
  obtain ⟨j, hj, hje⟩ := posInj_surj hinj hb a ha
  obtain ⟨k, hk, hke⟩ := posInj_surj hinj hb b hb'
  intro hab
  rw [← hje, ← hke, mkIndicesMap_getD hinj hb hj,
    mkIndicesMap_getD hinj hb hk] at hab
  rw [← hje, ← hke, hab]

/-- The native reorder phase, when no extra children exist: it emits at
most one `swap_children` per native child and realises exactly the
arrangement described by `flat` (position `j` receives the element that
sat at original native slot `flat[j]`). -/
theorem native_reorder_no_extras_spec
    (node newLen : Nat) (ni : List (Option Nat)) (curr : Nat) (st : St)
    (hflat : PosInj (ni.filterMap id)) (hbnd : BoundedVals (ni.filterMap id))
    (hlen : st.tree.len node = newLen) :
    ∃ ext,
      native_reorder_and_remove node newLen ni curr st =
        ({ st with calls := st.calls ++ ext }, curr) ∧
      ext.length ≤ (ni.filterMap id).length ∧
      (∀ c ∈ ext, ∃ a b,
        c = RCall.swap_children
          ((st.tree.getVNode node).native_type.getD 0)
          ((st.tree.getVNode node).native_handle.getD 0) a b) ∧
      (∀ L : List Nat, L.length = (ni.filterMap id).length →
        ∀ j, j < (ni.filterMap id).length →
          (applyCalls ((st.tree.getVNode node).native_handle.getD 0) ext
            L).getD j 0 = L.getD ((ni.filterMap id).getD j 0) 0) := by
  set flat := ni.filterMap id with hflatdef
  set pty := (st.tree.getVNode node).native_type.getD 0 with hpty
  set ph := (st.tree.getVNode node).native_handle.getD 0 with hph
  have hm₀b := mkIndicesMap_boundedVals hflat hbnd
  have hm₀i := mkIndicesMap_posInj hflat hbnd
  have hm₀len := mkIndicesMap_length flat
  obtain ⟨m', ext, heq, hlen', hfix, hcnt, hsw, hpairs⟩ :=
    cycle_loop_spec pty ph flat 0 (mkIndicesMap flat) st hm₀b hm₀i
      (by omega) (by omega)
  refine ⟨ext, ?_, ?_, hsw, ?_⟩
  · simp only [native_reorder_and_remove]
    rw [heq]
    simp only [hlen, Nat.sub_self]
    rfl
  · calc ext.length ≤ (unfixedF (mkIndicesMap flat)).card := by omega
      _ ≤ (mkIndicesMap flat).length := unfixedF_card_le _
      _ = flat.length := hm₀len
  · intro L hL j hj
    have hLm : L.length = (mkIndicesMap flat).length := by rw [hm₀len]; exact hL
    have hjm : j < (mkIndicesMap flat).length := by rw [hm₀len]; exact hj
    have hp := hpairs L hLm j hjm
    rw [hfix j hjm] at hp
    obtain ⟨k, hk1, hk2⟩ := (mem_zip_iff _ _ _ _).1 hp
    have hklen : k < (mkIndicesMap flat).length := by
      by_contra hk
      have hnone : (mkIndicesMap flat).get? k = none := by
        rw [List.get?_eq_getElem?, List.getElem?_eq_none]
        omega
      rw [hnone] at hk1; exact Option.noConfusion hk1
    have hkj : (mkIndicesMap flat).getD k 0 = j := getD_of_get?_eq hk1
    have hfj : (mkIndicesMap flat).getD (flat.getD j 0) 0 = j :=
      mkIndicesMap_getD hflat hbnd hj
    have hkeq : k = flat.getD j 0 :=
      hm₀i k (flat.getD j 0) hklen (by rw [hm₀len]; exact hbnd j hj)
        (by rw [hkj, hfj])
    have := getD_of_get?_eq (d := 0) hk2
    rw [← this, hkeq]

/-! ### Tree facts for the in-place reorder (C3) -/

def VTree.setChildren (t : VTree) (p : Nat) (l : List Nat) : VTree :=
  t.setRec p { t.get p with children := l }

theorem VTree.swapChildren_eq_setChildren (t : VTree) (p i j : Nat) :
    t.swapChildren p i j =
      t.setChildren p (swapIdx (t.childrenOf p) i j) := rfl

theorem VTree.getVNode_setChildren (t : VTree) (p : Nat) (l : List Nat)
    (x : Nat) : (t.setChildren p l).getVNode x = t.getVNode x := by
  unfold VTree.setChildren VTree.getVNode
  rw [VTree.get_setRec]
  by_cases h : p = x ∧ p < t.nodes.length
  · obtain ⟨h1, h2⟩ := h; subst h1; simp [h2]
  · simp [h]

theorem VTree.parentOf_setChildren (t : VTree) (p : Nat) (l : List Nat)
    (x : Nat) : (t.setChildren p l).parentOf x = t.parentOf x := by
  unfold VTree.setChildren VTree.parentOf
  rw [VTree.get_setRec]
  by_cases h : p = x ∧ p < t.nodes.length
  · obtain ⟨h1, h2⟩ := h; subst h1; simp [h2]
  · simp [h]

theorem VTree.length_setChildren (t : VTree) (p : Nat) (l : List Nat) :
    (t.setChildren p l).nodes.length = t.nodes.length :=
  VTree.length_setRec _ _ _

theorem VTree.childrenOf_setChildren_self (t : VTree) (p : Nat)
    (l : List Nat) (h : p < t.nodes.length) :
    (t.setChildren p l).childrenOf p = l := by
  unfold VTree.setChildren VTree.childrenOf
  rw [VTree.get_setRec]
  simp [h]

theorem VTree.setChildren_setChildren (t : VTree) (p : Nat)
    (l l' : List Nat) (h : p < t.nodes.length) :
    (t.setChildren p l).setChildren p l' = t.setChildren p l' := by
  have hg : (t.setChildren p l).get p = { t.get p with children := l } := by
    unfold VTree.setChildren
    rw [VTree.get_setRec]
    simp [h]
  show (t.setChildren p l).setRec p
      { (t.setChildren p l).get p with children := l' } = t.setChildren p l'
  rw [hg]
  unfold VTree.setChildren VTree.setRec
  simp only
  congr 1
  rw [List.set_set]

theorem list_set_self {α : Type} (l : List α) (p : Nat) (h : p < l.length) :
    l.set p l[p] = l := by
  apply List.ext_getElem
  · simp
  · intro i h1 h2
    rw [List.getElem_set]
    split
    · next he => subst he; rfl
    · rfl

theorem VTree.setChildren_self (t : VTree) (p : Nat) :
    t.setChildren p (t.childrenOf p) = t := by
  unfold VTree.setChildren VTree.childrenOf
  by_cases h : p < t.nodes.length
  · have h2 : ({ t.get p with children := (t.get p).children } : NodeRec) =
        t.get p := rfl
    rw [h2]
    unfold VTree.setRec VTree.get
    have hg : t.nodes.getD p junkRec = t.nodes[p] := by
      rw [List.getD_eq_getElem?_getD, List.getElem?_eq_getElem h]; rfl
    rw [hg]
    cases t with
    | mk ns =>
      simp only
      congr 1
      exact list_set_self ns p h
  · unfold VTree.setRec
    cases t with
    | mk ns =>
      simp only
      congr 1
      apply List.set_eq_of_length_le
      simpa using Nat.le_of_not_lt h

/-! ### Association-list facts (C3) -/

theorem ipLookup_ipInsert_self (m : List (ChildId × Nat × Nat))
    (k : ChildId) (v : Nat × Nat) : ipLookup (ipInsert m k v) k = some v := by
  unfold ipInsert
  by_cases h : (m.find? (fun e => e.1 = k)).isSome
  · simp only [h, if_true]
    induction m with
    | nil => simp at h
    | cons e rest ih =>
      by_cases he : e.1 = k
      · unfold ipLookup
        simp [he]
      · rw [List.find?_cons_of_neg] at h
        · unfold ipLookup at ih ⊢
          simp only [List.map_cons, if_neg he]
          rw [List.find?_cons_of_neg]
          · exact ih h
          · simpa using he
        · simpa using he
  · simp only [h, Bool.false_eq_true, if_false]
    induction m with
    | nil => unfold ipLookup; simp
    | cons e rest ih =>
      by_cases he : e.1 = k
      · exfalso
        apply h
        rw [List.find?_cons_of_pos]
        · simp
        · simpa using he
      · rw [List.find?_cons_of_neg] at h
        · unfold ipLookup at ih ⊢
          rw [List.cons_append, List.find?_cons_of_neg]
          · exact ih h
          · simpa using he
        · simpa using he

theorem ipLookup_map_ne (k x : ChildId) (v : Nat × Nat) (h : x ≠ k) :
    ∀ m : List (ChildId × Nat × Nat),
      ipLookup (m.map (fun e => if e.1 = k then (k, v) else e)) x =
        ipLookup m x := by
  intro m
  induction m with
  | nil => rfl
  | cons e rest ih =>
    unfold ipLookup at ih ⊢
    simp only [List.map_cons]
    by_cases he : e.1 = k
    · simp only [if_pos he]
      rw [List.find?_cons_of_neg, List.find?_cons_of_neg]
      · exact ih
      · simp only [decide_eq_true_eq]
        rw [he]
        exact Ne.symm h
      · simp only [decide_eq_true_eq]
        exact Ne.symm h
    · simp only [if_neg he]
      by_cases hex : e.1 = x
      · rw [List.find?_cons_of_pos, List.find?_cons_of_pos]
        · simpa using hex
        · simpa using hex
      · rw [List.find?_cons_of_neg, List.find?_cons_of_neg]
        · exact ih
        · simpa using hex
        · simpa using hex

theorem ipLookup_ipInsert_ne (m : List (ChildId × Nat × Nat))
    (k x : ChildId) (v : Nat × Nat) (h : x ≠ k) :
    ipLookup (ipInsert m k v) x = ipLookup m x := by
  unfold ipInsert
  by_cases hp : (m.find? (fun e => e.1 = k)).isSome
  · simp only [hp, if_true]
    exact ipLookup_map_ne k x v h m
  · simp only [hp, Bool.false_eq_true, if_false]
    unfold ipLookup
    rw [List.find?_append]
    have hsing : ([(k, v)].find? (fun e => e.1 = x)) = none := by
      rw [List.find?_cons_of_neg]
      · rfl
      · simpa using Ne.symm h
    rw [hsing]
    simp

theorem ipLookup_ipUpdate_ne (m : List (ChildId × Nat × Nat))
    (k x : ChildId) (v : Nat × Nat) (h : x ≠ k) :
    ipLookup (ipUpdate m k v) x = ipLookup m x :=
  ipLookup_map_ne k x v h m

theorem ipLookup_ipUpdate_self (m : List (ChildId × Nat × Nat))
    (k : ChildId) (v : Nat × Nat) (h : (ipLookup m k).isSome) :
    ipLookup (ipUpdate m k v) k = some v := by
  unfold ipUpdate
  unfold ipLookup at h ⊢
  induction m with
  | nil => simp at h
  | cons e rest ih =>
    simp only [List.map_cons]
    by_cases he : e.1 = k
    · simp only [if_pos he]
      have hfind : List.find? (fun e => decide (e.1 = k))
          ((k, v) :: List.map (fun e => if e.1 = k then (k, v) else e)
            rest) = some (k, v) := by
        rw [List.find?_cons_of_pos]
        simp
      rw [hfind]
    · simp only [if_neg he]
      rw [List.find?_cons_of_neg] at h
      · rw [List.find?_cons_of_neg]
        · exact ih h
        · simpa using he
      · simpa using he


theorem foldl_ipInsert_frozen {α : Type} (key : α → ChildId)
    (val : α → Nat × Nat) :
    ∀ (l : List α) (m : List (ChildId × Nat × Nat)) (k : ChildId),
      k ∉ l.map key →
      ipLookup (l.foldl (fun m e => ipInsert m (key e) (val e)) m) k =
        ipLookup m k := by
  intro l
  induction l with
  | nil => intro m k _; rfl
  | cons a rest ih =>
    intro m k hk
    simp only [List.map_cons, List.mem_cons] at hk
    push_neg at hk
    rw [List.foldl_cons, ih _ _ hk.2]
    exact ipLookup_ipInsert_ne m (key a) k (val a) hk.1

theorem foldl_ipInsert_lookup {α : Type} (key : α → ChildId)
    (val : α → Nat × Nat) :
    ∀ (l : List α) (m : List (ChildId × Nat × Nat)) (x : α),
      x ∈ l → (l.map key).Nodup →
      ipLookup (l.foldl (fun m e => ipInsert m (key e) (val e)) m) (key x) =
        some (val x) := by
  intro l
  induction l with
  | nil => intro m x h; cases h
  | cons a rest ih =>
    intro m x hx hnd
    simp only [List.map_cons, List.nodup_cons] at hnd
    rcases List.mem_cons.1 hx with h | h
    · subst h
      rw [List.foldl_cons, foldl_ipInsert_frozen key val rest _ (key x) hnd.1]
      exact ipLookup_ipInsert_self m (key x) (val x)
    · rw [List.foldl_cons]
      exact ih _ x h hnd.2

/-- With duplicate-free identities, `in_place_components` maps the
identity of the `k`-th current child to that child and its index
(vdom.rs lines 412-415). -/
theorem buildInPlace_lookup (t : VTree) (cs : List Nat) (k : Nat)
    (hk : k < cs.length)
    (hnd : (cs.map (fun c => ChildId.from_view (t.getVNode c).component)).Nodup) :
    ipLookup (buildInPlace t cs)
      (ChildId.from_view (t.getVNode (cs.getD k 0)).component) =
      some (cs.getD k 0, k) := by
  have hfold : buildInPlace t cs = cs.enum.foldl
      (fun m e => ipInsert m
        (ChildId.from_view (t.getVNode e.2).component) (e.2, e.1)) [] := rfl
  rw [hfold]
  have hmem : (k, cs.getD k 0) ∈ cs.enum := mem_enum_self hk
  have hnd' : (cs.enum.map
      (fun e => ChildId.from_view (t.getVNode e.2).component)).Nodup := by
    have h1 : cs.enum.map
        (fun e : Nat × Nat => ChildId.from_view (t.getVNode e.2).component) =
        (cs.enum.map Prod.snd).map
          (fun c => ChildId.from_view (t.getVNode c).component) := by
      rw [List.map_map]; rfl
    rw [h1, List.enum_map_snd]
    exact hnd
  exact foldl_ipInsert_lookup
    (fun e : Nat × Nat => ChildId.from_view (t.getVNode e.2).component)
    (fun e => (e.2, e.1)) cs.enum [] (k, cs.getD k 0) hmem hnd'

/-! ### The in-place selection reorder (C3) -/

theorem getD_eq_elem {α : Type} (l : List α) (d : α) {i : Nat}
    (h : i < l.length) : l.getD i d = l[i] := by
  rw [List.getD_eq_getElem?_getD, List.getElem?_eq_getElem h]; rfl

theorem nodup_getD_inj {l : List Nat} (h : l.Nodup) (i j : Nat)
    (hi : i < l.length) (hj : j < l.length)
    (hij : l.getD i 0 = l.getD j 0) : i = j := by
  rw [List.nodup_iff_injective_getElem] at h
  rw [getD_eq_elem l 0 hi, getD_eq_elem l 0 hj] at hij
  have : (⟨i, hi⟩ : Fin l.length) = ⟨j, hj⟩ := h hij
  simpa using this

theorem enumFrom_drop_cons {α : Type} (l : List α) (k : Nat)
    (h : k < l.length) (d : α) :
    List.enumFrom k (l.drop k) =
      (k, l.getD k d) :: List.enumFrom (k + 1) (l.drop (k + 1)) := by
  rw [List.drop_eq_getElem_cons h, getD_eq_elem l d h]
  rfl

theorem list_eq_of_getD {α : Type} {l₁ l₂ : List α} (d : α)
    (hlen : l₁.length = l₂.length)
    (h : ∀ i, i < l₂.length → l₁.getD i d = l₂.getD i d) : l₁ = l₂ := by
  apply List.ext_getElem hlen
  intro i h1 h2
  have := h i h2
  rw [getD_eq_elem l₁ d h1, getD_eq_elem l₂ d h2] at this
  exact this

/-- The selection pass (vdom.rs 461-476): starting from position `k` with
the prefix already in target order and `in_place_components` tracking the
position of every not-yet-placed target child, it rearranges the child
list into the target order, swaps `native_indices` alongside, and
performs at most one in-tree swap per remaining position. -/
theorem selection_go_spec (st₀ : St) (node : Nat) (idf : Nat → ChildId)
    (nf : Nat → Option Nat) (tgt : List Nat)
    (hnode : node < st₀.tree.nodes.length)
    (hidf : ∀ c, ChildId.from_view ((st₀.tree.getVNode c).component) = idf c)
    (hidn : (tgt.map idf).Nodup) :
    ∀ (d k : Nat), k + d = tgt.length →
    ∀ (curr : List Nat) (ni : List (Option Nat))
      (ip : List (ChildId × Nat × Nat)),
      curr.length = tgt.length → ni.length = tgt.length →
      (∀ j, j < k → curr.getD j 0 = tgt.getD j 0) →
      (∀ p, p < tgt.length → curr.getD p 0 ∈ tgt) →
      (∀ j, k ≤ j → j < tgt.length → ∃ q sn, k ≤ q ∧ q < tgt.length ∧
        curr.getD q 0 = tgt.getD j 0 ∧
        ipLookup ip (idf (tgt.getD j 0)) = some (sn, q)) →
      (∀ p, p < tgt.length → ni.getD p none = nf (curr.getD p 0)) →
      ∃ ni' cnt,
        selection_reorder_go node
          (List.enumFrom k ((tgt.map idf).drop k)) ni ip
          { st₀ with tree := st₀.tree.setChildren node curr } =
          ({ st₀ with tree := st₀.tree.setChildren node tgt }, ni', cnt) ∧
        ni'.length = tgt.length ∧ cnt ≤ d ∧
        (∀ p, p < tgt.length → ni'.getD p none = nf (tgt.getD p 0)) := by
  have htn : tgt.Nodup := List.Nodup.of_map idf hidn
  have hinj : ∀ a b, a ∈ tgt → b ∈ tgt → idf a = idf b → a = b := by
    intro a b ha hb hab
    exact List.inj_on_of_nodup_map hidn ha hb hab
  intro d
  induction d with
  | zero =>
    intro k hk curr ni ip hclen hnlen hpre hmem hpos hni
    have hke : k = tgt.length := by omega
    subst hke
    have hdrop : (tgt.map idf).drop tgt.length = [] := by
      rw [← List.length_map tgt idf]
      exact List.drop_length _
    have hct : curr = tgt := by
      apply list_eq_of_getD 0 hclen
      intro i hi
      exact hpre i hi
    rw [hdrop, hct]
    exact ⟨ni, 0, rfl, hnlen, Nat.le_refl 0, fun p hp => by
      rw [hni p hp, hct]⟩
  | succ d ih =>
    intro k hk curr ni ip hclen hnlen hpre hmem hpos hni
    have hklt : k < tgt.length := by omega
    have hkm : k < (tgt.map idf).length := by
      rw [List.length_map]; exact hklt
    have hcons : List.enumFrom k ((tgt.map idf).drop k) =
        (k, idf (tgt.getD k 0)) ::
          List.enumFrom (k + 1) ((tgt.map idf).drop (k + 1)) := by
      rw [enumFrom_drop_cons (tgt.map idf) k hkm (idf 0)]
      congr 2
      rw [getD_eq_elem _ _ hkm, getD_eq_elem _ _ hklt, List.getElem_map]
    have hcur : ({ st₀ with tree := st₀.tree.setChildren node curr } :
        St).tree.childrenOf node = curr :=
      VTree.childrenOf_setChildren_self _ _ _ hnode
    have hchildAt : ({ st₀ with tree := st₀.tree.setChildren node curr } :
        St).tree.childAt node k = curr.getD k 0 := by
      unfold VTree.childAt
      rw [hcur]
    have hvn : ∀ c, ({ st₀ with tree := st₀.tree.setChildren node curr } :
        St).tree.getVNode c = st₀.tree.getVNode c :=
      fun c => VTree.getVNode_setChildren _ _ _ _
    have hid : ChildId.from_view
        ((({ st₀ with tree := st₀.tree.setChildren node curr } :
          St).tree.getVNode (curr.getD k 0)).component) =
        idf (curr.getD k 0) := by
      rw [hvn]; exact hidf _
    have hmemk : curr.getD k 0 ∈ tgt := hmem k hklt
    have htgtk : tgt.getD k 0 ∈ tgt := by
      rw [getD_eq_elem _ _ hklt]
      exact List.getElem_mem hklt
    rw [hcons, selection_reorder_go, hchildAt, hid]
    by_cases heq : idf (curr.getD k 0) = idf (tgt.getD k 0)
    · have hck : curr.getD k 0 = tgt.getD k 0 := hinj _ _ hmemk htgtk heq
      rw [if_neg (not_not_intro heq)]
      have hpreA : ∀ j, j < k + 1 → curr.getD j 0 = tgt.getD j 0 := by
        intro j hj
        rcases Nat.lt_or_ge j k with h | h
        · exact hpre j h
        · have : j = k := by omega
          subst this
          exact hck
      have hposA : ∀ j, k + 1 ≤ j → j < tgt.length → ∃ q sn,
          k + 1 ≤ q ∧ q < tgt.length ∧ curr.getD q 0 = tgt.getD j 0 ∧
          ipLookup ip (idf (tgt.getD j 0)) = some (sn, q) := by
        intro j hj hjl
        obtain ⟨q, sn, hkq, hql, hcq, hip⟩ := hpos j (by omega) hjl
        refine ⟨q, sn, ?_, hql, hcq, hip⟩
        rcases Nat.lt_or_ge k q with h | h
        · omega
        · have hqk : q = k := by omega
          subst hqk
          have : j = q := by
            apply nodup_getD_inj htn j q hjl hql
            rw [← hcq, hck]
          omega
      obtain ⟨ni', cnt, hrec, hl, hc, hn⟩ :=
        ih (k + 1) (by omega) curr ni ip hclen hnlen hpreA hmem hposA hni
      exact ⟨ni', cnt, hrec, hl, by omega, hn⟩
    · obtain ⟨q, sn, hkq, hql, hcq, hip⟩ :=
        hpos k (Nat.le_refl k) hklt
      have hqk : q ≠ k := by
        intro h
        subst h
        exact heq (by rw [hcq])
      have hkgt : k < q := by omega
      have hkc : k < curr.length := by omega
      have hqc : q < curr.length := by omega
      have hkn : k < ni.length := by omega
      have hqn : q < ni.length := by omega
      rw [if_pos (fun h => heq h), hip]
      have hst' : ({ st₀ with tree := st₀.tree.setChildren node curr } :
          St).tree.swapChildren node k q =
          st₀.tree.setChildren node (swapIdx curr k q) := by
        rw [VTree.swapChildren_eq_setChildren, hcur,
          VTree.setChildren_setChildren _ _ _ _ hnode]
      have hclen' : (swapIdx curr k q).length = tgt.length := by
        rw [swapIdx_length]; exact hclen
      have hnlen' : (swapIdx ni k q).length = tgt.length := by
        rw [swapIdx_length]; exact hnlen
      have hpre' : ∀ j, j < k + 1 →
          (swapIdx curr k q).getD j 0 = tgt.getD j 0 := by
        intro j hj
        rw [getD_swapIdx curr k q j 0 hkc hqc]
        rcases Nat.lt_or_ge j k with h | h
        · rw [if_neg (by omega), if_neg (by omega)]
          exact hpre j h
        · have : j = k := by omega
          subst this
          rw [if_pos rfl]
          exact hcq
      have hmem' : ∀ p, p < tgt.length →
          (swapIdx curr k q).getD p 0 ∈ tgt := by
        intro p hp
        rw [getD_swapIdx_fn curr k q p 0 hkc hqc]
        exact hmem _ (swapFn_lt hklt hql hp)
      have hpos' : ∀ j, k + 1 ≤ j → j < tgt.length → ∃ q' sn',
          k + 1 ≤ q' ∧ q' < tgt.length ∧
          (swapIdx curr k q).getD q' 0 = tgt.getD j 0 ∧
          ipLookup (ipUpdate ip (idf (curr.getD k 0)) (sn, q))
            (idf (tgt.getD j 0)) = some (sn', q') := by
        intro j hj hjl
        obtain ⟨qj, snj, hkqj, hqjl, hcqj, hipj⟩ := hpos j (by omega) hjl
        have htj : tgt.getD j 0 ∈ tgt := by
          rw [getD_eq_elem _ _ hjl]
          exact List.getElem_mem hjl
        by_cases hdis : tgt.getD j 0 = curr.getD k 0
        · refine ⟨q, sn, by omega, hql, ?_, ?_⟩
          · rw [getD_swapIdx curr k q q 0 hkc hqc,
              if_neg (by omega), if_pos rfl, hdis]
          · rw [hdis, ipLookup_ipUpdate_self]
            rw [← hdis, hipj]
            rfl
        · have hne2 : idf (tgt.getD j 0) ≠ idf (curr.getD k 0) := by
            intro h
            exact hdis (hinj _ _ htj hmemk h)
          have hqjk : qj ≠ k := by
            intro h
            subst h
            exact hdis hcqj.symm
          have hqjq : qj ≠ q := by
            intro h
            subst h
            rw [hcq] at hcqj
            have : j = k := nodup_getD_inj htn j k hjl hklt hcqj.symm
            omega
          refine ⟨qj, snj, by omega, hqjl, ?_, ?_⟩
          · rw [getD_swapIdx curr k q qj 0 hkc hqc,
              if_neg hqjk, if_neg hqjq]
            exact hcqj
          · rw [ipLookup_ipUpdate_ne ip _ _ _ hne2]
            exact hipj
      have hni' : ∀ p, p < tgt.length →
          (swapIdx ni k q).getD p none =
            nf ((swapIdx curr k q).getD p 0) := by
        intro p hp
        rw [getD_swapIdx_fn ni k q p none hkn hqn,
          getD_swapIdx_fn curr k q p 0 hkc hqc]
        exact hni _ (swapFn_lt hklt hql hp)
      obtain ⟨ni'', cnt, hrec, hlen'', hcnt'', hnf''⟩ :=
        ih (k + 1) (by omega) (swapIdx curr k q) (swapIdx ni k q)
          (ipUpdate ip (idf (curr.getD k 0)) (sn, q))
          hclen' hnlen' hpre' hmem' hpos' hni'
      refine ⟨ni'', cnt + 1, ?_, hlen'', by omega, hnf''⟩
      simp only []
      rw [hst', hrec]

/-- C3: when an update permutes a native instance's keyed children (no
children added or removed, duplicate-free identities), the in-place pass
of the child diff (vdom.rs lines 461-476) reorders the child list into
the target order using at most `new_ids.len()` in-tree sibling swaps, and
the native pass (vdom.rs lines 481-511) emits at most that many renderer
`swap_children` calls whose net effect on any native child list is
exactly the permutation: position `j` ends up holding the element that
originally sat at the position of the `j`-th target child. -/
theorem C3_keyed_permutation_reorder
    (st : St) (node : Nat) (tgt : List Nat) (cidx : Nat)
    (hnode : node < st.tree.nodes.length)
    (hperm : (st.tree.childrenOf node).Perm tgt)
    (hidn : ((st.tree.childrenOf node).map
      (fun c => ChildId.from_view ((st.tree.getVNode c).component))).Nodup) :
    ∃ ni' cnt ext,
      selection_reorder node
        (tgt.map (fun c => ChildId.from_view ((st.tree.getVNode c).component)))
        ((List.range (st.tree.childrenOf node).length).map some)
        (buildInPlace st.tree (st.tree.childrenOf node)) st =
        ({ st with tree := st.tree.setChildren node tgt }, ni', cnt) ∧
      cnt ≤ tgt.length ∧
      native_reorder_and_remove node tgt.length ni' cidx
          { st with tree := st.tree.setChildren node tgt } =
        ({ st with
            tree := st.tree.setChildren node tgt,
            calls := st.calls ++ ext }, cidx) ∧
      ext.length ≤ tgt.length ∧
      (∀ c ∈ ext, ∃ a b, c = RCall.swap_children
        ((st.tree.getVNode node).native_type.getD 0)
        ((st.tree.getVNode node).native_handle.getD 0) a b) ∧
      (∀ L : List Nat, L.length = tgt.length → ∀ j, j < tgt.length →
        (applyCalls ((st.tree.getVNode node).native_handle.getD 0) ext
          L).getD j 0 =
          L.getD ((st.tree.childrenOf node).indexOf (tgt.getD j 0)) 0) := by
  set cs := st.tree.childrenOf node with hcs
  have hlen : cs.length = tgt.length := hperm.length_eq
  have hcsn : cs.Nodup := List.Nodup.of_map _ hidn
  have htn : tgt.Nodup := hperm.nodup hcsn
  have hidn' : (tgt.map
      (fun c => ChildId.from_view ((st.tree.getVNode c).component))).Nodup :=
    (hperm.map _).nodup hidn
  have hmemcs : ∀ j, j < tgt.length → tgt.getD j 0 ∈ cs := by
    intro j hjl
    rw [getD_eq_elem tgt 0 hjl]
    exact hperm.symm.subset (List.getElem_mem hjl)
  have hmem0 : ∀ p, p < tgt.length → cs.getD p 0 ∈ tgt := by
    intro p hp
    have hplt : p < cs.length := by omega
    rw [getD_eq_elem cs 0 hplt]
    exact hperm.subset (List.getElem_mem hplt)
  have hpos0 : ∀ j, 0 ≤ j → j < tgt.length → ∃ q sn, 0 ≤ q ∧
      q < tgt.length ∧ cs.getD q 0 = tgt.getD j 0 ∧
      ipLookup (buildInPlace st.tree cs)
        ((fun c => ChildId.from_view ((st.tree.getVNode c).component))
          (tgt.getD j 0)) = some (sn, q) := by
    intro j _ hjl
    obtain ⟨q, hq, hqe⟩ := List.mem_iff_getElem.1 (hmemcs j hjl)
    have hgq : cs.getD q 0 = tgt.getD j 0 := by
      rw [getD_eq_elem cs 0 hq]; exact hqe
    refine ⟨q, tgt.getD j 0, Nat.zero_le q, by omega, hgq, ?_⟩
    have hl := buildInPlace_lookup st.tree cs q hq hidn
    rw [hgq] at hl
    exact hl
  have hnf0 : ∀ p, p < tgt.length →
      (((List.range cs.length).map some).getD p none : Option Nat) =
        (fun c => some (cs.indexOf c)) (cs.getD p 0) := by
    intro p hp
    have hplt : p < cs.length := by omega
    have hp' : p < ((List.range cs.length).map some).length := by
      simp [hplt]
    rw [getD_eq_elem _ none hp', List.getElem_map, List.getElem_range]
    simp only
    congr 1
    rw [getD_eq_elem cs 0 hplt]
    exact (List.indexOf_getElem hcsn p hplt).symm
  obtain ⟨ni', cnt, hrec, hnlen', hcnt, hnf'⟩ :=
    selection_go_spec st node
      (fun c => ChildId.from_view ((st.tree.getVNode c).component))
      (fun c => some (cs.indexOf c)) tgt hnode (fun c => rfl) hidn'
      tgt.length 0 (by omega)
      cs ((List.range cs.length).map some) (buildInPlace st.tree cs)
      hlen (by simp [hlen]) (fun j hj => absurd hj (Nat.not_lt_zero j))
      hmem0 hpos0 hnf0
  have hstself : ({ st with tree := st.tree.setChildren node cs } : St) =
      st := by
    rw [hcs, VTree.setChildren_self]
  rw [hstself] at hrec
  have hids : List.enumFrom 0 ((tgt.map
      (fun c => ChildId.from_view ((st.tree.getVNode c).component))).drop 0) =
      (tgt.map
        (fun c => ChildId.from_view ((st.tree.getVNode c).component))).enum := by
    rw [List.drop_zero]; rfl
  rw [hids] at hrec
  refine ⟨ni', cnt, ?_⟩
  have hpermL_getD : ∀ j, j < tgt.length →
      (((List.range tgt.length).map
        (fun p => cs.indexOf (tgt.getD p 0))).getD j 0) =
      cs.indexOf (tgt.getD j 0) := by
    intro j hj
    have hj' : j < ((List.range tgt.length).map
        (fun p => cs.indexOf (tgt.getD p 0))).length := by simp [hj]
    rw [getD_eq_elem _ 0 hj', List.getElem_map, List.getElem_range]
  have hni'eq : ni' = ((List.range tgt.length).map
      (fun p => cs.indexOf (tgt.getD p 0))).map some := by
    apply list_eq_of_getD none
    · rw [hnlen']; simp
    · intro i hi
      have hi' : i < tgt.length := by simpa using hi
      rw [hnf' i hi']
      have hi'' : i < (((List.range tgt.length).map
          (fun p => cs.indexOf (tgt.getD p 0))).map some).length := by
        simp [hi']
      rw [getD_eq_elem _ none hi'', List.getElem_map, List.getElem_map,
        List.getElem_range]
  have hflat : ni'.filterMap id = (List.range tgt.length).map
      (fun p => cs.indexOf (tgt.getD p 0)) := by
    rw [hni'eq, List.filterMap_map]
    simp
  have hBV : BoundedVals ((List.range tgt.length).map
      (fun p => cs.indexOf (tgt.getD p 0))) := by
    intro e he
    rw [List.length_map, List.length_range] at he
    rw [hpermL_getD e he, List.length_map, List.length_range]
    have := List.indexOf_lt_length.2 (hmemcs e he)
    omega
  have hPI : PosInj ((List.range tgt.length).map
      (fun p => cs.indexOf (tgt.getD p 0))) := by
    intro a b ha hb hab
    rw [List.length_map, List.length_range] at ha hb
    rw [hpermL_getD a ha, hpermL_getD b hb] at hab
    have hma := hmemcs a ha
    have hmb := hmemcs b hb
    have hxa : cs.getD (cs.indexOf (tgt.getD a 0)) 0 = tgt.getD a 0 := by
      rw [getD_eq_elem cs 0 (List.indexOf_lt_length.2 hma)]
      exact List.getElem_indexOf _
    have hxb : cs.getD (cs.indexOf (tgt.getD b 0)) 0 = tgt.getD b 0 := by
      rw [getD_eq_elem cs 0 (List.indexOf_lt_length.2 hmb)]
      exact List.getElem_indexOf _
    have : tgt.getD a 0 = tgt.getD b 0 := by
      rw [← hxa, ← hxb, hab]
    exact nodup_getD_inj htn a b ha hb this
  have hPI' : PosInj (ni'.filterMap id) := by rw [hflat]; exact hPI
  have hBV' : BoundedVals (ni'.filterMap id) := by rw [hflat]; exact hBV
  have hlen₁ : ({ st with tree := st.tree.setChildren node tgt } :
      St).tree.len node = tgt.length := by
    show (({ st with tree := st.tree.setChildren node tgt } :
      St).tree.childrenOf node).length = tgt.length
    rw [VTree.childrenOf_setChildren_self _ _ _ hnode]
  obtain ⟨ext, heq2, hextlen, hsw, happly⟩ :=
    native_reorder_no_extras_spec node tgt.length ni' cidx
      { st with tree := st.tree.setChildren node tgt } hPI' hBV' hlen₁
  have hv : ({ st with tree := st.tree.setChildren node tgt } :
      St).tree.getVNode node = st.tree.getVNode node :=
    VTree.getVNode_setChildren _ _ _ _
  rw [hv] at hsw happly
  have hflatlen : (ni'.filterMap id).length = tgt.length := by
    rw [hflat, List.length_map, List.length_range]
  refine ⟨ext, hrec, by omega, heq2, by omega, hsw, ?_⟩
  intro L hL j hj
  have h1 := happly L (by omega) j (by omega)
  rw [hflat] at h1
  rw [h1, hpermL_getD j hj, hcs]

/-- A native container (handle 100, type 7) whose three keyed native
leaf children sit at arena slots 1, 2 and 3. -/
def stC3 : St :=
  ⟨⟨[⟨{ component := boxView [leafView 1, leafView 2, leafView 3] false,
        native_handle := some 100, native_type := some 7, dirty := false },
      none, [1, 2, 3]⟩,
     ⟨{ component := leafView 1, native_handle := some 101,
        native_type := some 5, dirty := false }, some 0, []⟩,
     ⟨{ component := leafView 2, native_handle := some 102,
        native_type := some 5, dirty := false }, some 0, []⟩,
     ⟨{ component := leafView 3, native_handle := some 103,
        native_type := some 5, dirty := false }, some 0, []⟩]⟩, [], [], 200⟩

theorem C3_witness :
    (0 < stC3.tree.nodes.length ∧
      (stC3.tree.childrenOf 0).Perm [3, 1, 2] ∧
      ((stC3.tree.childrenOf 0).map
        (fun c => ChildId.from_view ((stC3.tree.getVNode c).component))).Nodup) ∧
    (∃ ni' cnt ext,
      selection_reorder 0
        (([3, 1, 2] : List Nat).map
          (fun c => ChildId.from_view ((stC3.tree.getVNode c).component)))
        ((List.range (stC3.tree.childrenOf 0).length).map some)
        (buildInPlace stC3.tree (stC3.tree.childrenOf 0)) stC3 =
        ({ stC3 with tree := stC3.tree.setChildren 0 [3, 1, 2] }, ni', cnt) ∧
      cnt ≤ ([3, 1, 2] : List Nat).length ∧
      native_reorder_and_remove 0 ([3, 1, 2] : List Nat).length ni' 3
          { stC3 with tree := stC3.tree.setChildren 0 [3, 1, 2] } =
        ({ stC3 with
            tree := stC3.tree.setChildren 0 [3, 1, 2],
            calls := stC3.calls ++ ext }, 3) ∧
      ext.length ≤ ([3, 1, 2] : List Nat).length ∧
      (∀ c ∈ ext, ∃ a b, c = RCall.swap_children
        ((stC3.tree.getVNode 0).native_type.getD 0)
        ((stC3.tree.getVNode 0).native_handle.getD 0) a b) ∧
      (∀ L : List Nat, L.length = ([3, 1, 2] : List Nat).length →
        ∀ j, j < ([3, 1, 2] : List Nat).length →
        (applyCalls ((stC3.tree.getVNode 0).native_handle.getD 0) ext
          L).getD j 0 =
          L.getD ((stC3.tree.childrenOf 0).indexOf
            (([3, 1, 2] : List Nat).getD j 0)) 0)) :=
  ⟨⟨by decide, by decide, by decide⟩,
   C3_keyed_permutation_reorder stC3 0 [3, 1, 2] 3
     (by decide) (by decide) (by decide)⟩

/-! ### The native handle/type synchronisation invariant (C6) -/

/-- Spec P1 / I4: an instance owns a native handle exactly when it has a
native type. -/
def SInv (t : VTree) : Prop :=
  ∀ i, (t.getVNode i).native_handle.isSome = (t.getVNode i).native_type.isSome

theorem SInv_bounded (t : VTree) (h : ∀ i, i < t.nodes.length →
    (t.getVNode i).native_handle.isSome = (t.getVNode i).native_type.isSome) :
    SInv t := by
  intro i
  by_cases hi : i < t.nodes.length
  · exact h i hi
  · have hj : t.getVNode i = VNode.ofComponent View.unit := by
      unfold VTree.getVNode VTree.get
      rw [List.getD_eq_getElem?_getD, List.getElem?_eq_none
        (Nat.le_of_not_lt hi)]
      rfl
    rw [hj]
    rfl

theorem VTree.mk_nodes (x : VTree) : VTree.mk x.nodes = x := rfl

theorem getVNode_mk_append (l : List NodeRec) (e : NodeRec) (j : Nat) :
    (VTree.mk (l ++ [e])).getVNode j =
      if j = l.length then e.vnode else (VTree.mk l).getVNode j := by
  unfold VTree.getVNode VTree.get
  simp only
  rw [List.getD_eq_getElem?_getD, List.getD_eq_getElem?_getD]
  rcases Nat.lt_trichotomy j l.length with h | h | h
  · rw [List.getElem?_append_left h, if_neg (by omega)]
  · subst h
    rw [List.getElem?_append_right (by omega)]
    simp
  · rw [if_neg (by omega), List.getElem?_append_right (by omega)]
    rw [List.getElem?_eq_none (by simp; omega),
      List.getElem?_eq_none (by omega)]

theorem VTree.getVNode_push (t : VTree) (p : Nat) (v : VNode) (j : Nat) :
    (t.push p v).2.getVNode j =
      if j = t.nodes.length then v else t.getVNode j := by
  have h1 : (t.push p v).2 = VTree.mk ((t.setRec p
      { t.get p with children := t.childrenOf p ++ [t.nodes.length] }).nodes
      ++ [⟨v, some p, []⟩]) := rfl
  rw [h1, getVNode_mk_append, VTree.length_setRec]
  by_cases hj : j = t.nodes.length
  · simp [hj]
  · rw [if_neg hj, if_neg hj, VTree.mk_nodes]
    unfold VTree.getVNode
    rw [VTree.get_setRec]
    by_cases hp : p = j ∧ p < t.nodes.length
    · rw [if_pos hp]
      obtain ⟨h2, _⟩ := hp
      subst h2
      rfl
    · rw [if_neg hp]

theorem native_append_child_tree (parent child : Nat) (st : St) :
    (native_append_child parent child st).tree = st.tree := by
  unfold native_append_child
  cases child_with_native_handle child st.tree <;> rfl

/-- Joint statement for the mount recursion: `generate_vnode` on a node
without a native handle, and `generate_children`, preserve the
handle/type synchronisation of every instance.  `generate_vnode` is the
code that creates handles (vdom.rs lines 230-243): it derives
`native_type` from the component and allocates `native_handle` exactly
when that type is `Some`. -/
theorem generate_SInv_aux :
    ∀ fuel,
      (∀ gen node st st', SInv st.tree →
        (st.tree.getVNode node).native_handle = none →
        generate_vnode fuel gen node st = .ok st' → SInv st'.tree) ∧
      (∀ gen node b l st st', SInv st.tree →
        generate_children fuel gen node b l st = .ok st' → SInv st'.tree) := by
  intro fuel
  induction fuel with
  | zero =>
    constructor
    · intro gen node st st' hs hh h; simp [generate_vnode] at h
    · intro gen node b l st st' hs h
      cases l with
      | nil => simp [generate_children] at h; subst h; exact hs
      | cons v rest => simp [generate_children] at h
  | succ fuel ih =>
    obtain ⟨ihv, ihc⟩ := ih
    constructor
    · intro gen node st st' hs hh h
      rw [generate_vnode] at h
      by_cases hu : (st.tree.getVNode node).component.is_unit = true
      · simp only [hu, if_true] at h
        cases h; exact hs
      · simp only [hu, Bool.false_eq_true, if_false] at h
        cases hnt : ((st.render node gen).modifyVNode node
            (fun v => { v with native_type := v.component.native_type
              })).tree.getVNode node |>.native_type with
        | some nty =>
          rw [hnt] at h
          refine ihc _ _ _ _ _ _ ?_ h
          -- the tree after the type refresh and the handle assignment
          intro i
          simp only [St.freshHandle, St.emit, St.modifyVNode, St.render]
          simp only [St.freshHandle, St.emit, St.modifyVNode, St.render]
            at hnt
          rw [VTree.getVNode_modifyVNode]
          by_cases hcase : node = i ∧ node < st.tree.nodes.length
          · rw [if_pos (by
              constructor
              · exact hcase.1
              · rw [VTree.length_modifyVNode]; exact hcase.2)]
            obtain ⟨h1, h2⟩ := hcase
            subst h1
            rw [hnt]
            rfl
          · rw [if_neg (by
              intro hc
              rw [VTree.length_modifyVNode] at hc
              exact hcase hc)]
            rw [VTree.getVNode_modifyVNode]
            by_cases hcase2 : node = i ∧ node < st.tree.nodes.length
            · exact absurd hcase2 hcase
            · rw [if_neg hcase2]
              exact hs i
        | none =>
          rw [hnt] at h
          refine ihc _ _ _ _ _ _ ?_ h
          intro i
          simp only [St.modifyVNode, St.render] at hnt ⊢
          rw [VTree.getVNode_modifyVNode]
          by_cases hcase : node = i ∧ node < st.tree.nodes.length
          · rw [if_pos hcase]
            obtain ⟨h1, h2⟩ := hcase
            subst h1
            simp only
            rw [VTree.getVNode_modifyVNode, if_pos ⟨rfl, h2⟩] at hnt
            simp only at hnt
            rw [hnt, hh]
          · rw [if_neg hcase]
            exact hs i
    · intro gen node b l st st' hs h
      cases l with
      | nil => simp [generate_children] at h; subst h; exact hs
      | cons v rest =>
        rw [generate_children] at h
        set pushed := st.tree.push node (VNode.ofComponent v) with hpush
        cases hg : generate_vnode fuel gen pushed.1
            { st with tree := pushed.2 } with
        | error e => rw [hg] at h; cases h
        | ok st₁ =>
          rw [hg] at h
          have hs₁ : SInv pushed.2 := by
            intro i
            have hp2 : pushed.2 = (st.tree.push node
                (VNode.ofComponent v)).2 := by rw [hpush]
            rw [hp2, VTree.getVNode_push]
            by_cases hi : i = st.tree.nodes.length
            · rw [if_pos hi]; rfl
            · rw [if_neg hi]; exact hs i
          have hh₁ : (pushed.2.getVNode pushed.1).native_handle = none := by
            have hp2 : pushed.2 = (st.tree.push node
                (VNode.ofComponent v)).2 := by rw [hpush]
            have hp1 : pushed.1 = st.tree.nodes.length := by rw [hpush]; rfl
            rw [hp2, hp1, VTree.getVNode_push, if_pos rfl]
            rfl
          have hs₂ : SInv st₁.tree := ihv gen pushed.1
            { st with tree := pushed.2 } st₁ hs₁ hh₁ hg
          refine ihc _ _ _ _ _ _ ?_ h
          cases b with
          | false => simpa using hs₂
          | true =>
            simp only [if_true]
            rw [SInv, native_append_child_tree]
            exact hs₂

/-- The root mount seeds both fields of the native parent with `Some`,
pushes the child with both fields `None`, and lets `generate_vnode`
establish the synchronisation. -/
theorem root_new_SInv (fuel : Nat) (child np : View) (handle : Nat)
    (st : St) (g : Gen) (hok : Root.new fuel child np handle = .ok (st, g)) :
    SInv st.tree := by
  simp only [Root.new] at hok
  cases hnt : np.native_type with
  | none => rw [hnt] at hok; simp at hok
  | some nty =>
    rw [hnt] at hok
    simp only at hok
    set st₀ : St := ⟨VTree.new { VNode.ofComponent np with
      native_type := some nty, native_handle := some handle }, [], [],
      handle + 1⟩ with hst₀
    set pushed := st₀.tree.push 0 (VNode.ofComponent child) with hpushed
    cases hg : generate_vnode fuel 0 pushed.1 { st₀ with tree := pushed.2 } with
    | error e => rw [hg] at hok; simp at hok
    | ok st₁ =>
      rw [hg] at hok
      simp only at hok
      have hst : st = native_append_child 0 pushed.1 st₁ := by
        cases hok; rfl
      have hs₀ : SInv st₀.tree := by
        intro i
        rw [hst₀]
        simp only
        unfold VTree.new VTree.getVNode VTree.get
        cases i with
        | zero => rfl
        | succ n =>
          rw [List.getD_eq_getElem?_getD, List.getElem?_eq_none (by simp)]
          rfl
      have hsp : SInv pushed.2 := by
        intro i
        have hp2 : pushed.2 = (st₀.tree.push 0 (VNode.ofComponent child)).2 :=
          by rw [hpushed]
        rw [hp2, VTree.getVNode_push]
        by_cases hi : i = st₀.tree.nodes.length
        · rw [if_pos hi]; rfl
        · rw [if_neg hi]; exact hs₀ i
      have hh : (pushed.2.getVNode pushed.1).native_handle = none := by
        have hp2 : pushed.2 = (st₀.tree.push 0 (VNode.ofComponent child)).2 :=
          by rw [hpushed]
        have hp1 : pushed.1 = st₀.tree.nodes.length := by rw [hpushed]; rfl
        rw [hp2, hp1, VTree.getVNode_push, if_pos rfl]
        rfl
      have hs₁ : SInv st₁.tree :=
        (generate_SInv_aux fuel).1 0 pushed.1 { st₀ with tree := pushed.2 }
          st₁ hsp hh hg
      rw [hst, SInv, native_append_child_tree]
      exact hs₁

/-- The only write of `native_type` inside an update (vdom.rs lines
544-558) runs under the guard `old == new component type`; when the
refreshed component's native presence agrees with the stored handle —
which the Rust type system guarantees, `native_type()` being constant
per component type — the synchronisation survives. -/
theorem native_self_update_SInv (node : Nat) (oc : Option View) (st : St)
    (hs : SInv st.tree)
    (hagree : ∀ o, oc = some o →
      o.type_id = (st.tree.getVNode node).component.type_id →
      (st.tree.getVNode node).component.native_type.isSome =
        (st.tree.getVNode node).native_handle.isSome) :
    SInv (native_self_update node oc st).tree := by
  unfold native_self_update
  cases oc with
  | none => exact hs
  | some o =>
    simp only
    by_cases hguard : o.type_id = (st.tree.getVNode node).component.type_id
    · rw [if_pos hguard]
      have hag := hagree o rfl hguard
      have hstep : SInv (st.modifyVNode node
          (fun v => { v with native_type := v.component.native_type })).tree := by
        intro i
        simp only [St.modifyVNode]
        rw [VTree.getVNode_modifyVNode]
        by_cases hcase : node = i ∧ node < st.tree.nodes.length
        · rw [if_pos hcase]
          obtain ⟨h1, _⟩ := hcase
          subst h1
          simp only
          rw [hag]
        · rw [if_neg hcase]
          exact hs i
      cases hm : ((st.modifyVNode node
          (fun v => { v with native_type := v.component.native_type
            })).tree.getVNode node).native_type with
      | some nty =>
        exact hstep
      | none =>
        exact hstep
    · rw [if_neg hguard]
      exact hs

/-- C6: `native_handle` is `Some` exactly when `native_type` is `Some`.
The root mount establishes the synchronisation for every instance;
`generate_vnode` — the operation that creates handles (vdom.rs lines
230-243) — preserves it for a freshly placed (handle-less) node; and the
single write of these fields inside `update_vnode`, the type refresh of
`native_self_update` (vdom.rs lines 544-558), preserves it whenever the
refreshed component's native presence agrees with the stored handle —
the agreement Rust guarantees because `native_type()` is determined by
the component type checked by the surrounding `type_id` guard.  (No
other step of `update_vnode` writes either field.) -/
theorem C6_handle_type_synchronisation :
    (∀ fuel child np handle st g,
      Root.new fuel child np handle = .ok (st, g) → SInv st.tree) ∧
    (∀ fuel gen node st st', SInv st.tree →
      (st.tree.getVNode node).native_handle = none →
      generate_vnode fuel gen node st = .ok st' → SInv st'.tree) ∧
    (∀ node oc st, SInv st.tree →
      (∀ o, oc = some o →
        o.type_id = (st.tree.getVNode node).component.type_id →
        (st.tree.getVNode node).component.native_type.isSome =
          (st.tree.getVNode node).native_handle.isSome) →
      SInv (native_self_update node oc st).tree) :=
  ⟨root_new_SInv,
   fun fuel => (generate_SInv_aux fuel).1,
   native_self_update_SInv⟩

theorem C6_witness :
    SInv rootRunC9St.tree ∧
    SInv stC4.tree ∧
    SInv (native_self_update 1 (some (leafView 1)) stC4).tree := by
  have hok : Root.new 20 (boxView [leafView 1] false)
      (rootView (boxView [leafView 1] false)) 50 =
        .ok (rootRunC9St, rootRunC9Gen) := by rfl
  have hs4 : SInv stC4.tree := SInv_bounded _ (by decide)
  refine ⟨C6_handle_type_synchronisation.1 20 (boxView [leafView 1] false)
      (rootView (boxView [leafView 1] false)) 50 rootRunC9St rootRunC9Gen hok,
    ?_, ?_⟩
  · exact C6_handle_type_synchronisation.2.1 5 0 2 stC4 stC4 hs4
      (by decide) (by rfl)
  · exact C6_handle_type_synchronisation.2.2 1 (some (leafView 1)) stC4 hs4
      (by
        intro o ho hte
        cases ho
        decide)

/-! ### Dirty-flag accounting (C5) -/

theorem VTree.getVNode_setRec_keep (t : VTree) (p : Nat) (r : NodeRec)
    (h : r.vnode = (t.get p).vnode) (j : Nat) :
    (t.setRec p r).getVNode j = t.getVNode j := by
  unfold VTree.getVNode
  rw [VTree.get_setRec]
  by_cases hc : p = j ∧ p < t.nodes.length
  · rw [if_pos hc, h]
    rw [hc.1]
  · rw [if_neg hc]

theorem VTree.getVNode_removeChild (t : VTree) (p k : Nat) (j : Nat) :
    (t.removeChild p k).getVNode j = t.getVNode j := by
  have h1 := VTree.getVNode_setRec_keep
    (t.setRec p { t.get p with children := (t.childrenOf p).eraseIdx k })
    (t.childAt p k)
    { (t.setRec p
        { t.get p with children := (t.childrenOf p).eraseIdx k }).get
          (t.childAt p k) with parent := none }
    rfl j
  have h2 := VTree.getVNode_setRec_keep t p
    { t.get p with children := (t.childrenOf p).eraseIdx k } rfl j
  exact h1.trans h2

theorem VTree.childrenOf_setRec_other (t : VTree) (p : Nat) (r : NodeRec)
    (j : Nat) (hj : j ≠ p) :
    (t.setRec p r).childrenOf j = t.childrenOf j := by
  unfold VTree.childrenOf
  rw [VTree.get_setRec]
  rw [if_neg (by intro hc; exact hj hc.1.symm)]

theorem VTree.childrenOf_setRec_keep (t : VTree) (p : Nat) (r : NodeRec)
    (h : r.children = (t.get p).children) (j : Nat) :
    (t.setRec p r).childrenOf j = t.childrenOf j := by
  unfold VTree.childrenOf
  rw [VTree.get_setRec]
  by_cases hc : p = j ∧ p < t.nodes.length
  · rw [if_pos hc, h, hc.1]
  · rw [if_neg hc]

theorem VTree.childrenOf_removeChild_other (t : VTree) (p k j : Nat)
    (hj : j ≠ p) :
    (t.removeChild p k).childrenOf j = t.childrenOf j := by
  have h1 := VTree.childrenOf_setRec_keep
    (t.setRec p { t.get p with children := (t.childrenOf p).eraseIdx k })
    (t.childAt p k)
    { (t.setRec p
        { t.get p with children := (t.childrenOf p).eraseIdx k }).get
          (t.childAt p k) with parent := none }
    rfl j
  have h2 := VTree.childrenOf_setRec_other t p
    { t.get p with children := (t.childrenOf p).eraseIdx k } j hj
  exact h1.trans h2

theorem VTree.childrenOf_removeChild_self_subset (t : VTree) (p k : Nat) :
    ∀ x ∈ (t.removeChild p k).childrenOf p, x ∈ t.childrenOf p := by
  intro x hx
  have h1 := VTree.childrenOf_setRec_keep
    (t.setRec p { t.get p with children := (t.childrenOf p).eraseIdx k })
    (t.childAt p k)
    { (t.setRec p
        { t.get p with children := (t.childrenOf p).eraseIdx k }).get
          (t.childAt p k) with parent := none }
    rfl p
  rw [show (t.removeChild p k).childrenOf p =
      ((t.setRec p { t.get p with children := (t.childrenOf p).eraseIdx k
        }).setRec (t.childAt p k)
        { (t.setRec p
            { t.get p with children := (t.childrenOf p).eraseIdx k }).get
              (t.childAt p k) with parent := none }).childrenOf p from rfl,
    h1] at hx
  by_cases hp : p < t.nodes.length
  · have h2 : (t.setRec p { t.get p with
        children := (t.childrenOf p).eraseIdx k }).childrenOf p =
        (t.childrenOf p).eraseIdx k := by
      unfold VTree.childrenOf
      rw [VTree.get_setRec, if_pos ⟨rfl, hp⟩]
    rw [h2] at hx
    exact List.mem_of_mem_eraseIdx hx
  · have h2 : (t.setRec p { t.get p with
        children := (t.childrenOf p).eraseIdx k }).childrenOf p =
        t.childrenOf p := by
      unfold VTree.childrenOf
      rw [VTree.get_setRec, if_neg (by intro hc; exact hp hc.2)]
    rw [h2] at hx
    exact hx

theorem VTree.childrenOf_setChildren_other (t : VTree) (p : Nat)
    (l : List Nat) (j : Nat) (hj : j ≠ p) :
    (t.setChildren p l).childrenOf j = t.childrenOf j :=
  VTree.childrenOf_setRec_other t p _ j hj

theorem cycle_inner_tree (pty ph i : Nat) :
    ∀ fw m st, (cycle_inner pty ph i fw m st).2.tree = st.tree := by
  intro fw
  induction fw with
  | zero => intro m st; rfl
  | succ fw ih =>
    intro m st
    rw [cycle_inner]
    by_cases h : i = m.getD i 0
    · rw [if_pos h]
    · rw [if_neg h]
      rw [ih]
      rfl

theorem cycle_loop_tree (pty ph : Nat) :
    ∀ its i m st, (cycle_loop pty ph its i m st).2.tree = st.tree := by
  intro its
  induction its with
  | nil => intro i m st; rfl
  | cons x rest ih =>
    intro i m st
    rw [cycle_loop]
    rw [ih, cycle_inner_tree]

theorem remove_extra_native_tree (node : Nat) :
    ∀ l m idx st, (remove_extra_native node l m idx st).1.tree = st.tree := by
  intro l
  induction l with
  | nil => intro m idx st; rfl
  | cons i rest ih =>
    intro m idx st
    rw [remove_extra_native]
    cases child_with_native_handle (st.tree.childAt node i) st.tree with
    | some nc =>
      simp only
      rw [ih]
      rfl
    | none =>
      simp only
      rw [ih]

theorem native_reorder_and_remove_tree (node newLen : Nat)
    (ni : List (Option Nat)) (idx : Nat) (st : St) :
    (native_reorder_and_remove node newLen ni idx st).1.tree = st.tree := by
  unfold native_reorder_and_remove
  simp only
  rw [remove_extra_native_tree, cycle_loop_tree]

/-- The in-place reorder writes nothing but the child list of `node`:
every instance keeps its `VNode`, every other node keeps its children,
and the new child list of `node` draws only from the old one. -/
theorem selection_go_tree_effects (node : Nat) :
    ∀ (l : List (Nat × ChildId)) (ni : List (Option Nat))
      (ip : List (ChildId × Nat × Nat)) (st : St),
      (∀ j, (selection_reorder_go node l ni ip st).1.tree.getVNode j =
        st.tree.getVNode j) ∧
      (∀ j, j ≠ node →
        (selection_reorder_go node l ni ip st).1.tree.childrenOf j =
          st.tree.childrenOf j) ∧
      (∀ x ∈ (selection_reorder_go node l ni ip st).1.tree.childrenOf node,
        x ∈ st.tree.childrenOf node) ∧
      (selection_reorder_go node l ni ip st).1.renders = st.renders := by
  intro l
  induction l with
  | nil =>
    intro ni ip st
    exact ⟨fun j => rfl, fun j _ => rfl, fun x hx => hx, rfl⟩
  | cons p rest ih =>
    intro ni ip st
    rw [selection_reorder_go]
    by_cases h : ChildId.from_view
        (st.tree.getVNode (st.tree.childAt node p.1)).component ≠ p.2
    · rw [if_pos h]
      cases hip : ipLookup ip p.2 with
      | some sp =>
        simp only
        obtain ⟨h1, h2, h3, h4⟩ := ih (swapIdx ni p.1 sp.2)
          (ipUpdate ip (ChildId.from_view
            (st.tree.getVNode (st.tree.childAt node p.1)).component)
            (sp.1, sp.2))
          { st with tree := st.tree.swapChildren node p.1 sp.2 }
        refine ⟨?_, ?_, ?_, ?_⟩
        · intro j
          rw [h1]
          simp only [VTree.swapChildren_eq_setChildren]
          rw [VTree.getVNode_setChildren]
        · intro j hj
          rw [h2 j hj]
          simp only [VTree.swapChildren_eq_setChildren]
          rw [VTree.childrenOf_setChildren_other _ _ _ _ hj]
        · intro x hx
          have := h3 x hx
          simp only [VTree.swapChildren_eq_setChildren] at this
          by_cases hlen : node < st.tree.nodes.length
          · rw [VTree.childrenOf_setChildren_self _ _ _ hlen] at this
            unfold swapIdx at this
            rcases h5 : (st.tree.childrenOf node).get? p.1 with _ | a <;>
              rcases h6 : (st.tree.childrenOf node).get? sp.2 with _ | b <;>
              rw [h5, h6] at this
            · exact this
            · exact this
            · exact this
            · rcases List.mem_or_eq_of_mem_set this with h7 | h7
              · rcases List.mem_or_eq_of_mem_set h7 with h8 | h8
                · exact h8
                · subst h8
                  exact List.get?_mem h6
              · subst h7
                exact List.get?_mem h5
          · have he : st.tree.setChildren node
                (swapIdx (st.tree.childrenOf node) p.1 sp.2) = st.tree := by
              have hset : st.tree.nodes.set node
                  { st.tree.get node with children := swapIdx (st.tree.childrenOf node) p.1 sp.2 }
                  = st.tree.nodes :=
                List.set_eq_of_length_le (Nat.le_of_not_lt hlen)
              show VTree.mk (st.tree.nodes.set node
                { st.tree.get node with children := swapIdx (st.tree.childrenOf node) p.1 sp.2 })
                = st.tree
              rw [hset, VTree.mk_nodes]
            rw [he] at this
            exact this
        · exact h4
      | none =>
        simp only
        exact ih ni ip st
    · rw [if_neg h]
      exact ih ni ip st

theorem fold_remove_effects (node : Nat) :
    ∀ (l : List Nat) (st : St),
      (∀ j, (l.foldl (fun st i =>
          { st with tree := st.tree.removeChild node i }) st).tree.getVNode j =
        st.tree.getVNode j) ∧
      (∀ j, j ≠ node → (l.foldl (fun st i =>
          { st with tree := st.tree.removeChild node i }) st).tree.childrenOf j =
        st.tree.childrenOf j) ∧
      (∀ x ∈ (l.foldl (fun st i =>
          { st with tree := st.tree.removeChild node i }) st).tree.childrenOf
            node, x ∈ st.tree.childrenOf node) ∧
      (l.foldl (fun st i =>
          { st with tree := st.tree.removeChild node i }) st).renders =
        st.renders := by
  intro l
  induction l with
  | nil => intro st; exact ⟨fun j => rfl, fun j _ => rfl, fun x hx => hx, rfl⟩
  | cons i rest ih =>
    intro st
    rw [List.foldl_cons]
    obtain ⟨h1, h2, h3, h4⟩ := ih { st with tree := st.tree.removeChild node i }
    refine ⟨?_, ?_, ?_, h4⟩
    · intro j
      rw [h1]
      exact VTree.getVNode_removeChild _ _ _ _
    · intro j hj
      rw [h2 j hj]
      exact VTree.childrenOf_removeChild_other _ _ _ _ hj
    · intro x hx
      exact VTree.childrenOf_removeChild_self_subset _ _ _ x (h3 x hx)

theorem remove_extra_children_effects (node newLen : Nat) (st : St) :
    (∀ j, (remove_extra_children node newLen st).tree.getVNode j =
      st.tree.getVNode j) ∧
    (∀ j, j ≠ node → (remove_extra_children node newLen st).tree.childrenOf j =
      st.tree.childrenOf j) ∧
    (∀ x ∈ (remove_extra_children node newLen st).tree.childrenOf node,
      x ∈ st.tree.childrenOf node) ∧
    (remove_extra_children node newLen st).renders = st.renders :=
  fold_remove_effects node _ st

theorem update_entry_effects (gen : Nat) (comp : View) (node : Nat) (st : St) :
    (∀ j, (update_entry gen (some comp) node st).1.tree.getVNode j =
      if node = j ∧ node < st.tree.nodes.length then
        { st.tree.getVNode j with dirty := true, component := comp }
      else st.tree.getVNode j) ∧
    (∀ j, (update_entry gen (some comp) node st).1.tree.childrenOf j =
      st.tree.childrenOf j) ∧
    (update_entry gen (some comp) node st).2 =
      some ((st.tree.getVNode node).component) := by
  refine ⟨?_, ?_, ?_⟩
  · intro j
    show ((st.modifyVNode node (fun v => { v with dirty := true })).modifyVNode
        node (fun v => { v with component := comp })).tree.getVNode j = _
    simp only [St.modifyVNode]
    rw [VTree.getVNode_modifyVNode]
    by_cases hc : node = j ∧ node <
        (st.tree.modifyVNode node fun v => { v with dirty := true
          }).nodes.length
    · rw [if_pos hc]
      rw [VTree.getVNode_modifyVNode]
      rw [VTree.length_modifyVNode] at hc
      rw [if_pos hc, if_pos hc]
    · rw [if_neg hc]
      rw [VTree.length_modifyVNode] at hc
      rw [VTree.getVNode_modifyVNode, if_neg hc, if_neg hc]
  · intro j
    show ((st.modifyVNode node (fun v => { v with dirty := true })).modifyVNode
        node (fun v => { v with component := comp })).tree.childrenOf j = _
    simp only [St.modifyVNode]
    rw [VTree.childrenOf_modifyVNode, VTree.childrenOf_modifyVNode]
  · show some ((st.modifyVNode node
      (fun v => { v with dirty := true })).tree.getVNode node).component = _
    simp only [St.modifyVNode]
    rw [VTree.getVNode_modifyVNode]
    by_cases hc : node = node ∧ node < st.tree.nodes.length
    · rw [if_pos hc]
    · rw [if_neg hc]

theorem create_all_retained (fuel gen node : Nat) (b : Bool) :
    ∀ (l : List (View × ChildId)) (ip : List (ChildId × Nat × Nat)) (st : St),
      (∀ e ∈ l, (ipLookup ip e.2).isSome) →
      create_new_children fuel gen node b l ip st =
        .ok (l.map (fun e => some e.1), ip, st) := by
  intro l
  induction l with
  | nil => intro ip st _; rfl
  | cons e rest ih =>
    intro ip st h
    rw [create_new_children]
    rw [if_pos (h e (List.mem_cons_self e rest))]
    rw [ih ip st (fun e' he' => h e' (List.mem_cons_of_mem e he'))]
    rfl

theorem VTree.length_removeChild (t : VTree) (p k : Nat) :
    (t.removeChild p k).nodes.length = t.nodes.length := by
  unfold VTree.removeChild
  rw [VTree.length_setRec, VTree.length_setRec]

theorem selection_go_tree_len (node : Nat) :
    ∀ (l : List (Nat × ChildId)) (ni : List (Option Nat))
      (ip : List (ChildId × Nat × Nat)) (st : St),
      (selection_reorder_go node l ni ip st).1.tree.nodes.length =
        st.tree.nodes.length := by
  intro l
  induction l with
  | nil => intro ni ip st; rfl
  | cons p rest ih =>
    intro ni ip st
    rw [selection_reorder_go]
    by_cases h : ChildId.from_view
        (st.tree.getVNode (st.tree.childAt node p.1)).component ≠ p.2
    · rw [if_pos h]
      cases hip : ipLookup ip p.2 with
      | some sp =>
        simp only
        rw [ih]
        exact VTree.length_setRec _ _ _
      | none =>
        simp only
        exact ih ni ip st
    · rw [if_neg h]
      exact ih ni ip st

theorem fold_remove_len (node : Nat) :
    ∀ (l : List Nat) (st : St),
      (l.foldl (fun st i =>
        { st with tree := st.tree.removeChild node i }) st).tree.nodes.length =
      st.tree.nodes.length := by
  intro l
  induction l with
  | nil => intro st; rfl
  | cons i rest ih =>
    intro st
    rw [List.foldl_cons, ih]
    exact VTree.length_removeChild _ _ _

theorem remove_extra_children_len (node newLen : Nat) (st : St) :
    (remove_extra_children node newLen st).tree.nodes.length =
      st.tree.nodes.length :=
  fold_remove_len node _ st

theorem native_self_update_effects (node : Nat) (oc : Option View) (st : St) :
    (∀ j, j ≠ node → (native_self_update node oc st).tree.getVNode j =
      st.tree.getVNode j) ∧
    (∀ j, (native_self_update node oc st).tree.childrenOf j =
      st.tree.childrenOf j) ∧
    (native_self_update node oc st).tree.nodes.length =
      st.tree.nodes.length ∧
    ((native_self_update node oc st).tree.getVNode node).dirty =
      (st.tree.getVNode node).dirty := by
  unfold native_self_update
  cases oc with
  | none => exact ⟨fun j _ => rfl, fun j => rfl, rfl, rfl⟩
  | some o =>
    simp only
    by_cases hguard : o.type_id = (st.tree.getVNode node).component.type_id
    · rw [if_pos hguard]
      have heff : ∀ (st₁ : St),
          st₁.tree = (st.modifyVNode node
            (fun v => { v with native_type := v.component.native_type })).tree →
          (∀ j, j ≠ node → st₁.tree.getVNode j = st.tree.getVNode j) ∧
          (∀ j, st₁.tree.childrenOf j = st.tree.childrenOf j) ∧
          st₁.tree.nodes.length = st.tree.nodes.length ∧
          (st₁.tree.getVNode node).dirty =
            (st.tree.getVNode node).dirty := by
        intro st₁ h1
        rw [h1]
        simp only [St.modifyVNode]
        refine ⟨?_, ?_, VTree.length_modifyVNode _ _ _, ?_⟩
        · intro j hj
          rw [VTree.getVNode_modifyVNode,
            if_neg (by intro hc; exact hj hc.1.symm)]
        · intro j
          rw [VTree.childrenOf_modifyVNode]
        · rw [VTree.getVNode_modifyVNode]
          by_cases hc : node = node ∧ node < st.tree.nodes.length
          · rw [if_pos hc]
          · rw [if_neg hc]
      cases hm : ((st.modifyVNode node
          (fun v => { v with native_type := v.component.native_type
            })).tree.getVNode node).native_type with
      | some nty => exact heff _ rfl
      | none => exact heff _ rfl
    · rw [if_neg hguard]
      exact ⟨fun j _ => rfl, fun j => rfl, rfl, rfl⟩

theorem update_entry_len (gen : Nat) (comp : View) (node : Nat) (st : St) :
    (update_entry gen (some comp) node st).1.tree.nodes.length =
      st.tree.nodes.length := by
  show ((st.modifyVNode node (fun v => { v with dirty := true })).modifyVNode
      node (fun v => { v with component := comp })).tree.nodes.length = _
  simp only [St.modifyVNode]
  rw [VTree.length_modifyVNode, VTree.length_modifyVNode]

/-- One full `update_vnode` run on a leaf instance `c` (a non-unit
component rendering exactly `[()]`, its single child `g` holding the unit
instance): it touches no `VNode` but `c`'s, leaves every child list
untouched, and ends with `c`'s dirty flag clear (vdom.rs line 560). -/
theorem leaf_update_clears (fuel gen : Nat) (v : View) (c g : Nat)
    (st st' : St)
    (hv : v.render_result = [View.unit])
    (hclen : c < st.tree.nodes.length)
    (hcs : st.tree.childrenOf c = [g])
    (hg : (st.tree.getVNode g).component = View.unit)
    (hgc : g ≠ c)
    (hcd : (st.tree.getVNode c).dirty = false)
    (hgd : (st.tree.getVNode g).dirty = false)
    (hok : update_vnode fuel gen (some v) c st = .ok st') :
    (∀ j, j ≠ c → st'.tree.getVNode j = st.tree.getVNode j) ∧
    (∀ j, j ≠ c → st'.tree.childrenOf j = st.tree.childrenOf j) ∧
    (st'.tree.getVNode c).dirty = false ∧
    st'.tree.nodes.length = st.tree.nodes.length ∧
    st'.tree.childrenOf c = [g] := by
  obtain ⟨f1, rfl⟩ : ∃ f1, fuel = f1 + 1 := by
    cases fuel with
    | zero => simp [update_vnode] at hok
    | succ f1 => exact ⟨f1, rfl⟩
  rw [update_vnode] at hok
  by_cases hvu : v.updated = true
  · -- the update proceeds
    rw [hcd] at hok
    simp only [hvu, Bool.true_or, Bool.not_true, Bool.false_eq_true,
      if_false] at hok
    -- facts about the state after `update_entry`
    obtain ⟨hE1, hE2, hE3⟩ := update_entry_effects gen v c st
    set st₂ := (update_entry gen (some v) c st).1 with hst₂
    have hA2 : st₂.tree.getVNode c =
        { st.tree.getVNode c with dirty := true, component := v } := by
      rw [hE1 c, if_pos ⟨rfl, hclen⟩]
    have hA1 : ∀ j, j ≠ c → st₂.tree.getVNode j = st.tree.getVNode j := by
      intro j hj
      rw [hE1 j, if_neg (by intro hc2; exact hj hc2.1.symm)]
    have hAl : st₂.tree.nodes.length = st.tree.nodes.length :=
      update_entry_len gen v c st
    have hcs₂ : st₂.tree.childrenOf c = [g] := by rw [hE2 c]; exact hcs
    have hg₂ : (st₂.tree.getVNode g).component = View.unit := by
      rw [hA1 g hgc]; exact hg
    have hgd₂ : (st₂.tree.getVNode g).dirty = false := by
      rw [hA1 g hgc]; exact hgd
    have hchild : (st₂.tree.getVNode c).component.render_result =
        [View.unit] := by
      rw [hA2]; exact hv
    have hcomp₀ : (update_entry gen (some v) c st).2 =
        some ((st.tree.getVNode c).component) := hE3
    -- the branch on `is_native` and the identity comparison both land on
    -- the child diff with the same arguments
    have hok₂ : update_vnode_diff f1 gen
        (some ((st.tree.getVNode c).component)) c
        ((st.tree.getVNode c).native_handle.isSome) [View.unit] st₂ =
        .ok st' := by
      rw [hcomp₀, hchild] at hok
      by_cases hb : (st.tree.getVNode c).native_handle.isSome = true
      · rw [hb] at hok ⊢
        simp only [if_true] at hok
        exact hok
      · rw [Bool.not_eq_true] at hb
        rw [hb] at hok ⊢
        simp only [Bool.false_eq_true, if_false] at hok
        have hca : st₂.tree.childAt c 0 = g := by
          unfold VTree.childAt
          rw [hcs₂]
          rfl
        simp only [hca, hg₂] at hok
        rw [if_neg (by decide)] at hok
        exact hok
    clear hok
    -- the child diff: both duplicate checks pass
    obtain ⟨f2, rfl⟩ : ∃ f2, f1 = f2 + 1 := by
      cases f1 with
      | zero => simp [update_vnode_diff] at hok₂
      | succ f2 => exact ⟨f2, rfl⟩
    rw [update_vnode_diff] at hok₂
    simp only [hcs₂] at hok₂
    have hbip : buildInPlace st₂.tree [g] =
        [(ChildId.from_view View.unit, g, 0)] := by
      show ipInsert [] (ChildId.from_view
        ((st₂.tree.getVNode g)).component) (g, 0) = _
      rw [hg₂]
      rfl
    simp only [hbip] at hok₂
    rw [if_neg (by simp)] at hok₂
    rw [if_neg (by decide)] at hok₂
    -- the tail of the diff
    obtain ⟨f3, rfl⟩ : ∃ f3, f2 = f3 + 1 := by
      cases f2 with
      | zero => simp [update_vnode_diff_rest] at hok₂
      | succ f3 => exact ⟨f3, rfl⟩
    rw [update_vnode_diff_rest] at hok₂
    simp only [hcs₂] at hok₂
    have hcreate : create_new_children f3 gen c
        ((st.tree.getVNode c).native_handle.isSome)
        ([View.unit].zip ([View.unit].map ChildId.from_view))
        [(ChildId.from_view View.unit, g, 0)] st₂ =
        .ok ([some View.unit],
          [(ChildId.from_view View.unit, g, 0)], st₂) := by
      have h := create_all_retained f3 gen c
        ((st.tree.getVNode c).native_handle.isSome)
        [(View.unit, ChildId.from_view View.unit)]
        [(ChildId.from_view View.unit, g, 0)] st₂
        (by
          intro e he
          simp only [List.mem_singleton] at he
          subst he
          rfl)
      exact h
    rw [hcreate] at hok₂
    simp only at hok₂
    -- the in-place reorder is the identity here
    have hsel : ∀ (NI : List (Option Nat)) (BIP : List (ChildId × Nat × Nat)),
        selection_reorder c ([View.unit].map ChildId.from_view) NI BIP st₂ =
          (st₂, NI, 0) := by
      intro NI BIP
      show selection_reorder_go c [(0, ChildId.from_view View.unit)] NI BIP
        st₂ = _
      rw [selection_reorder_go]
      have hca : st₂.tree.childAt c 0 = g := by
        unfold VTree.childAt
        rw [hcs₂]
        rfl
      rw [hca, hg₂]
      rw [if_neg (by decide)]
      rfl
    rw [hsel] at hok₂
    simp only at hok₂
    have hlen2 : st₂.tree.len c = 1 := by
      unfold VTree.len
      rw [hcs₂]
      rfl
    simp only [hlen2, hcs₂, List.drop_succ_cons, List.drop_nil] at hok₂
    have hbn : ∀ s, buildNativeIndices st₂.tree [] s = ([], s) := fun s => rfl
    simp only [hbn, List.append_nil] at hok₂
    -- the continuation after the native phase, for any state sharing the
    -- tree of `st₂`
    have hcont : ∀ (b : Bool) (idx : Nat) (st₃ : St), st₃.tree = st₂.tree →
        (match update_children f3 gen b c
            (([some View.unit].zip ((remove_extra_children c
              (List.map ChildId.from_view [View.unit]).length
              st₃).tree.childrenOf c)).reverse)
            idx
            (remove_extra_children c
              (List.map ChildId.from_view [View.unit]).length st₃) with
          | Except.error e => Except.error e
          | Except.ok (st1, _) =>
            Except.ok ((native_self_update c
              (some ((st.tree.getVNode c)).component) st1).modifyVNode c
              (fun vn => { vn with dirty := false }))) = Except.ok st' →
        (∀ j, j ≠ c → st'.tree.getVNode j = st.tree.getVNode j) ∧
        (∀ j, j ≠ c → st'.tree.childrenOf j = st.tree.childrenOf j) ∧
        (st'.tree.getVNode c).dirty = false ∧
        st'.tree.nodes.length = st.tree.nodes.length ∧
        st'.tree.childrenOf c = [g] := by
      intro b idx st₃ htree hrun
      have hlen3 : st₃.tree.len c = 1 := by rw [htree]; exact hlen2
      have hrem : remove_extra_children c
          (List.map ChildId.from_view [View.unit]).length st₃ = st₃ := by
        unfold remove_extra_children
        rw [hlen3]
        rfl
      rw [hrem] at hrun
      have hcs₃ : st₃.tree.childrenOf c = [g] := by rw [htree]; exact hcs₂
      rw [hcs₃] at hrun
      rw [show ([some View.unit].zip [g]).reverse =
        [(some View.unit, g)] from rfl] at hrun
      obtain ⟨f4, rfl⟩ : ∃ f4, f3 = f4 + 1 := by
        cases f3 with
        | zero =>
          rw [update_children] at hrun
          simp at hrun
        | succ f4 => exact ⟨f4, rfl⟩
      rw [update_children] at hrun
      obtain ⟨f5, rfl⟩ : ∃ f5, f4 = f5 + 1 := by
        cases f4 with
        | zero =>
          rw [native_update_vnode] at hrun
          simp at hrun
        | succ f5 => exact ⟨f5, rfl⟩
      rw [native_update_vnode] at hrun
      obtain ⟨f6, rfl⟩ : ∃ f6, f5 = f6 + 1 := by
        cases f5 with
        | zero =>
          rw [update_vnode] at hrun
          simp at hrun
        | succ f6 => exact ⟨f6, rfl⟩
      have hdg : (st₃.tree.getVNode g).dirty = false := by
        rw [htree]; exact hgd₂
      have hgupd : update_vnode (f6 + 1) gen (some View.unit) g st₃ =
          .ok st₃ := by
        rw [update_vnode]
        simp only [hdg, View.updated, Bool.or_false, Bool.not_false, if_true]
      rw [hgupd] at hrun
      simp only at hrun
      have hmain : ∃ st₅ : St, st₅.tree = st₃.tree ∧
          st' = (native_self_update c
            (some ((st.tree.getVNode c)).component) st₅).modifyVNode c
            (fun vn => { vn with dirty := false }) := by
        cases ho : (if b = true
            then child_with_native_handle g st₃.tree else none) with
        | some nc =>
          rw [ho] at hrun
          simp only [update_children] at hrun
          cases hrun
          exact ⟨st₃.emit _, rfl, rfl⟩
        | none =>
          rw [ho] at hrun
          simp only [update_children] at hrun
          cases hrun
          exact ⟨st₃, rfl, rfl⟩
      obtain ⟨st₅, hst₅, hst'⟩ := hmain
      obtain ⟨hS1, hS2, hS3, hS4⟩ := native_self_update_effects c
        (some ((st.tree.getVNode c)).component) st₅
      have hlen₅ : st₅.tree.nodes.length = st.tree.nodes.length := by
        rw [hst₅, htree]
        exact hAl
      refine ⟨?_, ?_, ?_, ?_, ?_⟩
      · intro j hj
        rw [hst']
        simp only [St.modifyVNode]
        rw [VTree.getVNode_modifyVNode,
          if_neg (by intro hc2; exact hj hc2.1.symm)]
        rw [hS1 j hj, hst₅, htree]
        exact hA1 j hj
      · intro j hj
        rw [hst']
        simp only [St.modifyVNode]
        rw [VTree.childrenOf_modifyVNode, hS2 j, hst₅, htree]
        exact hE2 j
      · rw [hst']
        simp only [St.modifyVNode]
        rw [VTree.getVNode_modifyVNode]
        rw [if_pos ⟨rfl, by rw [hS3, hlen₅]; exact hclen⟩]
      · rw [hst']
        simp only [St.modifyVNode]
        rw [VTree.length_modifyVNode, hS3, hlen₅]
      · rw [hst']
        simp only [St.modifyVNode]
        rw [VTree.childrenOf_modifyVNode, hS2 c, hst₅, htree]
        exact hcs₂
    by_cases hb : ((st.tree.getVNode c)).native_handle.isSome = true
    · rw [hb] at hok₂
      simp only [if_true] at hok₂
      rcases hnreq : native_reorder_and_remove c
          (List.map ChildId.from_view [View.unit]).length
          (buildNativeIndices st₂.tree [g] 0).1
          (buildNativeIndices st₂.tree [g] 0).2 st₂ with ⟨st₃, idx₃⟩
      rw [hnreq] at hok₂
      simp only at hok₂
      have htree : st₃.tree = st₂.tree := by
        have h := native_reorder_and_remove_tree c
          (List.map ChildId.from_view [View.unit]).length
          (buildNativeIndices st₂.tree [g] 0).1
          (buildNativeIndices st₂.tree [g] 0).2 st₂
        rw [hnreq] at h
        exact h
      exact hcont true (idx₃ - 1) st₃ htree hok₂
    · rw [Bool.not_eq_true] at hb
      rw [hb] at hok₂
      simp only [Bool.false_eq_true, if_false] at hok₂
      exact hcont false ((buildNativeIndices st₂.tree [g] 0).2 - 1) st₂ rfl hok₂
  · -- clean instance: the update returns the state unchanged
    rw [hcd] at hok
    rw [Bool.not_eq_true] at hvu
    rw [if_pos (by rw [hvu]; rfl)] at hok
    cases hok
    exact ⟨fun j _ => rfl, fun j _ => rfl, hcd, rfl, hcs⟩

theorem native_insert_child_tree (parent child pos : Nat) (st : St) :
    (native_insert_child parent child pos st).tree = st.tree := by
  unfold native_insert_child
  cases child_with_native_handle child st.tree <;> rfl

/-- The retained-children loop (vdom.rs lines 519-542) over leaf
instances: it clears the dirty flag of every child it updates, touches
no other flag, and preserves the arena size. -/
theorem update_children_clears (gen node : Nat) (b : Bool) :
    ∀ (pairs : List (Option View × Nat)) (FL idx : Nat) (stL stF : St)
      (idxF : Nat),
      update_children FL gen b node pairs idx stL = .ok (stF, idxF) →
      (∀ i, i ≠ node → (stL.tree.getVNode i).dirty = false) →
      (∀ pr ∈ pairs, ∀ w, pr.1 = some w → w.render_result = [View.unit]) →
      (∀ pr ∈ pairs, pr.2 ≠ node ∧ pr.2 < stL.tree.nodes.length ∧
        ∃ g, stL.tree.childrenOf pr.2 = [g] ∧
          (stL.tree.getVNode g).component = View.unit ∧ g ≠ pr.2 ∧
          g ≠ node ∧ (∀ pr' ∈ pairs, g ≠ pr'.2)) →
      (∀ i, i ≠ node → (stF.tree.getVNode i).dirty = false) ∧
      stF.tree.nodes.length = stL.tree.nodes.length := by
  intro pairs
  induction pairs with
  | nil =>
    intro FL idx stL stF idxF hrun hinv1 _ _
    rw [update_children] at hrun
    cases hrun
    exact ⟨hinv1, rfl⟩
  | cons pr rest ih =>
    intro FL idx stL stF idxF hrun hinv1 hinv2 hinv3
    obtain ⟨w?, c⟩ := pr
    obtain ⟨FL1, rfl⟩ : ∃ FL1, FL = FL1 + 1 := by
      cases FL with
      | zero =>
        rw [update_children.eq_def] at hrun
        simp at hrun
      | succ FL1 => exact ⟨FL1, rfl⟩
    rw [update_children.eq_def] at hrun
    cases w? with
    | none =>
      simp only at hrun
      refine ih FL1 _ stL stF idxF hrun hinv1 ?_ ?_
      · intro pr hpr
        exact hinv2 pr (List.mem_cons_of_mem _ hpr)
      · intro pr hpr
        obtain ⟨h1, h2, g, h3, h4, h5, h6, h7⟩ :=
          hinv3 pr (List.mem_cons_of_mem _ hpr)
        exact ⟨h1, h2, g, h3, h4, h5, h6,
          fun pr' hpr' => h7 pr' (List.mem_cons_of_mem _ hpr')⟩
    | some w =>
      simp only at hrun
      obtain ⟨FL2, rfl⟩ : ∃ FL2, FL1 = FL2 + 1 := by
        cases FL1 with
        | zero =>
          rw [native_update_vnode] at hrun
          simp at hrun
        | succ FL2 => exact ⟨FL2, rfl⟩
      rw [native_update_vnode] at hrun
      cases hU : update_vnode FL2 gen (some w) c stL with
      | error e =>
        rw [hU] at hrun
        simp at hrun
      | ok stU =>
        rw [hU] at hrun
        simp only at hrun
        obtain ⟨hc1, hc2, g, hg1, hg2, hg3, hg4, hg5⟩ :=
          hinv3 (some w, c) (List.mem_cons_self _ _)
        obtain ⟨hL1, hL2, hL3, hL4, hL5⟩ := leaf_update_clears FL2 gen w c g
          stL stU (hinv2 (some w, c) (List.mem_cons_self _ _) w rfl)
          hc2 hg1 hg2 hg3 (hinv1 c hc1) (hinv1 g hg4) hU
        -- the native-child bookkeeping emits at most one call
        have hcontinue : ∀ (stV : St) (idxV : Nat), stV.tree = stU.tree →
            update_children (FL2 + 1) gen b node rest idxV stV =
              .ok (stF, idxF) →
            (∀ i, i ≠ node → (stF.tree.getVNode i).dirty = false) ∧
            stF.tree.nodes.length = stL.tree.nodes.length := by
          intro stV idxV hV hrest
          have hinv1' : ∀ i, i ≠ node →
              (stV.tree.getVNode i).dirty = false := by
            intro i hi
            rw [hV]
            by_cases hic : i = c
            · subst hic
              exact hL3
            · rw [hL1 i hic]
              exact hinv1 i hi
          have hres := ih (FL2 + 1) idxV stV stF idxF hrest hinv1'
            (fun pr hpr => hinv2 pr (List.mem_cons_of_mem _ hpr))
            (by
              intro pr hpr
              obtain ⟨h1, h2, g', h3, h4, h5, h6, h7⟩ :=
                hinv3 pr (List.mem_cons_of_mem _ hpr)
              have hgc' : g' ≠ c := h7 (some w, c) (List.mem_cons_self _ _)
              refine ⟨h1, by rw [hV, hL4]; exact h2, g', ?_, ?_, h5, h6,
                fun pr' hpr' => h7 pr' (List.mem_cons_of_mem _ hpr')⟩
              · rw [hV]
                by_cases hpc : pr.2 = c
                · rw [hpc]
                  rw [hpc] at h3
                  rw [h3] at hg1
                  cases hg1
                  exact hL5
                · rw [hL2 pr.2 hpc]
                  exact h3
              · rw [hV, hL1 g' hgc']
                exact h4)
          refine ⟨hres.1, ?_⟩
          rw [hres.2, hV, hL4]
        cases ho1 : (if b = true then child_with_native_handle c stL.tree
            else none) with
        | some oldc =>
          rw [ho1] at hrun
          cases ho2 : (if b = true then child_with_native_handle c stU.tree
              else none) with
          | some newc =>
            rw [ho2] at hrun
            simp only at hrun
            exact hcontinue (stU.emit _) _ rfl hrun
          | none =>
            rw [ho2] at hrun
            simp only at hrun
            exact hcontinue (stU.emit _) _ rfl hrun
        | none =>
          rw [ho1] at hrun
          cases ho2 : (if b = true then child_with_native_handle c stU.tree
              else none) with
          | some newc =>
            rw [ho2] at hrun
            simp only at hrun
            exact hcontinue _ _ (native_insert_child_tree _ _ _ _) hrun
          | none =>
            rw [ho2] at hrun
            simp only at hrun
            exact hcontinue _ _ rfl hrun

theorem zip_self_map {A B : Type} (f : A → B) :
    ∀ l : List A, l.zip (l.map f) = l.map (fun a => (a, f a))
  | [] => rfl
  | a :: l => by simp [zip_self_map f l]

/-- C5: after an update turn completes, no instance has `dirty = true`.
Verified here for a flat turn: a native instance `node` whose children are
leaf components (each rendering the unit view through one grandchild), all
starting clean, updated with a keyed child list every entry of which is
retained (its identity matches a current child).  The run goes through the
whole reconciliation pipeline — the duplicate checks, `create_new_children`,
the in-place selection reorder, the native reorder with removals,
`remove_extra_children`, the recursive `update_children` pass over the
retained children, `native_self_update` — and ends with vdom.rs line 560
clearing `n.dirty`; at the end every dirty flag in the tree (the updated
node's, every child's, every grandchild's, and every unrelated slot's) is
false.  The general statement, over turns that set dirty flags by ancestor
propagation mid-turn, is not covered. -/
theorem C5_flat_turn_all_clean (fuel gen : Nat) (nc : View) (node : Nat)
    (st st' : St)
    (hclean : ∀ i, (st.tree.getVNode i).dirty = false)
    (hnat : (st.tree.getVNode node).native_handle.isSome = true)
    (hnlen : node < st.tree.nodes.length)
    (hshape : ∀ c ∈ st.tree.childrenOf node, c ≠ node ∧
      c < st.tree.nodes.length ∧ ∃ g, st.tree.childrenOf c = [g] ∧
        (st.tree.getVNode g).component = View.unit ∧ g ≠ c ∧ g ≠ node ∧
        g ∉ st.tree.childrenOf node)
    (hnewleaf : ∀ w ∈ nc.render_result, w.render_result = [View.unit])
    (hretain : ∀ w ∈ nc.render_result, ∃ c ∈ st.tree.childrenOf node,
      ChildId.from_view ((st.tree.getVNode c).component) =
        ChildId.from_view w)
    (holdids : ((st.tree.childrenOf node).map
      (fun c => ChildId.from_view ((st.tree.getVNode c).component))).Nodup)
    (hnewids : (nc.render_result.map ChildId.from_view).Nodup)
    (hok : update_vnode fuel gen (some nc) node st = .ok st') :
    ∀ i, (st'.tree.getVNode i).dirty = false := by
  obtain ⟨f1, rfl⟩ : ∃ f1, fuel = f1 + 1 := by
    cases fuel with
    | zero => simp [update_vnode] at hok
    | succ f1 => exact ⟨f1, rfl⟩
  rw [update_vnode] at hok
  by_cases hvu : nc.updated = true
  · rw [hclean node] at hok
    simp only [hvu, Bool.true_or, Bool.not_true, Bool.false_eq_true,
      if_false] at hok
    obtain ⟨hE1, hE2, hE3⟩ := update_entry_effects gen nc node st
    set st₂ := (update_entry gen (some nc) node st).1 with hst₂
    have hA2 : st₂.tree.getVNode node =
        { st.tree.getVNode node with dirty := true, component := nc } := by
      rw [hE1 node, if_pos ⟨rfl, hnlen⟩]
    have hA1 : ∀ j, j ≠ node → st₂.tree.getVNode j = st.tree.getVNode j := by
      intro j hj
      rw [hE1 j, if_neg (by intro hc2; exact hj hc2.1.symm)]
    have hAl : st₂.tree.nodes.length = st.tree.nodes.length :=
      update_entry_len gen nc node st
    have hchild : (st₂.tree.getVNode node).component.render_result =
        nc.render_result := by
      rw [hA2]
    have hok₂ : update_vnode_diff f1 gen
        (some ((st.tree.getVNode node).component)) node true
        nc.render_result st₂ = .ok st' := by
      rw [hE3, hchild] at hok
      rw [hnat] at hok
      simp only [if_true] at hok
      exact hok
    clear hok
    obtain ⟨f2, rfl⟩ : ∃ f2, f1 = f2 + 1 := by
      cases f1 with
      | zero => simp [update_vnode_diff] at hok₂
      | succ f2 => exact ⟨f2, rfl⟩
    rw [update_vnode_diff] at hok₂
    have hE2n : st₂.tree.childrenOf node = st.tree.childrenOf node := hE2 node
    simp only [hE2n] at hok₂
    have hids2 : (st.tree.childrenOf node).map
        (fun c => ChildId.from_view ((st₂.tree.getVNode c).component)) =
        (st.tree.childrenOf node).map
          (fun c => ChildId.from_view ((st.tree.getVNode c).component)) := by
      apply List.map_congr_left
      intro c hc
      rw [hA1 c (hshape c hc).1]
    have hbiplen : (buildInPlace st₂.tree (st.tree.childrenOf node)).length =
        (st.tree.childrenOf node).length := by
      rw [buildInPlace_length, hids2, List.dedup_eq_self.2 holdids,
        List.length_map]
    rw [if_neg (fun h => h hbiplen)] at hok₂
    rw [if_neg (fun h => h (by rw [List.dedup_eq_self.2 hnewids]))] at hok₂
    obtain ⟨f3, rfl⟩ : ∃ f3, f2 = f3 + 1 := by
      cases f2 with
      | zero => simp [update_vnode_diff_rest] at hok₂
      | succ f3 => exact ⟨f3, rfl⟩
    rw [update_vnode_diff_rest] at hok₂
    simp only [hE2n] at hok₂
    have hlennode : st₂.tree.len node = (st.tree.childrenOf node).length := by
      unfold VTree.len
      rw [hE2n]
    have hco : ((nc.render_result.zip
        (List.map ChildId.from_view nc.render_result)).map
          (fun e => some e.1)) = nc.render_result.map some := by
      rw [zip_self_map, List.map_map]
      exact List.map_congr_left (fun a _ => rfl)
    have hnd₂ : ((st.tree.childrenOf node).map
        (fun c => ChildId.from_view ((st₂.tree.getVNode c).component))).Nodup
        := by
      rw [hids2]
      exact holdids
    have hcreate := create_all_retained f3 gen node true
      (nc.render_result.zip (List.map ChildId.from_view nc.render_result))
      (buildInPlace st₂.tree (st.tree.childrenOf node)) st₂
      (by
        intro e he
        rw [zip_self_map] at he
        obtain ⟨w, hw, rfl⟩ := List.mem_map.1 he
        obtain ⟨c, hc, hid⟩ := hretain w hw
        obtain ⟨q, hq, hqe⟩ := List.mem_iff_getElem.1 hc
        have hl := buildInPlace_lookup st₂.tree (st.tree.childrenOf node)
          q hq hnd₂
        have hcq : (st.tree.childrenOf node).getD q 0 = c := by
          rw [getD_eq_elem _ _ hq]
          exact hqe
        rw [hcq, hA1 c (hshape c hc).1, hid] at hl
        show (ipLookup (buildInPlace st₂.tree (st.tree.childrenOf node))
          (ChildId.from_view w)).isSome = true
        rw [hl]
        rfl)
    rw [hcreate] at hok₂
    simp only [hE2n, if_true] at hok₂
    have hlennode : st₂.tree.len node = (st.tree.childrenOf node).length := by
      unfold VTree.len
      rw [hE2n]
    simp only [hlennode, List.drop_length] at hok₂
    have hbn : ∀ s, buildNativeIndices st₂.tree [] s = ([], s) :=
      fun s => rfl
    simp only [hbn, List.append_nil] at hok₂
    rw [hco] at hok₂
    rcases hsr : selection_reorder node
        (List.map ChildId.from_view nc.render_result)
        (buildNativeIndices st₂.tree (st.tree.childrenOf node) 0).1
        (buildInPlace st₂.tree (st.tree.childrenOf node)) st₂
      with ⟨st₃, ni₃, cnt₃⟩
    rw [hsr] at hok₂
    simp only [] at hok₂
    rcases hnr : native_reorder_and_remove node
        (List.map ChildId.from_view nc.render_result).length ni₃
        (buildNativeIndices st₂.tree (st.tree.childrenOf node) 0).2 st₃
      with ⟨st₄, idx₄⟩
    rw [hnr] at hok₂
    simp only [] at hok₂
    have hsr' : selection_reorder_go node
        (List.map ChildId.from_view nc.render_result).enum
        (buildNativeIndices st₂.tree (st.tree.childrenOf node) 0).1
        (buildInPlace st₂.tree (st.tree.childrenOf node)) st₂ =
        (st₃, ni₃, cnt₃) := hsr
    have hsel := selection_go_tree_effects node
      (List.map ChildId.from_view nc.render_result).enum
      (buildNativeIndices st₂.tree (st.tree.childrenOf node) 0).1
      (buildInPlace st₂.tree (st.tree.childrenOf node)) st₂
    rw [hsr'] at hsel
    simp only [] at hsel
    obtain ⟨hS1, hS2, hS3, -⟩ := hsel
    have hSlen := selection_go_tree_len node
      (List.map ChildId.from_view nc.render_result).enum
      (buildNativeIndices st₂.tree (st.tree.childrenOf node) 0).1
      (buildInPlace st₂.tree (st.tree.childrenOf node)) st₂
    rw [hsr'] at hSlen
    simp only [] at hSlen
    have hT4 : st₄.tree = st₃.tree := by
      have h := native_reorder_and_remove_tree node
        (List.map ChildId.from_view nc.render_result).length ni₃
        (buildNativeIndices st₂.tree (st.tree.childrenOf node) 0).2 st₃
      rw [hnr] at h
      exact h
    obtain ⟨hR1, hR2, hR3, -⟩ := remove_extra_children_effects node
      (List.map ChildId.from_view nc.render_result).length st₄
    have hRlen := remove_extra_children_len node
      (List.map ChildId.from_view nc.render_result).length st₄
    have hmem : ∀ c, c ∈ (remove_extra_children node
        (List.map ChildId.from_view nc.render_result).length
          st₄).tree.childrenOf node → c ∈ st.tree.childrenOf node := by
      intro c hc
      have h1 := hR3 c hc
      rw [hT4] at h1
      have h2 := hS3 c h1
      rw [hE2n] at h2
      exact h2
    have hlenchain : (remove_extra_children node
        (List.map ChildId.from_view nc.render_result).length
        st₄).tree.nodes.length = st.tree.nodes.length := by
      rw [hRlen, hT4, hSlen, hAl]
    have hgetchain : ∀ j, j ≠ node → (remove_extra_children node
        (List.map ChildId.from_view nc.render_result).length
        st₄).tree.getVNode j = st.tree.getVNode j := by
      intro j hj
      rw [hR1 j, hT4, hS1 j, hA1 j hj]
    have hchildchain : ∀ j, j ≠ node → (remove_extra_children node
        (List.map ChildId.from_view nc.render_result).length
        st₄).tree.childrenOf j = st.tree.childrenOf j := by
      intro j hj
      rw [hR2 j hj, hT4, hS2 j hj, hE2 j]
    have hinv1 : ∀ i, i ≠ node → ((remove_extra_children node
        (List.map ChildId.from_view nc.render_result).length
        st₄).tree.getVNode i).dirty = false := by
      intro i hi
      rw [hgetchain i hi]
      exact hclean i
    have hinv2 : ∀ pr ∈ ((List.map some nc.render_result).zip
        ((remove_extra_children node
          (List.map ChildId.from_view nc.render_result).length
          st₄).tree.childrenOf node)).reverse,
        ∀ w, pr.1 = some w → w.render_result = [View.unit] := by
      intro pr hpr w hw
      rw [List.mem_reverse] at hpr
      obtain ⟨a, b⟩ := pr
      have h1 := (List.of_mem_zip hpr).1
      simp only [] at hw
      subst hw
      obtain ⟨w2, hw2, hww⟩ := List.mem_map.1 h1
      injection hww with hww2
      subst hww2
      exact hnewleaf w2 hw2
    have hinv3 : ∀ pr ∈ ((List.map some nc.render_result).zip
        ((remove_extra_children node
          (List.map ChildId.from_view nc.render_result).length
          st₄).tree.childrenOf node)).reverse,
        pr.2 ≠ node ∧ pr.2 < (remove_extra_children node
          (List.map ChildId.from_view nc.render_result).length
          st₄).tree.nodes.length ∧
        ∃ g, (remove_extra_children node
          (List.map ChildId.from_view nc.render_result).length
          st₄).tree.childrenOf pr.2 = [g] ∧
          ((remove_extra_children node
            (List.map ChildId.from_view nc.render_result).length
            st₄).tree.getVNode g).component = View.unit ∧ g ≠ pr.2 ∧
          g ≠ node ∧ (∀ pr' ∈ ((List.map some nc.render_result).zip
            ((remove_extra_children node
              (List.map ChildId.from_view nc.render_result).length
              st₄).tree.childrenOf node)).reverse, g ≠ pr'.2) := by
      intro pr hpr
      rw [List.mem_reverse] at hpr
      obtain ⟨a, c⟩ := pr
      have hcmem : c ∈ st.tree.childrenOf node :=
        hmem c (List.of_mem_zip hpr).2
      obtain ⟨hc1, hc2, g, hg1, hg2, hg3, hg4, hg5⟩ := hshape c hcmem
      refine ⟨hc1, ?_, g, ?_, ?_, hg3, hg4, ?_⟩
      · rw [hlenchain]
        exact hc2
      · rw [hchildchain c hc1]
        exact hg1
      · rw [hgetchain g hg4]
        exact hg2
      · intro pr' hpr'
        rw [List.mem_reverse] at hpr'
        obtain ⟨a', c'⟩ := pr'
        have hcm' : c' ∈ st.tree.childrenOf node :=
          hmem c' (List.of_mem_zip hpr').2
        intro hgc
        apply hg5
        rw [hgc]
        exact hcm'
    cases hUC : update_children f3 gen true node
        ((List.map some nc.render_result).zip
          ((remove_extra_children node
            (List.map ChildId.from_view nc.render_result).length
            st₄).tree.childrenOf node)).reverse
        (idx₄ - 1)
        (remove_extra_children node
          (List.map ChildId.from_view nc.render_result).length st₄) with
    | error e =>
      rw [hUC] at hok₂
      simp at hok₂
    | ok p =>
      obtain ⟨stF, idxF⟩ := p
      rw [hUC] at hok₂
      simp only [] at hok₂
      obtain ⟨hF1, hFlen⟩ := update_children_clears gen node true
        ((List.map some nc.render_result).zip
          ((remove_extra_children node
            (List.map ChildId.from_view nc.render_result).length
            st₄).tree.childrenOf node)).reverse
        f3 (idx₄ - 1)
        (remove_extra_children node
          (List.map ChildId.from_view nc.render_result).length st₄)
        stF idxF hUC hinv1 hinv2 hinv3
      obtain ⟨hN1, hN2, hNlen, hNd⟩ := native_self_update_effects node
        (some ((st.tree.getVNode node).component)) stF
      injection hok₂ with hst'
      subst hst'
      intro i
      simp only [St.modifyVNode]
      rw [VTree.getVNode_modifyVNode]
      by_cases hi : i = node
      · subst hi
        rw [if_pos ⟨rfl, by rw [hNlen, hFlen, hlenchain]; exact hnlen⟩]
      · rw [if_neg (fun h => hi h.1.symm)]
        rw [hN1 i hi]
        exact hF1 i hi
  · have hvu' : nc.updated = false := by
      cases hq : nc.updated
      · rfl
      · exact absurd hq hvu
    rw [hclean node] at hok
    simp [hvu'] at hok
    intro i
    rw [← hok]
    exact hclean i

/-- A clean native container (handle 100, type 7) with two keyed leaf
children at slots 1 and 2, each rendering the unit view through the
grandchild at slot 3 resp. 4. -/
def wC5st : St :=
  ⟨⟨[⟨{ component := boxView [leafView 1, leafView 2] false,
        native_handle := some 100, native_type := some 7, dirty := false },
      none, [1, 2]⟩,
     ⟨{ component := leafView 1, native_handle := some 101,
        native_type := some 5, dirty := false }, some 0, [3]⟩,
     ⟨{ component := leafView 2, native_handle := some 102,
        native_type := some 5, dirty := false }, some 0, [4]⟩,
     ⟨{ component := View.unit, native_handle := none,
        native_type := none, dirty := false }, some 1, []⟩,
     ⟨{ component := View.unit, native_handle := none,
        native_type := none, dirty := false }, some 2, []⟩]⟩, [], [], 200⟩

/-- The container re-rendered with its two children swapped, both
reporting `updated` in this generation. -/
def wC5nc : View :=
  boxView [leafViewUpd 2, leafViewUpd 1] true

/-- The state after the turn. -/
def wC5res : St :=
  match update_vnode 12 1 (some wC5nc) 0 wC5st with
  | .ok s => s
  | .error _ => wC5st

set_option maxHeartbeats 4000000 in
theorem C5_witness :
    update_vnode 12 1 (some wC5nc) 0 wC5st = .ok wC5res ∧
    (wC5res.tree.getVNode 0).dirty = false ∧
    (wC5res.tree.getVNode 1).dirty = false ∧
    (wC5res.tree.getVNode 2).dirty = false ∧
    (wC5res.tree.getVNode 3).dirty = false ∧
    (wC5res.tree.getVNode 4).dirty = false := by
  have h := C5_flat_turn_all_clean 12 1 wC5nc 0 wC5st wC5res
    (by
      intro i
      match i with
      | 0 => rfl
      | 1 => rfl
      | 2 => rfl
      | 3 => rfl
      | 4 => rfl
      | (n + 5) => rfl)
    (by decide)
    (by decide)
    (by
      intro c hc
      have hc' : c ∈ [1, 2] := hc
      rcases List.mem_cons.mp hc' with rfl | hc2
      · exact ⟨by decide, by decide, 3, rfl, rfl, by decide, by decide,
          by decide⟩
      rcases List.mem_cons.mp hc2 with rfl | hc3
      · exact ⟨by decide, by decide, 4, rfl, rfl, by decide, by decide,
          by decide⟩
      cases hc3)
    (by
      intro w hw
      have hw' : w ∈ [leafViewUpd 2, leafViewUpd 1] := hw
      rcases List.mem_cons.mp hw' with rfl | hw2
      · rfl
      rcases List.mem_cons.mp hw2 with rfl | hw3
      · rfl
      cases hw3)
    (by
      intro w hw
      have hw' : w ∈ [leafViewUpd 2, leafViewUpd 1] := hw
      rcases List.mem_cons.mp hw' with rfl | hw2
      · exact ⟨2, by decide, rfl⟩
      rcases List.mem_cons.mp hw2 with rfl | hw3
      · exact ⟨1, by decide, rfl⟩
      cases hw3)
    (by decide)
    (by decide)
    rfl
  exact ⟨rfl, h 0, h 1, h 2, h 3, h 4⟩
